import Mathlib

/-!
OQCompress: the adaptive quality-score block packer.

A shallow embedding of `QualCompressor` and of the alignment loop of `main`
(src/OQCompress.cc) and theorems about them.

Modelling conventions.

* `uint8_t`, `uint32_t`/`unsigned` and `uint64_t` values are natural numbers; every
  operation that can wrap is written with an explicit `% 2^8`, `% 2^32` or `% 2^64`;
  a subtraction `a - b` of `w`-bit unsigned values is `(2^w + a - b) % 2^w`.
* The three vectors that the code reads from the back (`mBlocks` through `back()`,
  `pop_back()`, `push_back()`; `mCosts` through the descending iterator `iCost`; the
  already scanned part of `quals` through the descending iterator `itr2`) are kept as
  lists in REVERSE order, so that the head of the list is the last element of the
  vector.  `configureBlocks` reverses the block stack once at the end.
* `exit(1)` is the error `Err.badQual`; an access the C++ standard leaves undefined
  (`back()` of an empty vector, reading `quals` past its end) is the error
  `Err.undef`.
* `decode` reads its input through aligned 64-bit loads, so the bytes of the memory
  around the buffer are an explicit parameter of the model; a load takes its eight
  bytes in little-endian order, the byte order under which `decode` inverts `encode`.
* The stream format of the specification (`WireBlock`, `serialise`) is defined a second
  time from the words of the specification, to be compared with `encode` and `decode`.
  The aux tags of an alignment are likewise delimited a second time from the size table
  of the specification (`specTags`), to be compared with the tag loop of `main`.
* The alignment loop of `main` works on lists of bytes: the bytes still to be read from
  the input stream and the bytes written; a read of `n` bytes fails when fewer are left,
  and writing is taken to succeed.  The image of a `BAMAlignHead` is the list of its 36
  bytes, fields are read from it in little-endian order.  `auxLen` and `tagLen` are
  integers: a conversion to `int32_t` is `toInt32`, an `int` subtraction whose result does
  not fit is the error `Fatal.overflow`.  Every `BAMERR` exit on the input is a
  constructor of `Fatal`.
-/

namespace OQCompress

/-- The ways in which the codec can fail to return. -/
inductive Err where
  /-- The fatal exit of `configureBlocks` on a quality score above `MAX_Q`. -/
  | badQual (q : Nat)
  /-- An access with undefined behaviour. -/
  | undef
  deriving DecidableEq, Repr

/-- The struct `QualCompressor::Block`; the three fields are `uint8_t`. -/
structure Block where
  mNQs : Nat
  mBits : Nat
  mMinQ : Nat
  deriving DecidableEq, Repr

/-- The constructor `Block(uint8_t nQs, uint8_t bits, uint8_t minQ)`: the arguments
are converted to `uint8_t`. -/
def Block.make (nQs bits minQ : Nat) : Block :=
  ⟨nQs % 2^8, bits % 2^8, minQ % 2^8⟩

/-- The number of zero bits above the highest set bit among the lowest `k` bits. -/
def clzFrom : Nat → Nat → Nat
  | 0, _ => 0
  | k + 1, val => if 2^k ≤ val then 0 else clzFrom k val + 1

/-- The compiler builtin `__builtin_clz` on a non-zero `unsigned`: the number of
leading zero bits of the 32-bit value. -/
def builtin_clz (val : Nat) : Nat := clzFrom 32 val

/-- The function `nlz`: the number of leading zeros of a 32-bit value. -/
def nlz (val : Nat) : Nat :=
  if val ≠ 0 then builtin_clz val else 32

/-- The function `ceilLg2(val) = 32 - nlz(val - 1)` with the 32-bit wrap of `val - 1`. -/
def ceilLg2 (val : Nat) : Nat :=
  32 - nlz ((2^32 + val - 1) % 2^32)

/-- The function `Block::blockSize`, in `unsigned` arithmetic. -/
def blockSize (nQs nBits : Nat) : Nat :=
  ((nQs * nBits + 17 + 7) % 2^32) >>> 3

/-- The method `Block::size`. -/
def Block.size (b : Block) : Nat := blockSize b.mNQs b.mBits

/-- The constant `MAX_Q`. -/
def MAX_Q : Nat := 63

/-- The state of the inner loop of `configureBlocks` that survives an iteration
(`bits`, `prevCost` and `val` are assigned before they are read in each one). -/
structure Sweep where
  minVal : Nat
  maxVal : Nat
  nQs : Nat
  bestCost : Nat
  best : Block
  deriving DecidableEq, Repr

/-- The inner loop `while ( itr2 != beg && nQs < 255 )` of `configureBlocks`.
`prev` holds the qualities before `itr2`, last one first, and `costs` the entries
of `mCosts` before `iCost`, last one first; `*--iCost` with no entry left is
undefined. -/
def sweepBack : List Nat → List Nat → Sweep → Except Err Sweep
  | [], _, s => .ok s
  | val :: prev, costs, s =>
    if s.nQs < 255 then
      match costs with
      | [] => .error .undef
      | prevCost :: costs =>
        let maxVal := if val > s.maxVal then val else s.maxVal
        let minVal := if val < s.minVal then val else s.minVal
        let bits := ceilLg2 ((2^32 + (maxVal + 1) - minVal) % 2^32)
        let nQs := (s.nQs + 1) % 2^32
        let curCost := (prevCost + blockSize nQs bits) % 2^32
        if curCost < s.bestCost then
          sweepBack prev costs ⟨minVal, maxVal, nQs, curCost, Block.make nQs bits minVal⟩
        else
          sweepBack prev costs ⟨minVal, maxVal, nQs, s.bestCost, s.best⟩
    else .ok s

/-- The loop `while ( toRemove > mBlocks.back().mNQs )` of `configureBlocks` on the
block stack (last block first). -/
def popBlocks : Nat → List Block → Except Err (Nat × List Block)
  | _, [] => .error .undef
  | toRemove, b :: bs =>
    if toRemove > b.mNQs then popBlocks (toRemove - b.mNQs) bs
    else .ok (toRemove, b :: bs)

/-- The lines of `configureBlocks` after the inner loop that put `best` on the
block stack. -/
def placeBest (best : Block) (blocks : List Block) : Except Err (List Block) :=
  let toRemove := (2^32 + best.mNQs - 1) % 2^32
  if toRemove = 0 then .ok (best :: blocks)
  else
    match popBlocks toRemove blocks with
    | .error e => .error e
    | .ok (_, []) => .error .undef
    | .ok (toRemove, b :: bs) =>
      if toRemove = b.mNQs then .ok (best :: bs)
      else .ok (best :: { b with mNQs := (2^32 + b.mNQs - toRemove) % 2^32 % 2^8 } :: bs)

/-- One iteration of the outer loop of `configureBlocks` at the quality `q = *itr`:
the new entry of `mCosts` and the new block stack.  `prev` are the qualities before
`itr`, last one first; `costs` is `mCosts`, last entry first. -/
def sweepStep (q : Nat) (prev costs : List Nat) (blocks : List Block) :
    Except Err (Nat × List Block) :=
  if q > MAX_Q then .error (.badQual q)
  else
    match costs with
    | [] => .error .undef
    | prevCost :: costs' =>
      match sweepBack prev costs'
          ⟨q, q, 1, (prevCost + blockSize 1 0) % 2^32, Block.make 1 0 q⟩ with
      | .error e => .error e
      | .ok s =>
        match placeBest s.best blocks with
        | .error e => .error e
        | .ok blocks' => .ok (s.bestCost, blocks')

/-- The outer loop `while ( itr != end )` of `configureBlocks`; `rest` are the
qualities from `itr` on. -/
def sweepAll : List Nat → List Nat → List Nat → List Block →
    Except Err (List Nat × List Block)
  | [], _, costs, blocks => .ok (costs, blocks)
  | q :: rest, prev, costs, blocks =>
    match sweepStep q prev costs blocks with
    | .error e => .error e
    | .ok (c, blocks') => sweepAll rest (q :: prev) (c :: costs) blocks'

/-- The method `configureBlocks`: the final `mCosts` and `mBlocks`, both in the
order of the vectors. -/
def configureBlocks (quals : List Nat) : Except Err (List Nat × List Block) :=
  match sweepAll quals [] [0] [] with
  | .error e => .error e
  | .ok (costs, blocks) => .ok (costs.reverse, blocks.reverse)

/-- The method `packedSize`. -/
def packedSize (mBlocks : List Block) : Nat :=
  mBlocks.foldl (fun acc blk => (acc + blk.size) % 2^64) 0

/-- The loop `while ( nQs-- )` of `encode`: `quals` are the qualities from `itr` on,
`out` is `mBuffer`.  Returns the buffer, `bits`, `off` and the advanced `itr`. -/
def packFields (nBits minQ : Nat) :
    Nat → List Nat → List Nat → Nat → Nat → Except Err (List Nat × Nat × Nat × List Nat)
  | 0, quals, out, bits, off => .ok (out, bits, off, quals)
  | _ + 1, [], _, _, _ => .error .undef
  | nQs + 1, q :: quals, out, bits, off =>
    let val := (2^64 + q - minQ) % 2^64
    let bits := bits ||| (val <<< off) % 2^64
    let off := (off + nBits) % 2^64
    if off ≥ 8 then
      packFields nBits minQ nQs quals (out ++ [bits % 2^8]) (bits >>> 8) (off - 8)
    else
      packFields nBits minQ nQs quals out bits off

/-- The body of the loop `for ( Block const& block : mBlocks )` of `encode`. -/
def packBlock (block : Block) (quals out : List Nat) : Except Err (List Nat × List Nat) :=
  let nQs := block.mNQs
  let nBits := block.mBits
  let minQ := block.mMinQ
  let out := out ++ [nQs % 2^8]
  let bits := nBits ||| (minQ <<< 3) % 2^64
  let out := out ++ [bits % 2^8]
  let bits := bits >>> 8
  if nBits = 0 then
    if nQs ≤ quals.length then .ok (out ++ [bits % 2^8], quals.drop nQs)
    else .error .undef
  else
    match packFields nBits minQ nQs quals out bits 1 with
    | .error e => .error e
    | .ok (out, bits, off, quals) =>
      if off ≠ 0 then .ok (out ++ [bits % 2^8], quals) else .ok (out, quals)

/-- The loop `for ( Block const& block : mBlocks )` of `encode`. -/
def packBlocks : List Block → List Nat → List Nat → Except Err (List Nat)
  | [], _, out => .ok out
  | block :: blocks, quals, out =>
    match packBlock block quals out with
    | .error e => .error e
    | .ok (out, quals) => packBlocks blocks quals out

/-- The method `encode`. -/
def encode (quals : List Nat) : Except Err (List Nat) :=
  match configureBlocks quals with
  | .error e => .error e
  | .ok (_, mBlocks) =>
    match packBlocks mBlocks quals [] with
    | .error e => .error e
    | .ok out => .ok (out ++ [0])

/-- The bytes that `decode` can load: the vector `packedQuals` lies at the byte
address `addr`, every other byte of the memory is given by `env`. -/
def memory (env : Nat → Nat) (addr : Nat) (packedQuals : List Nat) : Nat → Nat :=
  fun a =>
    if addr ≤ a ∧ a < addr + packedQuals.length then packedQuals.getD (a - addr) 0
    else env a

/-- The load `*buf` of a `uint64_t` at the byte address `buf` (little-endian). -/
def load64 (mem : Nat → Nat) (buf : Nat) : Nat :=
  mem buf % 2^8 + (mem (buf + 1) % 2^8) <<< 8 + (mem (buf + 2) % 2^8) <<< 16
    + (mem (buf + 3) % 2^8) <<< 24 + (mem (buf + 4) % 2^8) <<< 32
    + (mem (buf + 5) % 2^8) <<< 40 + (mem (buf + 6) % 2^8) <<< 48
    + (mem (buf + 7) % 2^8) <<< 56

/-- The registers of `decode`: `bits`, `remain`, the pointer `buf` (as a byte
address) and the output `mBuffer`. -/
structure Reader where
  bits : Nat
  remain : Nat
  buf : Nat
  out : List Nat
  deriving DecidableEq, Repr

/-- The loop `while ( nQs-- )` of `decode` for a block with `nBits != 0`. -/
def unpackFields (mem : Nat → Nat) (nBits minQ mask : Nat) : Nat → Reader → Reader
  | 0, r => r
  | nQs + 1, r =>
    let val := r.bits
    let used := nBits
    if r.remain < nBits then
      let bits := load64 mem r.buf
      let val := val ||| (bits <<< r.remain) % 2^64
      let used := (2^64 + used - r.remain) % 2^64
      let remain := (r.remain + 64) % 2^64
      unpackFields mem nBits minQ mask nQs
        ⟨bits >>> used, (2^64 + remain - nBits) % 2^64, r.buf + 8,
          r.out ++ [(minQ + (val &&& mask)) % 2^8]⟩
    else
      unpackFields mem nBits minQ mask nQs
        ⟨r.bits >>> used, (2^64 + r.remain - nBits) % 2^64, r.buf,
          r.out ++ [(minQ + (val &&& mask)) % 2^8]⟩

/-- The first lines of the body of the loop of `decode`, which drop the byte `nQs`:
`bits >>= 8; if ( !(remain -= 8) ) { bits = *buf++; remain = 64; }`. -/
def skipCount (mem : Nat → Nat) (r : Reader) : Reader :=
  let bits := r.bits >>> 8
  let remain := (2^64 + r.remain - 8) % 2^64
  if remain = 0 then ⟨load64 mem r.buf, 64, r.buf + 8, r.out⟩
  else ⟨bits, remain, r.buf, r.out⟩

/-- The header of a block as `decode` reads it, with the registers after it. -/
structure Header where
  reader : Reader
  nBits : Nat
  minQ : Nat
  deriving DecidableEq, Repr

/-- The lines of `decode` that read `nBits` and `minQ`, from `uint64_t nBits = bits & 0x07`
to `remain -= 9`. -/
def readHeader (mem : Nat → Nat) (r : Reader) : Header :=
  let nBits := r.bits &&& 0x07
  let bits := r.bits >>> 3
  let minQ := bits &&& 0x3f
  let bits := bits >>> 6
  if r.remain < 9 then
    let bits := load64 mem r.buf
    let minQ := minQ ||| ((bits &&& 1) <<< 5) % 2^64
    let bits := bits >>> 1
    let remain := (r.remain + 64) % 2^64
    ⟨⟨bits, (2^64 + remain - 9) % 2^64, r.buf + 8, r.out⟩, nBits, minQ⟩
  else
    ⟨⟨bits, (2^64 + r.remain - 9) % 2^64, r.buf, r.out⟩, nBits, minQ⟩

/-- The last lines of the body of the loop of `decode`, which skip the padding:
`bits >>= remain & 7; remain &= ~7ul; if ( !remain ) { bits = *buf++; remain = 64; }`. -/
def realign (mem : Nat → Nat) (r : Reader) : Reader :=
  let bits := r.bits >>> (r.remain &&& 7)
  let remain := r.remain &&& (2^64 - 8)
  if remain = 0 then ⟨load64 mem r.buf, 64, r.buf + 8, r.out⟩
  else ⟨bits, remain, r.buf, r.out⟩

/-- The body of the loop `while ( (nQs = bits&0xff) )` of `decode`. -/
def unpackBlock (mem : Nat → Nat) (nQs : Nat) (r : Reader) : Reader :=
  let h := readHeader mem (skipCount mem r)
  if h.nBits = 0 then
    realign mem { h.reader with out := h.reader.out ++ List.replicate nQs (h.minQ % 2^8) }
  else
    realign mem (unpackFields mem h.nBits h.minQ
      ((2^64 + (1 <<< h.nBits) % 2^64 - 1) % 2^64) nQs h.reader)

/-- The loop `while ( (nQs = bits&0xff) )` of `decode`, run for at most `fuel`
blocks; `none` when the fuel is used up before a zero `nQs` is read. -/
def unpackLoop (mem : Nat → Nat) : Nat → Reader → Option (List Nat)
  | 0, r => if r.bits &&& 0xff = 0 then some r.out else none
  | fuel + 1, r =>
    let nQs := r.bits &&& 0xff
    if nQs = 0 then some r.out
    else unpackLoop mem fuel (unpackBlock mem nQs r)

/-- The method `decode` for the vector `packedQuals` stored at the address `addr` of
a memory whose other bytes are `env`.  Every block takes at least one byte of the
vector, so the loop is given `packedQuals.length` rounds; `none` means that the
reader left the vector without meeting a zero `nQs`. -/
def decode (env : Nat → Nat) (addr : Nat) (packedQuals : List Nat) : Option (List Nat) :=
  if packedQuals = [] then some []
  else
    let mem := memory env addr packedQuals
    let buf := addr &&& (2^64 - 8)
    let bits := load64 mem buf
    let buf := buf + 8
    let addr := ((addr &&& 7) <<< 3) % 2^64
    let remain := (2^64 + 64 - addr) % 2^64
    let bits := bits >>> addr
    unpackLoop mem packedQuals.length ⟨bits, remain, buf, []⟩

/-- The fatal exits of the alignment loop of `main` (the `BAMERR` sites that report a
defect of the input), the fatal exit of `encode`, and the executions that the C++
standard leaves undefined or that end in an uncaught exception. -/
inductive Fatal where
  | alnHeaderTruncated
  | readNameTruncated
  | cigarTruncated
  | invalidBlockSize
  | sequenceTruncated
  | qualsTruncated
  | tagHeaderTruncated
  | oqNonZ
  | oqDataTruncated
  | oqWrongLength
  | zqNonB
  | zqNonC
  | zqSizeTruncated
  | zqDataTruncated
  | zqWrongSize
  | badTagType
  | bTagTruncated
  | bTagBadType
  | tagDataTruncated
  | nullTagTruncated
  | bogusBlockLen
  /-- The codec did not return: `exit(1)` in `encode`, or an undefined access. -/
  | codec (e : Err)
  /-- The call `buffer.resize(tagLen)` with a negative `tagLen`. -/
  | badResize
  /-- An `int` operation whose result does not fit (undefined). -/
  | overflow
  /-- The loop budget of the model is used up (it never is: every round takes at least
  three bytes of the input). -/
  | outOfFuel
  deriving DecidableEq, Repr

/-- The function `getTagLength`; `dataType` is the byte read, so the `char` values
below zero are the bytes from 128 on and match no case. -/
def getTagLength (dataType : Nat) : Int :=
  if dataType = 65 ∨ dataType = 99 ∨ dataType = 67 then 1
  else if dataType = 115 ∨ dataType = 83 then 2
  else if dataType = 105 ∨ dataType = 73 ∨ dataType = 102 then 4
  else if dataType = 90 ∨ dataType = 72 ∨ dataType = 66 then 0
  else -1

/-- The value of an unsigned integer stored in the bytes given (little-endian, as
`reinterpret_cast<char*>(&val)` sees it on the machines the program is built for). -/
def leValue : List Nat → Nat
  | [] => 0
  | b :: bytes => b % 2^8 + 2^8 * leValue bytes

/-- The `width` bytes in which an unsigned integer is stored (little-endian). -/
def leBytes : Nat → Nat → List Nat
  | 0, _ => []
  | width + 1, n => n % 2^8 :: leBytes width (n / 2^8)

/-- The value `sizeof(BAMAlignHead)`: four `uint32_t`/`int32_t` fields of 4 bytes, two
`uint8_t`, three `uint16_t`, then four more 4-byte fields; no padding is needed. -/
def sizeofBAMAlignHead : Nat := 4 + 4 + 4 + 1 + 1 + 2 + 2 + 2 + 4 + 4 + 4 + 4

/-- The field `mRemainingBlockSize` of the image `aln` of a `BAMAlignHead` (offset 0). -/
def mRemainingBlockSize (aln : List Nat) : Nat := leValue (aln.take 4)

/-- The field `mNameLen` (offset 12, one byte). -/
def mNameLen (aln : List Nat) : Nat := leValue ((aln.drop 12).take 1)

/-- The field `mCigarLen` (offset 16, two bytes). -/
def mCigarLen (aln : List Nat) : Nat := leValue ((aln.drop 16).take 2)

/-- The field `mSeqLen` (offset 20, four bytes). -/
def mSeqLen (aln : List Nat) : Nat := leValue ((aln.drop 20).take 4)

/-- The assignment `aln.mRemainingBlockSize = v` on the image of the struct. -/
def setRemainingBlockSize (aln : List Nat) (v : Nat) : List Nat :=
  leBytes 4 (v % 2^32) ++ aln.drop 4

/-- The call `is.read(buf, n)` on the bytes still to be read: the `n` bytes and the
rest, or `none` when fewer than `n` bytes are left. -/
def readN (n : Nat) (input : List Nat) : Option (List Nat × List Nat) :=
  if n ≤ input.length then some (input.take n, input.drop n) else none

/-- The conversion of an integer to `int32_t` (modulo `2^32`). -/
def toInt32 (z : Int) : Int := (z + 2^31) % 2^32 - 2^31

/-- The subtraction `a - b` of two `int` values; a result outside `int` is undefined. -/
def isub (a b : Int) : Except Fatal Int :=
  if -2^31 ≤ a - b ∧ a - b < 2^31 then .ok (a - b) else .error .overflow

/-- The variables of the tag loop of `main`: the bytes still to be read from `is`, the
bytes written to `oss` so far, and `auxLen`. -/
structure Walk where
  input : List Nat
  oss : List Nat
  auxLen : Int
  deriving DecidableEq, Repr

/-- The value of `auxLen` after its initialisation
`aln.mRemainingBlockSize - sizeof(aln) + sizeof(aln.mRemainingBlockSize) - aln.mNameLen - val`
with `val = aln.mCigarLen*sizeof(uint32_t)`: the arithmetic is that of `size_t`, the
result is converted to `int32_t`. -/
def auxLenInit (aln : List Nat) : Int :=
  let val : Nat := (mCigarLen aln * 4) % 2^64 % 2^32
  let a : Nat := (2^64 + mRemainingBlockSize aln - sizeofBAMAlignHead) % 2^64
  let a : Nat := (a + 4) % 2^64
  let a : Nat := (2^64 + a - mNameLen aln) % 2^64
  let a : Nat := (2^64 + a - val) % 2^64
  toInt32 (a : Nat)

/-- The value of `auxLen` after `val = (aln.mSeqLen + 1)/2; auxLen -= val + aln.mSeqLen`
(arithmetic of `uint32_t`, the result converted to `int32_t`): the number of bytes
that the tag loop expects. -/
def auxLenTags (aln : List Nat) : Int :=
  let val : Nat := (mSeqLen aln + 1) % 2^32 / 2
  toInt32 (auxLenInit aln - ((val + mSeqLen aln) % 2^32 : Nat))

/-- The `do ... while ( byte )` loop that copies a null-delimited tag value. -/
def copyCString : List Nat → List Nat → Int → Except Fatal Walk
  | [], _, _ => .error .nullTagTruncated
  | byte :: input, oss, auxLen =>
    match isub auxLen 1 with
    | .error e => .error e
    | .ok auxLen =>
      if byte % 2^8 ≠ 0 then copyCString input (oss ++ [byte]) auxLen
      else .ok ⟨input, oss ++ [byte], auxLen⟩

/-- The end of the tag loop body, from `if ( tagLen )` on. -/
def copyValue (tagLen : Int) (input oss : List Nat) (auxLen : Int) : Except Fatal Walk :=
  if tagLen ≠ 0 then
    if tagLen < 0 then .error .badResize
    else
      match readN tagLen.toNat input with
      | none => .error .tagDataTruncated
      | some (buffer, input) =>
        match isub auxLen tagLen with
        | .error e => .error e
        | .ok auxLen => .ok ⟨input, oss ++ buffer, auxLen⟩
  else copyCString input oss auxLen

/-- The tag loop body for a tag that is neither `OQ` nor `ZQ`, after the three bytes
`tag` have been read. -/
def otherTag (tag input oss : List Nat) (auxLen : Int) : Except Fatal Walk :=
  let oss := oss ++ tag
  match isub auxLen 3 with
  | .error e => .error e
  | .ok auxLen =>
    let tagLen := getTagLength (tag.getD 2 0)
    if tagLen = -1 then .error .badTagType
    else if tag.getD 2 0 = 66 then
      match input with
      | [] => .error .bTagTruncated
      | dataType :: input =>
        match readN 4 input with
        | none => .error .bTagTruncated
        | some (arrLen, input) =>
          let oss := oss ++ dataType :: arrLen
          let tagLen := getTagLength dataType
          if tagLen ≤ 0 then .error .bTagBadType
          else
            let tagLen := toInt32 (tagLen * (leValue arrLen : Nat))
            match isub auxLen 5 with
            | .error e => .error e
            | .ok auxLen => copyValue tagLen input oss auxLen
    else copyValue tagLen input oss auxLen

/-- The tag loop body for an `OQ` tag, after the three bytes `tag` have been read. -/
def oqTag (seqLen : Nat) (tag input oss : List Nat) (auxLen : Int) : Except Fatal Walk :=
  if tag.getD 2 0 ≠ 90 then .error .oqNonZ
  else
    match readN seqLen input with
    | none => .error .oqDataTruncated
    | some (buffer, input) =>
      match input with
      | [] => .error .oqWrongLength
      | byte :: input =>
        if byte % 2^8 ≠ 0 then .error .oqWrongLength
        else
          let buffer := buffer.map (fun val => (2^8 + val % 2^8 - 33) % 2^8)
          match encode buffer with
          | .error e => .error (.codec e)
          | .ok packedQuals =>
            let oss := oss ++ [90, 81, 66, 67]
            let size := packedQuals.length % 2^32
            let oss := oss ++ leBytes 4 size
            let oss := if size ≠ 0 then oss ++ packedQuals.take size else oss
            .ok ⟨input, oss, toInt32 (auxLen - ((seqLen + 1 + 3) % 2^32 : Nat))⟩

/-- The tag loop body for a `ZQ` tag, after the three bytes `tag` have been read; the
vector handed to `decode` lies at the address `addr` of a memory `env`. -/
def zqTag (env : Nat → Nat) (addr : Nat) (seqLen : Nat) (tag input oss : List Nat)
    (auxLen : Int) : Except Fatal Walk :=
  if tag.getD 2 0 ≠ 66 then .error .zqNonB
  else
    match input with
    | [] => .error .zqNonC
    | dataType :: input =>
      if dataType ≠ 67 then .error .zqNonC
      else
        match readN 4 input with
        | none => .error .zqSizeTruncated
        | some (sizeBytes, input) =>
          let size := leValue sizeBytes
          match readN size input with
          | none => .error .zqDataTruncated
          | some (buffer, input) =>
            match decode env addr buffer with
            | none => .error (.codec .undef)
            | some quals =>
              if quals.length ≠ seqLen then .error .zqWrongSize
              else
                let quals := quals.map (fun val => (val + 33) % 2^8)
                let oss := oss ++ [79, 81, 90] ++ quals ++ [0]
                .ok ⟨input, oss, toInt32 (auxLen - ((size + 4 + 4) % 2^32 : Nat))⟩

/-- One round of the loop `while ( auxLen > 0 )` of `main`. -/
def tagStep (env : Nat → Nat) (addr : Nat) (seqLen : Nat) (w : Walk) : Except Fatal Walk :=
  match readN 3 w.input with
  | none => .error .tagHeaderTruncated
  | some (tag, input) =>
    if tag.getD 0 0 = 79 ∧ tag.getD 1 0 = 81 then oqTag seqLen tag input w.oss w.auxLen
    else if tag.getD 0 0 = 90 ∧ tag.getD 1 0 = 81 then
      zqTag env addr seqLen tag input w.oss w.auxLen
    else otherTag tag input w.oss w.auxLen

/-- The loop `while ( auxLen > 0 )` of `main`, run for at most `fuel` rounds. -/
def walkTags (env : Nat → Nat) (addr : Nat) (seqLen : Nat) : Nat → Walk → Except Fatal Walk
  | 0, w => if w.auxLen > 0 then .error .outOfFuel else .ok w
  | fuel + 1, w =>
    if w.auxLen > 0 then
      match tagStep env addr seqLen w with
      | .error e => .error e
      | .ok w => walkTags env addr seqLen fuel w
    else .ok w

/-- The body of the alignment loop of `main` up to the tag loop: the image of the
header read and the variables with which the tag loop starts. -/
def readFixed (input : List Nat) : Except Fatal (List Nat × Walk) :=
  match readN sizeofBAMAlignHead input with
  | none => .error .alnHeaderTruncated
  | some (aln, input) =>
    match readN (mNameLen aln) input with
    | none => .error .readNameTruncated
    | some (buffer, input) =>
      let oss := buffer
      let val := (mCigarLen aln * 4) % 2^64 % 2^32
      match readN val input with
      | none => .error .cigarTruncated
      | some (buffer, input) =>
        let oss := oss ++ buffer
        let val := (mSeqLen aln + 1) % 2^32 / 2
        let auxLen := auxLenTags aln
        if auxLen < 0 then .error .invalidBlockSize
        else
          match readN val input with
          | none => .error .sequenceTruncated
          | some (buffer, input) =>
            let oss := oss ++ buffer
            match readN (mSeqLen aln) input with
            | none => .error .qualsTruncated
            | some (buffer, input) =>
              let oss := oss ++ buffer
              .ok (aln, ⟨input, oss, auxLen⟩)

/-- One round of the alignment loop of `main` on the bytes still to be read: the bytes
written to `os` for the alignment and the bytes left to read.  Writing is taken to
succeed. -/
def processAlignment (env : Nat → Nat) (addr : Nat) (input : List Nat) :
    Except Fatal (List Nat × List Nat) :=
  match readFixed input with
  | .error e => .error e
  | .ok (aln, w) =>
    match walkTags env addr (mSeqLen aln) (w.input.length + 1) w with
    | .error e => .error e
    | .ok w =>
      if w.auxLen < 0 then .error .bogusBlockLen
      else
        let alnBytes := w.oss
        let aln := setRemainingBlockSize aln
          ((2^64 + (alnBytes.length + sizeofBAMAlignHead) % 2^64 - 4) % 2^64)
        .ok (aln ++ alnBytes, w.input)

/-- The loop `for ( Block const& block : mBlocks )` of `encode` with the position of `itr`
at its end (the qualities from `itr` on); `packBlocks` keeps only the buffer. -/
def packBlocksItr : List Block → List Nat → List Nat → Except Err (List Nat × List Nat)
  | [], quals, out => .ok (out, quals)
  | block :: blocks, quals, out =>
    match packBlock block quals out with
    | .error e => .error e
    | .ok (out, quals) => packBlocksItr blocks quals out

/-! Definitions used to state and prove the properties. -/

/-- The part of `quals` that each block of `mBlocks` covers, in order. -/
def segments : List Block → List Nat → List (Block × List Nat)
  | [], _ => []
  | b :: bs, quals => (b, quals.take b.mNQs) :: segments bs (quals.drop b.mNQs)

/-- The block `b` is within the limits of the format and represents `seg`. -/
def BlockOK (b : Block) (seg : List Nat) : Prop :=
  1 ≤ b.mNQs ∧ b.mNQs ≤ 255 ∧ b.mBits ≤ 6 ∧ b.mMinQ ≤ 63 ∧ seg.length = b.mNQs ∧
    ∀ q ∈ seg, b.mMinQ ≤ q ∧ q < b.mMinQ + 2^b.mBits

/-- The blocks cover the list exactly, block after block, each within `BlockOK`. -/
def Covers : List Block → List Nat → Prop
  | [], qs => qs = []
  | b :: bs, qs => BlockOK b (qs.take b.mNQs) ∧ Covers bs (qs.drop b.mNQs)

/-- What the inner loop of `configureBlocks` maintains while it walks back over `R`, the
scanned qualities with the current one first. -/
def SweepOK (R : List Nat) (s : Sweep) : Prop :=
  1 ≤ s.nQs ∧ s.nQs ≤ 255 ∧ s.nQs ≤ R.length ∧ s.minVal ≤ s.maxVal ∧ s.maxVal ≤ 63 ∧
    (∀ x ∈ R.take s.nQs, s.minVal ≤ x ∧ x ≤ s.maxVal) ∧
    BlockOK s.best (R.take s.best.mNQs)

/-- The `w` low bits of `n`, least significant first: a field of the stream format. -/
def bitsLE : Nat → Nat → List Bool
  | 0, _ => []
  | w + 1, n => decide (n % 2 = 1) :: bitsLE w (n / 2)

/-- The number whose bits, least significant first, are `bs`. -/
def valueLE : List Bool → Nat
  | [] => 0
  | b :: bs => b.toNat + 2 * valueLE bs

/-- The bytes of an LSB-first bit stream: eight bits to a byte, the first bit in the
lowest place; an incomplete last byte is filled with zero bits. -/
def packBits : List Bool → List Nat
  | b0 :: b1 :: b2 :: b3 :: b4 :: b5 :: b6 :: b7 :: rest =>
    valueLE [b0, b1, b2, b3, b4, b5, b6, b7] :: packBits rest
  | [] => []
  | bs => [valueLE bs]

/-- A block of the stream format as the specification describes it (it is not a type of
the code): the header fields `nQs`, `bits`, `minQ` and the `bits`-wide fields, none
when `bits` is 0. -/
structure WireBlock where
  nQs : Nat
  bits : Nat
  minQ : Nat
  fields : List Nat
  deriving DecidableEq, Repr

/-- The zero bits that fill a stream of `len` bits up to a byte boundary. -/
def padBits (len : Nat) : List Bool := List.replicate ((8 - len % 8) % 8) false

/-- The bits of a block of the stream format without the padding: 8 bits `nQs`, 3 bits
`bits`, 6 bits `minQ`, then the fields, `bits` bits each. -/
def bodyBits (b : WireBlock) : List Bool :=
  bitsLE 8 b.nQs ++ (bitsLE 3 b.bits ++ (bitsLE 6 b.minQ ++ b.fields.flatMap (bitsLE b.bits)))

/-- The bits of a block, padded with zeros to a byte boundary. -/
def blockBits (b : WireBlock) : List Bool :=
  bodyBits b ++ padBits (bodyBits b).length

/-- The packed stream of a list of blocks as the specification of the format describes
it, written from that description and not from `encode`: the bytes of each padded
block in order, then the terminator byte `0x00`. -/
def serialise (blocks : List WireBlock) : List Nat :=
  blocks.flatMap (fun b => packBits (blockBits b)) ++ [0]

/-- The qualities that a block of the stream format stands for: `minQ + field` for each
field, or `minQ` repeated `nQs` times when `bits` is 0. -/
def WireBlock.values (b : WireBlock) : List Nat :=
  if b.bits = 0 then List.replicate b.nQs b.minQ else b.fields.map (fun f => b.minQ + f)

/-- The limits on a block of a conformant stream: `nQs` in [1, 255], `bits` in [0, 7],
`minQ` in [0, 63], and `nQs` fields below `2^bits` (no field when `bits` is 0). -/
def WireBlock.Conformant (b : WireBlock) : Prop :=
  1 ≤ b.nQs ∧ b.nQs ≤ 255 ∧ b.bits ≤ 7 ∧ b.minQ ≤ 63 ∧
    if b.bits = 0 then b.fields = []
    else b.fields.length = b.nQs ∧ ∀ f ∈ b.fields, f < 2^b.bits

/-- The wire form of the block `b` of `mBlocks` that covers the qualities `seg`. -/
def Block.wire (b : Block) (seg : List Nat) : WireBlock :=
  ⟨b.mNQs, b.mBits, b.mMinQ, if b.mBits = 0 then [] else seg.map (fun q => q - b.mMinQ)⟩

/-- The bits of a byte string, eight per byte, lowest bit first. -/
def bytesBits (bytes : List Nat) : List Bool := bytes.flatMap (bitsLE 8)

/-- The wire form of `mBlocks` over the qualities `quals`. -/
def wireBlocks (blocks : List Block) (quals : List Nat) : List WireBlock :=
  (segments blocks quals).map (fun p => p.1.wire p.2)

/-- The bit at position `P` of a memory, counting from bit 0 of the byte at address 0. -/
def mbit (mem : Nat → Nat) (P : Nat) : Bool :=
  decide (mem (P / 8) / 2 ^ (P % 8) % 2 = 1)

/-- The `k` bits of a bit sequence from position `P` on. -/
def window (f : Nat → Bool) : Nat → Nat → List Bool
  | _, 0 => []
  | P, k + 1 => f P :: window f (P + 1) k

/-- The number formed by the `k` bits of the memory from bit position `P` on,
lowest bit first. -/
def peek (mem : Nat → Nat) (P k : Nat) : Nat := valueLE (window (mbit mem) P k)

/-- The registers of `decode` hold the bits of the memory from position `P` up to the
end of the last loaded word. -/
def RInv (mem : Nat → Nat) (r : Reader) (P : Nat) : Prop :=
  r.remain ≤ 64 ∧ r.bits = peek mem P r.remain ∧ P + r.remain = 8 * r.buf

/-- The cost of the cheapest packing of `j` equal qualities: three bytes for every
started run of 255. -/
def constCost (j : Nat) : Nat := 3 * ((j + 254) / 255)

/-- The entries `constCost (j-1), ..., constCost 0`. -/
def constCostsBelow : Nat → List Nat
  | 0 => []
  | j + 1 => constCost j :: constCostsBelow j

/-- The block stack (last block first) for `k` copies of `v`: a block for the
`k % 255` last ones, if any, on top of `k / 255` full blocks. -/
def constStack (v k : Nat) : List Block :=
  (if k % 255 ≠ 0 then [⟨k % 255, 0, v⟩] else []) ++ List.replicate (k / 255) ⟨255, 0, v⟩

/-- The blocks that `configureBlocks` is expected to leave for `n` equal qualities `v`. -/
def constBlocks (v n : Nat) : List Block :=
  List.replicate (n / 255) ⟨255, 0, v⟩ ++ (if n % 255 ≠ 0 then [⟨n % 255, 0, v⟩] else [])

/-- The bytes of one block as the description of the layout words them: the byte `nQs`,
the byte `((minQ << 3) | bits) mod 256`, then the bytes of the LSB-first bit stream
whose first bit is `minQ >> 5` and that goes on with the fields `q - minQ`, `bits` bits
each, the last byte filled with zero bits. -/
def layoutBlock (b : Block) (seg : List Nat) : List Nat :=
  b.mNQs :: ((b.mMinQ <<< 3 ||| b.mBits) % 256) ::
    packBits (decide ((b.mMinQ >>> 5) % 2 = 1) ::
      seg.flatMap (fun q => bitsLE b.mBits (q - b.mMinQ)))

/-- The layout of the whole stream: the bytes of the blocks in order, then one byte
`0x00`. -/
def layout (blocks : List Block) (quals : List Nat) : List Nat :=
  (segments blocks quals).flatMap (fun p => layoutBlock p.1 p.2) ++ [0]

/-- The block `best` that the inner loop of `configureBlocks` records at each position,
first position first: the same sweeps as in `sweepAll`, without the block stack. -/
def sweepBests : List Nat → List Nat → List Nat → Except Err (List Block)
  | [], _, _ => .ok []
  | q :: rest, prev, costs =>
    if q > MAX_Q then .error (.badQual q)
    else
      match costs with
      | [] => .error .undef
      | prevCost :: costs' =>
        match sweepBack prev costs'
            ⟨q, q, 1, (prevCost + blockSize 1 0) % 2^32, Block.make 1 0 q⟩ with
        | .error e => .error e
        | .ok s =>
          match sweepBests rest (q :: prev) (s.bestCost :: costs) with
          | .error e => .error e
          | .ok bests => .ok (s.best :: bests)

/-- The classical back-pointer walk: at `k > 0` take the block recorded at `k` and go on
at `k - nQs`; the blocks come out in the order of the vector. -/
def backWalk (bests : List Block) : Nat → Nat → List Block → List Block
  | 0, _, acc => acc
  | fuel + 1, k, acc =>
    if k = 0 then acc
    else
      let b := bests.getD (k - 1) ⟨0, 0, 0⟩
      backWalk bests fuel (k - b.mNQs) (b :: acc)

/-- The block list of the back-pointer reconstruction, starting at `k = n`. -/
def backPointerBlocks (quals : List Nat) : Except Err (List Block) :=
  match sweepBests quals [] [0] with
  | .error e => .error e
  | .ok bests => .ok (backWalk bests quals.length quals.length [])

/-- The tag that the next round of the tag loop reads is an `OQ` or a `ZQ` tag. -/
def isQualTag (input : List Nat) : Bool :=
  (input.getD 0 0 = 79 ∧ input.getD 1 0 = 81) ∨ (input.getD 0 0 = 90 ∧ input.getD 1 0 = 81)

/-- One of the tags that the tag loop walks over, starting from `w`, is an `OQ` or a
`ZQ` tag (the tags are delimited as the loop delimits them). -/
def hasQualTag (env : Nat → Nat) (addr : Nat) (seqLen : Nat) : Nat → Walk → Bool
  | 0, _ => false
  | fuel + 1, w =>
    if w.auxLen > 0 then
      isQualTag w.input ||
        match tagStep env addr seqLen w with
        | .error _ => false
        | .ok w => hasQualTag env addr seqLen fuel w
    else false

/-- The value that the description of the budget gives for `auxLen` at the start of the
tag loop, written from its words: `remainingBlockSize - 32 + 4 - nameLen - 4*cigarLen
- (seqLen+1)/2 - seqLen`, held as a signed 32-bit value. -/
def claimedAuxLen (aln : List Nat) : Int :=
  toInt32 ((mRemainingBlockSize aln : Int) - 32 + 4 - mNameLen aln - 4 * mCigarLen aln
    - (((mSeqLen aln + 1) % 2^32 / 2 : Nat) : Int) - mSeqLen aln)

/-- The aux tags of the alignment at the head of `input`, as the tag loop delimits them,
include an `OQ` or a `ZQ` tag. -/
def recordHasQualTag (env : Nat → Nat) (addr : Nat) (input : List Nat) : Bool :=
  match readFixed input with
  | .error _ => false
  | .ok (aln, w) => hasQualTag env addr (mSeqLen aln) (w.input.length + 1) w

/-- The largest element of a segment (0 for the empty one). -/
def segMax (seg : List Nat) : Nat := seg.foldl max 0

/-- The smallest element of a segment (0 for the empty one). -/
def segMin (seg : List Nat) : Nat :=
  match seg with
  | [] => 0
  | x :: xs => xs.foldl min x

/-- The field width that a block covering the segment needs:
`ceilLg2 (max - min + 1)`. -/
def width (seg : List Nat) : Nat := ceilLg2 (segMax seg - segMin seg + 1)

/-- The cost of packing the first `k` qualities with a last block that starts at
position `j`: `mCosts[j] + blockSize (k - j) (width q[j..k))`. -/
def candCost (costs quals : List Nat) (j k : Nat) : Nat :=
  costs.getD j 0 + blockSize (k - j) (width ((quals.drop j).take (k - j)))

/-- The same cost in the terms of the inner loop: `R` are the scanned qualities, the
current one first, `C` is `mCosts` with the last entry first, and the last block has
`m` elements. -/
def candRev (R C : List Nat) (m : Nat) : Nat :=
  C.getD (m - 1) 0 + blockSize m (width (R.take m))

/-- What the inner loop of `configureBlocks` knows after `s.nQs` elements: the running
minimum and maximum, and in `best` the shortest block whose cost is the least so far. -/
def SweepExact (R C : List Nat) (s : Sweep) : Prop :=
  s.minVal = segMin (R.take s.nQs) ∧ s.maxVal = segMax (R.take s.nQs) ∧
    1 ≤ s.best.mNQs ∧ s.best.mNQs ≤ s.nQs ∧ s.best.mBits = width (R.take s.best.mNQs) ∧
    s.best.mMinQ = segMin (R.take s.best.mNQs) ∧ s.bestCost = candRev R C s.best.mNQs ∧
    (∀ i, 1 ≤ i → i ≤ s.nQs → s.bestCost ≤ candRev R C i) ∧
    (∀ i, 1 ≤ i → i < s.best.mNQs → s.bestCost < candRev R C i)

/-- A bound on the entries of `mCosts` (last entry first): the entry for a prefix of `j`
qualities is at most 194 bytes for every started run of 255. -/
def CostsBounded : List Nat → Prop
  | [] => True
  | c :: cs => c ≤ 194 * ((cs.length + 254) / 255) ∧ CostsBounded cs

/-- What an iteration of the outer loop of `configureBlocks` establishes for the new
entry `c` of `mCosts` and the block `best`, in the terms of the inner loop. -/
def StepExact (R C : List Nat) (c : Nat) (best : Block) : Prop :=
  1 ≤ best.mNQs ∧ best.mNQs ≤ min R.length 255 ∧ best.mBits = width (R.take best.mNQs) ∧
    best.mMinQ = segMin (R.take best.mNQs) ∧ c = candRev R C best.mNQs ∧
    (∀ i, 1 ≤ i → i ≤ min R.length 255 → c ≤ candRev R C i) ∧
    (∀ i, 1 ≤ i → i < best.mNQs → c < candRev R C i)

/-- What the iteration `k` of the outer loop of `configureBlocks` establishes, in the
terms of the vectors: `best` is the block recorded at `k`, it starts at
`k - best.mNQs`, its cost is the entry `k` of `mCosts`, no candidate start in
`[max(0, k-255), k)` costs less, and every later start costs strictly more. -/
def ForwardExact (costs quals : List Nat) (k : Nat) (best : Block) : Prop :=
  1 ≤ best.mNQs ∧ best.mNQs ≤ min k 255 ∧
    best.mBits = width ((quals.drop (k - best.mNQs)).take best.mNQs) ∧
    best.mMinQ = segMin ((quals.drop (k - best.mNQs)).take best.mNQs) ∧
    costs.getD k 0 = candCost costs quals (k - best.mNQs) k ∧
    (∀ j, k - 255 ≤ j → j < k → costs.getD k 0 ≤ candCost costs quals j k) ∧
    (∀ j, k - best.mNQs < j → j < k → costs.getD k 0 < candCost costs quals j k)

/-- The size of an array element of the subtype given, from the size table of the
specification (`A`, `c`, `C`: 1; `s`, `S`: 2; `i`, `I`, `f`: 4). -/
def specElemSize (subtype : Nat) : Option Nat :=
  if subtype = 'A'.toNat ∨ subtype = 'c'.toNat ∨ subtype = 'C'.toNat then some 1
  else if subtype = 's'.toNat ∨ subtype = 'S'.toNat then some 2
  else if subtype = 'i'.toNat ∨ subtype = 'I'.toNat ∨ subtype = 'f'.toNat then some 4
  else none

/-- The length of a null-terminated value, the `0x00` included. -/
def specStringLen : List Nat → Option Nat
  | [] => none
  | b :: bytes => if b = 0 then some 1 else (specStringLen bytes).map (fun n => n + 1)

/-- The number of bytes of the value of a tag of the type given at the head of `value`,
from the size table of the specification: a fixed size, a null-terminated string for
`Z` and `H`, and for `B` the subtype byte, the 4-byte count and `count` elements. -/
def specValueLen (type : Nat) (value : List Nat) : Option Nat :=
  if type = 'Z'.toNat ∨ type = 'H'.toNat then specStringLen value
  else if type = 'B'.toNat then
    match value with
    | subtype :: c0 :: c1 :: c2 :: c3 :: _ =>
      (specElemSize subtype).map (fun size => 1 + 4 + leValue [c0, c1, c2, c3] * size)
    | _ => none
  else specElemSize type

/-- The aux tags of an alignment as the specification of the format delimits them (two
name bytes, a type byte, the value), written from its size table and not from the tag
loop of `main`; `none` when the bytes are not a sequence of tags. -/
def specTagsFrom : Nat → List Nat → Option (List (List Nat))
  | _, [] => some []
  | 0, _ :: _ => none
  | fuel + 1, t0 :: t1 :: type :: value =>
    match specValueLen type value with
    | none => none
    | some n =>
      if n ≤ value.length then
        (specTagsFrom fuel (value.drop n)).map (fun tags => (t0 :: t1 :: type :: value.take n) :: tags)
      else none
  | _ + 1, _ => none

/-- The aux tags in the bytes `aux` (every tag has at least three bytes, so `aux.length`
rounds are enough). -/
def specTags (aux : List Nat) : Option (List (List Nat)) := specTagsFrom aux.length aux

/-- The name of the tag is `OQ` or `ZQ`. -/
def isQualName (tag : List Nat) : Bool :=
  (tag.getD 0 0 = 'O'.toNat ∨ tag.getD 0 0 = 'Z'.toNat) ∧ tag.getD 1 0 = 'Q'.toNat

deriving instance DecidableEq for Except

instance (b : WireBlock) : Decidable b.Conformant := by
  unfold WireBlock.Conformant
  infer_instance

instance (b : Block) (seg : List Nat) : Decidable (BlockOK b seg) := by
  unfold BlockOK
  infer_instance

/-! Lemmas. -/

theorem ceilLg2_spec (v : Nat) (h1 : 1 ≤ v) (h2 : v ≤ 64) :
    ceilLg2 v ≤ 6 ∧ v ≤ 2^(ceilLg2 v) := by
  interval_cases v <;> decide

theorem blockOK_reverse {b : Block} {seg : List Nat} (h : BlockOK b seg) :
    BlockOK b seg.reverse := by
  obtain ⟨h1, h2, h3, h4, h5, h6⟩ := h
  exact ⟨h1, h2, h3, h4, by simpa using h5, fun q hq => h6 q (List.mem_reverse.mp hq)⟩

theorem covers_length : ∀ {bs : List Block} {qs : List Nat}, Covers bs qs →
    (bs.map Block.mNQs).sum = qs.length
  | [], qs, h => by simp [Covers] at h; simp [h]
  | b :: bs, qs, h => by
    obtain ⟨hb, hr⟩ := h
    have ih := covers_length hr
    have hl := hb.2.2.2.2.1
    simp only [List.length_take, List.length_drop] at hl ih
    simp only [List.map_cons, List.sum_cons, ih]
    omega

theorem covers_append : ∀ {as : List Block} {xs : List Nat} {bs : List Block} {ys : List Nat},
    Covers as xs → Covers bs ys → Covers (as ++ bs) (xs ++ ys)
  | [], xs, bs, ys, h, h' => by simp [Covers] at h; simpa [h] using h'
  | a :: as, xs, bs, ys, h, h' => by
    obtain ⟨ha, hr⟩ := h
    have hl : a.mNQs ≤ xs.length := by
      have := ha.2.2.2.2.1
      simp only [List.length_take] at this
      omega
    refine ⟨?_, ?_⟩
    · rw [List.take_append_of_le_length hl]; exact ha
    · rw [List.drop_append_of_le_length hl]; exact covers_append hr h'

theorem covers_reverse : ∀ {bs : List Block} {qs : List Nat}, Covers bs qs →
    Covers bs.reverse qs.reverse
  | [], qs, h => by simp [Covers] at h; simp [h, Covers]
  | b :: bs, qs, h => by
    obtain ⟨hb, hr⟩ := h
    have ih := covers_reverse hr
    have hq : qs.reverse = (qs.drop b.mNQs).reverse ++ (qs.take b.mNQs).reverse := by
      rw [← List.reverse_append, List.take_append_drop]
    rw [List.reverse_cons, hq]
    refine covers_append ih ⟨?_, ?_⟩
    · have hl : (qs.take b.mNQs).reverse.length = b.mNQs := by
        simpa using hb.2.2.2.2.1
      rw [List.take_of_length_le (by omega)]
      exact blockOK_reverse hb
    · have hl : (qs.take b.mNQs).reverse.length = b.mNQs := by
        simpa using hb.2.2.2.2.1
      rw [List.drop_of_length_le (by omega)]
      rfl

theorem drop_drop_of_add {α : Type} (l : List α) {a b c : Nat} (h : a + b = c) :
    (l.drop a).drop b = l.drop c := by
  subst h
  simp [List.drop_drop, Nat.add_comm]

theorem pop_spec : ∀ (st : List Block) (qs : List Nat) (m : Nat), Covers st qs → 0 < m →
    m ≤ qs.length →
    ∃ m' b bs, popBlocks m st = .ok (m', b :: bs) ∧ 0 < m' ∧ m' ≤ b.mNQs ∧ m' ≤ m ∧
      Covers (b :: bs) (qs.drop (m - m'))
  | [], qs, m, h, hm, hl => by
    simp [Covers] at h
    subst h
    simp at hl
    omega
  | b :: bs, qs, m, h, hm, hl => by
    by_cases hgt : m > b.mNQs
    · obtain ⟨hb, hr⟩ := h
      have hlen : b.mNQs ≤ qs.length := by
        have := hb.2.2.2.2.1
        simp only [List.length_take] at this
        omega
      obtain ⟨m', b', bs', he, h1, h2, h3, h4⟩ :=
        pop_spec bs (qs.drop b.mNQs) (m - b.mNQs) hr (by omega)
          (by simp only [List.length_drop]; omega)
      refine ⟨m', b', bs', ?_, h1, h2, by omega, ?_⟩
      · simp only [popBlocks, hgt, if_true, he]
      · rwa [drop_drop_of_add _ (by omega : b.mNQs + (m - b.mNQs - m') = m - m')] at h4
    · refine ⟨m, b, bs, ?_, hm, by omega, le_refl _, ?_⟩
      · simp only [popBlocks, hgt, if_false]
      · simpa using h

theorem mem_take_drop {x : Nat} {n k : Nat} {l : List Nat}
    (h : x ∈ (l.drop k).take (n - k)) : x ∈ l.take n := by
  rw [← List.drop_take] at h
  exact List.mem_of_mem_drop h

theorem placeBest_spec (best : Block) (st : List Block) (q : Nat) (prev : List Nat)
    (hc : Covers st prev) (hb : BlockOK best ((q :: prev).take best.mNQs)) :
    ∃ st', placeBest best st = .ok st' ∧ Covers st' (q :: prev) := by
  obtain ⟨h1, h2, h3, h4, h5, h6⟩ := hb
  have hlen : best.mNQs ≤ prev.length + 1 := by
    simp only [List.length_take, List.length_cons] at h5
    omega
  have htr : (2^32 + best.mNQs - 1) % 2^32 = best.mNQs - 1 := by omega
  by_cases h0 : best.mNQs - 1 = 0
  · refine ⟨best :: st, ?_, ?_⟩
    · simp only [placeBest, htr, h0, if_true]
    · have : best.mNQs = 1 := by omega
      refine ⟨⟨h1, h2, h3, h4, h5, h6⟩, ?_⟩
      rw [this]
      simpa using hc
  · obtain ⟨m', b, bs, he, hm1, hm2, hm3, hcov⟩ :=
      pop_spec st prev (best.mNQs - 1) hc (by omega) (by omega)
    obtain ⟨hbk, hrest⟩ := hcov
    have hdrop : (q :: prev).drop best.mNQs = prev.drop (best.mNQs - 1) := by
      obtain ⟨n, hn⟩ : ∃ n, best.mNQs = n + 1 := ⟨best.mNQs - 1, by omega⟩
      rw [hn]
      simp
    by_cases heq : m' = b.mNQs
    · refine ⟨best :: bs, ?_, ?_⟩
      · simp only [placeBest, htr, h0, if_false, he, heq, if_true]
      · refine ⟨⟨h1, h2, h3, h4, h5, h6⟩, ?_⟩
        rw [hdrop]
        rwa [drop_drop_of_add _ (by omega : best.mNQs - 1 - m' + b.mNQs = best.mNQs - 1)] at hrest
    · obtain ⟨k1, k2, k3, k4, k5, k6⟩ := hbk
      have hsub : (2^32 + b.mNQs - m') % 2^32 % 2^8 = b.mNQs - m' := by
        simp only [Nat.reducePow]
        omega
      have hk5 : b.mNQs ≤ (prev.drop (best.mNQs - 1 - m')).length := by
        simp only [List.length_take] at k5
        omega
      have hsplit : prev.drop (best.mNQs - 1) =
          (prev.drop (best.mNQs - 1 - m')).drop m' := by
        exact (drop_drop_of_add _ (by omega)).symm
      refine ⟨best :: { b with mNQs := b.mNQs - m' } :: bs, ?_, ?_⟩
      · simp only [placeBest, htr, h0, if_false, he, heq, hsub]
      · refine ⟨⟨h1, h2, h3, h4, h5, h6⟩, ?_⟩
        rw [hdrop]
        refine ⟨⟨?_, ?_, k3, k4, ?_, ?_⟩, ?_⟩
        · show 1 ≤ b.mNQs - m'
          omega
        · show b.mNQs - m' ≤ 255
          omega
        · show (List.take (b.mNQs - m') (prev.drop (best.mNQs - 1))).length = b.mNQs - m'
          rw [hsplit]
          simp only [List.length_take, List.length_drop] at hk5 ⊢
          omega
        · intro x hx
          have hx' : x ∈ List.take (b.mNQs - m') (prev.drop (best.mNQs - 1)) := hx
          rw [hsplit] at hx'
          exact k6 x (mem_take_drop hx')
        · show Covers bs (List.drop (b.mNQs - m') (prev.drop (best.mNQs - 1)))
          rw [hsplit, drop_drop_of_add _ (by omega : m' + (b.mNQs - m') = b.mNQs)]
          exact hrest

theorem mem_take_succ_of_drop {x v : Nat} {p : List Nat} : ∀ {n : Nat} {R : List Nat},
    R.drop n = v :: p → x ∈ R.take (n + 1) → x ∈ R.take n ∨ x = v
  | 0, R, h, hx => by
    simp only [List.drop_zero] at h
    subst h
    simpa using hx
  | n + 1, [], h, _ => by simp at h
  | n + 1, a :: R, h, hx => by
    simp only [List.drop_succ_cons] at h
    simp only [List.take_succ_cons, List.mem_cons] at hx ⊢
    rcases hx with hx | hx
    · exact Or.inl (Or.inl hx)
    · rcases mem_take_succ_of_drop h hx with h' | h'
      · exact Or.inl (Or.inr h')
      · exact Or.inr h'

theorem length_of_drop_eq_cons {v : Nat} {p R : List Nat} {n : Nat} (h : R.drop n = v :: p) :
    n + 1 ≤ R.length := by
  have := congrArg List.length h
  simp only [List.length_drop, List.length_cons] at this
  omega

theorem drop_succ_of_drop {v : Nat} {p R : List Nat} {n : Nat} (h : R.drop n = v :: p) :
    R.drop (n + 1) = p := by
  rw [← drop_drop_of_add R (rfl : n + 1 = n + 1), h]
  rfl

theorem sweepOK_step {R : List Nat} {s : Sweep} {v : Nat} {p : List Nat}
    (h : SweepOK R s) (hd : R.drop s.nQs = v :: p) (hlt : s.nQs < 255) (hv : v ≤ 63) :
    (∀ (bc : Nat) (bb : Block), BlockOK bb (R.take bb.mNQs) →
      SweepOK R ⟨if v < s.minVal then v else s.minVal, if v > s.maxVal then v else s.maxVal,
        s.nQs + 1, bc, bb⟩) ∧
    BlockOK ⟨s.nQs + 1,
        ceilLg2 ((if v > s.maxVal then v else s.maxVal) + 1
          - (if v < s.minVal then v else s.minVal)),
        if v < s.minVal then v else s.minVal⟩ (R.take (s.nQs + 1)) := by
  obtain ⟨h1, h2, h3, h4, h5, h6, h7⟩ := h
  have hlen := length_of_drop_eq_cons hd
  generalize hmax : (if v > s.maxVal then v else s.maxVal) = maxVal
  generalize hmin : (if v < s.minVal then v else s.minVal) = minVal
  have hmx : maxVal ≤ 63 := by rw [← hmax]; split <;> omega
  have hmn : minVal ≤ maxVal := by rw [← hmax, ← hmin]; split <;> split <;> omega
  have hrng : ∀ x ∈ R.take (s.nQs + 1), minVal ≤ x ∧ x ≤ maxVal := by
    intro x hx
    rcases mem_take_succ_of_drop hd hx with hx' | hx'
    · have := h6 x hx'
      rw [← hmax, ← hmin]
      constructor
      · split <;> omega
      · split <;> omega
    · subst hx'
      rw [← hmax, ← hmin]
      constructor
      · split <;> omega
      · split <;> omega
  constructor
  · intro bc bb hbb
    exact ⟨Nat.le_add_left 1 s.nQs, hlt, hlen, hmn, hmx, hrng, hbb⟩
  · obtain ⟨hb6, hpow⟩ := ceilLg2_spec (maxVal + 1 - minVal) (by omega) (by omega)
    generalize ceilLg2 (maxVal + 1 - minVal) = w at hb6 hpow
    refine ⟨Nat.le_add_left 1 s.nQs, hlt, hb6, le_trans hmn hmx, ?_, ?_⟩
    · show (List.take (s.nQs + 1) R).length = s.nQs + 1
      rw [List.length_take]
      omega
    · intro x hx
      have := hrng x hx
      show minVal ≤ x ∧ x < minVal + 2 ^ w
      generalize 2 ^ w = P at hpow ⊢
      omega

theorem mod_small {a n : Nat} (h : a < n) : a % n = a := Nat.mod_eq_of_lt h

theorem sweepBack_ok (R : List Nat) (hR : ∀ x ∈ R, x ≤ 63) :
    ∀ (prev costs : List Nat) (s : Sweep), SweepOK R s → R.drop s.nQs = prev →
      prev.length ≤ costs.length →
      ∃ s', sweepBack prev costs s = .ok s' ∧ SweepOK R s'
  | [], costs, s, h, _, _ => ⟨s, by rw [sweepBack], h⟩
  | v :: p, [], s, _, _, hl => by
    rw [List.length_cons, List.length_nil] at hl
    omega
  | v :: p, c :: cs, s, h, hd, hl => by
    have hl' : p.length ≤ cs.length := by
      rw [List.length_cons, List.length_cons] at hl
      omega
    rw [sweepBack]
    by_cases hlt : s.nQs < 255
    · rw [if_pos hlt]
      have hv : v ≤ 63 := hR v (List.mem_of_mem_drop (hd ▸ List.mem_cons_self v p))
      have hd' : R.drop (s.nQs + 1) = p := drop_succ_of_drop hd
      obtain ⟨hstep, hblk⟩ := sweepOK_step h hd hlt hv
      have hmx : (if v > s.maxVal then v else s.maxVal) ≤ 63 := by
        have := h.2.2.2.2.1
        split <;> omega
      have hmn : (if v < s.minVal then v else s.minVal)
          ≤ (if v > s.maxVal then v else s.maxVal) := by
        have := h.2.2.2.1
        split <;> split <;> omega
      have hn : (s.nQs + 1) % 2^32 = s.nQs + 1 := mod_small (by
        have : (255 : Nat) < 2^32 := by decide
        omega)
      have hw : (2^32 + ((if v > s.maxVal then v else s.maxVal) + 1)
            - (if v < s.minVal then v else s.minVal)) % 2^32
          = (if v > s.maxVal then v else s.maxVal) + 1
            - (if v < s.minVal then v else s.minVal) := by
        generalize (if v > s.maxVal then v else s.maxVal) = a at hmx hmn
        generalize (if v < s.minVal then v else s.minVal) = b at hmn
        have : (64 : Nat) < 2^32 := by decide
        generalize (2:Nat)^32 = M at this
        have e : M + (a + 1) - b = (a + 1 - b) + M := by omega
        rw [e, Nat.add_mod_right]
        exact mod_small (by omega)
      dsimp only
      rw [hn, hw]
      have hb6 := hblk.2.2.1
      have e1 : (s.nQs + 1) % 2^8 = s.nQs + 1 := mod_small (by
        have : (2:Nat)^8 = 256 := by decide
        omega)
      have e3 : (if v < s.minVal then v else s.minVal) % 2^8
          = (if v < s.minVal then v else s.minVal) := mod_small (by
        have : (2:Nat)^8 = 256 := by decide
        omega)
      have e2 : ∀ w, w ≤ 6 → w % 2^8 = w := fun w hw6 => mod_small (by
        have : (2:Nat)^8 = 256 := by decide
        omega)
      by_cases hc : (c + blockSize (s.nQs + 1)
          (ceilLg2 ((if v > s.maxVal then v else s.maxVal) + 1
            - (if v < s.minVal then v else s.minVal)))) % 2^32 < s.bestCost
      · rw [if_pos hc]
        refine sweepBack_ok R hR p cs _ (hstep _ _ ?_) hd' hl'
        rw [Block.make, e1, e3, e2 _ hb6]
        exact hblk
      · rw [if_neg hc]
        exact sweepBack_ok R hR p cs _ (hstep _ _ h.2.2.2.2.2.2) hd' hl'
    · rw [if_neg hlt]
      exact ⟨s, rfl, h⟩

theorem le63_cons {q : Nat} {prev : List Nat} (hq : q ≤ 63) (hp : ∀ x ∈ prev, x ≤ 63) :
    ∀ x ∈ q :: prev, x ≤ 63 := by
  intro x hx
  rcases List.mem_cons.mp hx with h | h
  · omega
  · exact hp x h

theorem sweepStep_ok (q : Nat) (prev costs : List Nat) (st : List Block) (hq : q ≤ 63)
    (hp : ∀ x ∈ prev, x ≤ 63) (hc : Covers st prev) (hcost : costs.length = prev.length + 1) :
    ∃ c st', sweepStep q prev costs st = .ok (c, st') ∧ Covers st' (q :: prev) := by
  obtain ⟨c0, cs, rfl⟩ := List.exists_cons_of_ne_nil
    (List.ne_nil_of_length_pos (by rw [hcost]; exact Nat.succ_pos _))
  have hcs : prev.length ≤ cs.length := by
    rw [List.length_cons] at hcost
    omega
  have hR := le63_cons hq hp
  have e3 : q % 2^8 = q := mod_small (by
    have : (2:Nat)^8 = 256 := by decide
    omega)
  have hmk : Block.make 1 0 q = ⟨1, 0, q⟩ := by
    have a1 : 1 % 2^8 = 1 := by decide
    have a0 : 0 % 2^8 = 0 := by decide
    rw [Block.make, e3, a1, a0]
  have hblk : BlockOK (Block.make 1 0 q) ((q :: prev).take (Block.make 1 0 q).mNQs) := by
    rw [hmk]
    refine ⟨le_refl 1, (by decide : 1 ≤ 255), (by decide : 0 ≤ 6), hq, rfl, ?_⟩
    intro x hx
    have hx' : x ∈ [q] := hx
    rw [List.mem_singleton] at hx'
    subst hx'
    show x ≤ x ∧ x < x + 2 ^ 0
    omega
  have h0 : SweepOK (q :: prev) ⟨q, q, 1, (c0 + blockSize 1 0) % 2^32, Block.make 1 0 q⟩ := by
    refine ⟨le_refl 1, (by decide : 1 ≤ 255), Nat.le_add_left 1 _, le_refl _, hq, ?_, hblk⟩
    intro x hx
    have hx' : x ∈ [q] := hx
    rw [List.mem_singleton] at hx'
    subst hx'
    exact ⟨le_refl _, le_refl _⟩
  obtain ⟨s1, hs1, h1⟩ := sweepBack_ok (q :: prev) hR prev cs _ h0 rfl hcs
  obtain ⟨st', he, hcov⟩ := placeBest_spec _ st q prev hc h1.2.2.2.2.2.2
  refine ⟨s1.bestCost, st', ?_, hcov⟩
  have hnot : ¬ q > MAX_Q := Nat.not_lt.mpr hq
  simp only [sweepStep, if_neg hnot, hs1, he]

theorem sweepStep_bad (q : Nat) (prev costs : List Nat) (st : List Block) (hq : 63 < q) :
    sweepStep q prev costs st = .error (.badQual q) := by
  have : q > MAX_Q := hq
  unfold sweepStep
  rw [if_pos this]

theorem sweepAll_ok : ∀ (rest prev costs : List Nat) (st : List Block),
    (∀ x ∈ rest, x ≤ 63) → (∀ x ∈ prev, x ≤ 63) → Covers st prev →
    costs.length = prev.length + 1 →
    ∃ costs' st', sweepAll rest prev costs st = .ok (costs', st') ∧
      Covers st' (rest.reverse ++ prev) ∧ costs'.length = rest.length + costs.length
  | [], prev, costs, st, _, _, hc, _ => ⟨costs, st, rfl, by simpa using hc, by simp⟩
  | q :: rest, prev, costs, st, hr, hp, hc, hcost => by
    have hq : q ≤ 63 := hr q (List.mem_cons_self q rest)
    obtain ⟨c, st1, he, hcov⟩ := sweepStep_ok q prev costs st hq hp hc hcost
    obtain ⟨costs', st', he', hcov', hlen⟩ := sweepAll_ok rest (q :: prev) (c :: costs) st1
      (fun x hx => hr x (List.mem_cons_of_mem q hx)) (le63_cons hq hp) hcov
      (by rw [List.length_cons, List.length_cons, hcost])
    refine ⟨costs', st', ?_, ?_, ?_⟩
    · rw [sweepAll, he]
      exact he'
    · rw [List.reverse_cons, List.append_assoc]
      exact hcov'
    · rw [hlen, List.length_cons, List.length_cons]
      omega

theorem sweepAll_bad : ∀ (rest prev costs : List Nat) (st : List Block),
    (∃ x ∈ rest, 63 < x) → (∀ x ∈ prev, x ≤ 63) → Covers st prev →
    costs.length = prev.length + 1 →
    ∃ v, 63 < v ∧ v ∈ rest ∧ sweepAll rest prev costs st = .error (.badQual v)
  | [], _, _, _, hr, _, _, _ => by
    obtain ⟨x, hx, _⟩ := hr
    exact absurd hx (List.not_mem_nil x)
  | q :: rest, prev, costs, st, hr, hp, hc, hcost => by
    by_cases hq : 63 < q
    · refine ⟨q, hq, List.mem_cons_self q rest, ?_⟩
      rw [sweepAll, sweepStep_bad q prev costs st hq]
    · obtain ⟨c, st1, he, hcov⟩ := sweepStep_ok q prev costs st (by omega) hp hc hcost
      have hr' : ∃ x ∈ rest, 63 < x := by
        obtain ⟨x, hx, hx63⟩ := hr
        rcases List.mem_cons.mp hx with h | h
        · subst h
          exact absurd hx63 hq
        · exact ⟨x, h, hx63⟩
      obtain ⟨v, hv, hmem, he'⟩ := sweepAll_bad rest (q :: prev) (c :: costs) st1 hr'
        (le63_cons (by omega) hp) hcov (by rw [List.length_cons, List.length_cons, hcost])
      refine ⟨v, hv, List.mem_cons_of_mem q hmem, ?_⟩
      rw [sweepAll, he]
      exact he'

theorem configureBlocks_ok (quals : List Nat) (h : ∀ x ∈ quals, x ≤ 63) :
    ∃ costs blocks, configureBlocks quals = .ok (costs, blocks) ∧ Covers blocks quals ∧
      costs.length = quals.length + 1 := by
  obtain ⟨costs, st, he, hcov, hlen⟩ := sweepAll_ok quals [] [0] []
    h (fun x hx => absurd hx (List.not_mem_nil x)) rfl rfl
  refine ⟨costs.reverse, st.reverse, ?_, ?_, ?_⟩
  · rw [configureBlocks, he]
  · have := covers_reverse hcov
    rw [List.append_nil, List.reverse_reverse] at this
    exact this
  · rw [List.length_reverse, hlen]
    rfl

theorem configureBlocks_bad (quals : List Nat) (h : ∃ x ∈ quals, 63 < x) :
    ∃ v, 63 < v ∧ v ∈ quals ∧ configureBlocks quals = .error (.badQual v) := by
  obtain ⟨v, hv, hmem, he⟩ := sweepAll_bad quals [] [0] [] h
    (fun x hx => absurd hx (List.not_mem_nil x)) rfl rfl
  exact ⟨v, hv, hmem, by rw [configureBlocks, he]⟩

theorem bitsLE_length : ∀ (w n : Nat), (bitsLE w n).length = w
  | 0, _ => rfl
  | w + 1, n => by rw [bitsLE, List.length_cons, bitsLE_length w]

theorem valueLE_lt : ∀ (bs : List Bool), valueLE bs < 2 ^ bs.length
  | [] => by decide
  | b :: bs => by
    have ih := valueLE_lt bs
    rw [valueLE, List.length_cons, pow_succ]
    have : b.toNat ≤ 1 := Bool.toNat_le b
    generalize 2 ^ bs.length = P at ih ⊢
    omega

theorem valueLE_append : ∀ (as bs : List Bool),
    valueLE (as ++ bs) = valueLE as + 2 ^ as.length * valueLE bs
  | [], bs => by simp [valueLE]
  | a :: as, bs => by
    rw [List.cons_append, valueLE, valueLE, valueLE_append as bs, List.length_cons, pow_succ]
    ring

theorem toNat_decide_mod_two (n : Nat) : (decide (n % 2 = 1)).toNat = n % 2 := by
  rcases Nat.mod_two_eq_zero_or_one n with h | h <;> simp [h]

theorem valueLE_bitsLE : ∀ (w n : Nat), valueLE (bitsLE w n) = n % 2 ^ w
  | 0, n => by simp [bitsLE, valueLE, Nat.mod_one]
  | w + 1, n => by
    rw [bitsLE, valueLE, valueLE_bitsLE w, toNat_decide_mod_two, pow_succ, mul_comm (2 ^ w) 2,
      Nat.mod_mul]

theorem bitsLE_valueLE : ∀ (bs : List Bool), bitsLE bs.length (valueLE bs) = bs
  | [] => rfl
  | b :: bs => by
    have h1 : (b.toNat + 2 * valueLE bs) % 2 = b.toNat := by
      have : b.toNat ≤ 1 := Bool.toNat_le b
      omega
    have h2 : (b.toNat + 2 * valueLE bs) / 2 = valueLE bs := by
      have : b.toNat ≤ 1 := Bool.toNat_le b
      omega
    rw [List.length_cons, bitsLE, valueLE, h1, h2, bitsLE_valueLE bs]
    cases b <;> simp

theorem valueLE_take (k : Nat) : ∀ (bs : List Bool), valueLE (bs.take k) = valueLE bs % 2 ^ k := by
  induction k with
  | zero => intro bs; simp [valueLE, Nat.mod_one]
  | succ k ih =>
    intro bs
    cases bs with
    | nil => simp [valueLE]
    | cons b bs =>
      rw [List.take_succ_cons, valueLE, valueLE, ih bs, pow_succ, mul_comm (2 ^ k) 2,
        Nat.mod_mul]
      have : b.toNat ≤ 1 := Bool.toNat_le b
      have h1 : (b.toNat + 2 * valueLE bs) % 2 = b.toNat := by omega
      have h2 : (b.toNat + 2 * valueLE bs) / 2 = valueLE bs := by omega
      rw [h1, h2]

theorem valueLE_drop (k : Nat) : ∀ (bs : List Bool), valueLE (bs.drop k) = valueLE bs / 2 ^ k := by
  induction k with
  | zero => intro bs; simp
  | succ k ih =>
    intro bs
    cases bs with
    | nil => simp [valueLE]
    | cons b bs =>
      rw [List.drop_succ_cons, ih bs, valueLE, pow_succ, mul_comm (2 ^ k) 2,
        ← Nat.div_div_eq_div_mul]
      have : b.toNat ≤ 1 := Bool.toNat_le b
      have h2 : (b.toNat + 2 * valueLE bs) / 2 = valueLE bs := by omega
      rw [h2]

theorem valueLE_replicate_false : ∀ (k : Nat), valueLE (List.replicate k false) = 0
  | 0 => rfl
  | k + 1 => by rw [List.replicate_succ, valueLE, valueLE_replicate_false k]; rfl

theorem packBits_of_le {bs : List Bool} (h : 8 ≤ bs.length) :
    packBits bs = valueLE (bs.take 8) :: packBits (bs.drop 8) := by
  rcases bs with _ | ⟨b0, _ | ⟨b1, _ | ⟨b2, _ | ⟨b3, _ | ⟨b4, _ | ⟨b5, _ | ⟨b6, _ | ⟨b7, r⟩⟩⟩⟩⟩⟩⟩⟩
  all_goals first
    | (simp only [List.length_cons, List.length_nil] at h; omega)
    | rfl

theorem packBits_of_lt {bs : List Bool} (h0 : bs ≠ []) (h : bs.length < 8) :
    packBits bs = [valueLE bs] := by
  rcases bs with _ | ⟨b0, _ | ⟨b1, _ | ⟨b2, _ | ⟨b3, _ | ⟨b4, _ | ⟨b5, _ | ⟨b6, _ | ⟨b7, r⟩⟩⟩⟩⟩⟩⟩⟩
  all_goals first
    | exact absurd rfl h0
    | (simp only [List.length_cons, List.length_nil] at h; omega)
    | rfl

theorem packBits_append (n : Nat) : ∀ (as bs : List Bool), as.length = 8 * n →
    packBits (as ++ bs) = packBits as ++ packBits bs := by
  induction n with
  | zero =>
    intro as bs h
    have : as = [] := List.length_eq_zero.mp (by omega)
    subst this
    rfl
  | succ n ih =>
    intro as bs h
    have h8 : 8 ≤ as.length := by omega
    rw [packBits_of_le (by rw [List.length_append]; omega), packBits_of_le h8,
      List.take_append_of_le_length h8, List.drop_append_of_le_length h8,
      ih (as.drop 8) bs (by rw [List.length_drop]; omega)]
    rfl

theorem padBits_sub (len : Nat) (h : 8 ≤ len) : padBits (len - 8) = padBits len := by
  unfold padBits
  congr 1
  omega

theorem packBits_pad_short (bs : List Bool) (h : bs.length < 8) :
    packBits (bs ++ padBits bs.length) = packBits bs := by
  by_cases h0 : bs = []
  · subst h0
    rfl
  · have hlen : 0 < bs.length := List.length_pos.mpr h0
    have hpad : (padBits bs.length).length = 8 - bs.length := by
      unfold padBits
      rw [List.length_replicate]
      omega
    rw [packBits_of_lt h0 (by omega), packBits_of_le (by rw [List.length_append]; omega),
      List.take_of_length_le (by rw [List.length_append]; omega),
      List.drop_of_length_le (by rw [List.length_append]; omega), valueLE_append]
    unfold padBits
    rw [valueLE_replicate_false]
    simp [packBits]

theorem packBits_pad (n : Nat) : ∀ (bs : List Bool), bs.length < 8 * (n + 1) →
    packBits (bs ++ padBits bs.length) = packBits bs := by
  induction n with
  | zero =>
    intro bs h
    exact packBits_pad_short bs (by omega)
  | succ n ih =>
    intro bs h
    by_cases h8 : 8 ≤ bs.length
    · rw [packBits_of_le (by rw [List.length_append]; omega), packBits_of_le h8,
        List.take_append_of_le_length h8, List.drop_append_of_le_length h8,
        ← padBits_sub _ h8, ← List.length_drop, ih (bs.drop 8) (by rw [List.length_drop]; omega)]
    · exact packBits_pad_short bs (by omega)

theorem packBits_length (n : Nat) : ∀ (bs : List Bool), bs.length < 8 * (n + 1) →
    (packBits bs).length = (bs.length + 7) / 8 := by
  induction n with
  | zero =>
    intro bs h
    by_cases h0 : bs = []
    · subst h0
      rfl
    · have hlen : 0 < bs.length := List.length_pos.mpr h0
      rw [packBits_of_lt h0 (by omega), List.length_singleton]
      omega
  | succ n ih =>
    intro bs h
    by_cases h8 : 8 ≤ bs.length
    · rw [packBits_of_le h8, List.length_cons, ih _ (by rw [List.length_drop]; omega),
        List.length_drop]
      omega
    · by_cases h0 : bs = []
      · subst h0
        rfl
      · have hlen : 0 < bs.length := List.length_pos.mpr h0
        rw [packBits_of_lt h0 (by omega), List.length_singleton]
        omega

theorem bytesBits_packBits (n : Nat) : ∀ (bs : List Bool), bs.length = 8 * n →
    bytesBits (packBits bs) = bs := by
  induction n with
  | zero =>
    intro bs h
    have : bs = [] := List.length_eq_zero.mp (by omega)
    subst this
    rfl
  | succ n ih =>
    intro bs h
    have h8 : 8 ≤ bs.length := by omega
    have ht : (bs.take 8).length = 8 := by rw [List.length_take]; omega
    rw [packBits_of_le h8, bytesBits, List.flatMap_cons]
    have := bitsLE_valueLE (bs.take 8)
    rw [ht] at this
    rw [this]
    have ih' := ih (bs.drop 8) (by rw [List.length_drop]; omega)
    rw [bytesBits] at ih'
    rw [ih', List.take_append_drop]

theorem header_bytes : ∀ b < 8, ∀ m < 64,
    (b ||| (m <<< 3) % 2^64) % 2^8 = valueLE ((bitsLE 3 b ++ bitsLE 6 m).take 8) ∧
    (b ||| (m <<< 3) % 2^64) >>> 8 = valueLE ((bitsLE 3 b ++ bitsLE 6 m).drop 8) ∧
    ((b ||| (m <<< 3) % 2^64) >>> 8) % 2^8 = valueLE ((bitsLE 3 b ++ bitsLE 6 m).drop 8) := by
  decide

theorem or_shiftLeft_eq {a k : Nat} (b : Nat) (h : a < 2 ^ k) :
    a ||| b <<< k = a + 2 ^ k * b := by
  rw [Nat.shiftLeft_eq, Nat.lor_comm, mul_comm b, ← Nat.mul_add_lt_is_or h, add_comm]

theorem two_pow_le_of_le_seven {n : Nat} (h : n ≤ 7) : 2 ^ n ≤ 128 := by
  interval_cases n <;> decide

theorem packFields_spec (nBits minQ : Nat) (hb : nBits ≤ 7) :
    ∀ (seg rest out : List Nat) (pend : List Bool), pend.length < 8 →
      (∀ q ∈ seg, minQ ≤ q ∧ q < minQ + 2 ^ nBits) →
      ∃ out' tail,
        packFields nBits minQ seg.length (seg ++ rest) out (valueLE pend) pend.length
          = .ok (out ++ out', valueLE tail, tail.length, rest) ∧ tail.length < 8 ∧
        out' ++ packBits tail
          = packBits (pend ++ seg.flatMap (fun q => bitsLE nBits (q - minQ)))
  | [], rest, out, pend, hp, _ => by
    refine ⟨[], pend, ?_, hp, ?_⟩
    · rw [List.append_nil]
      rfl
    · rw [List.flatMap_nil, List.append_nil, List.nil_append]
  | q :: seg, rest, out, pend, hp, hr => by
    obtain ⟨hq1, hq2⟩ := hr q (List.mem_cons_self q seg)
    have h128 := two_pow_le_of_le_seven hb
    have hvlt : q - minQ < 2 ^ nBits := by
      generalize 2 ^ nBits = P at hq2 h128 ⊢
      omega
    have hval : (2^64 + q - minQ) % 2^64 = q - minQ := by
      have e : 2^64 + q - minQ = (q - minQ) + 2^64 := by omega
      rw [e, Nat.add_mod_right]
      refine Nat.mod_eq_of_lt ?_
      have : (128 : Nat) < 2^64 := by decide
      generalize 2 ^ nBits = P at hvlt h128
      generalize (2:Nat) ^ 64 = M at this ⊢
      omega
    have hplt := valueLE_lt pend
    have hbits : valueLE pend ||| ((q - minQ) <<< pend.length) % 2^64
        = valueLE (pend ++ bitsLE nBits (q - minQ)) := by
      have h1 : (q - minQ) <<< pend.length < 2^64 := by
        rw [Nat.shiftLeft_eq]
        have hp2 : 2 ^ pend.length ≤ 128 := two_pow_le_of_le_seven (by omega)
        calc (q - minQ) * 2 ^ pend.length < 128 * 128 := by
              apply Nat.mul_lt_mul_of_lt_of_le
              · generalize 2 ^ nBits = P at hvlt h128
                omega
              · exact hp2
              · decide
          _ < 2^64 := by decide
      rw [Nat.mod_eq_of_lt h1, or_shiftLeft_eq _ hplt, valueLE_append, valueLE_bitsLE,
        Nat.mod_eq_of_lt hvlt]
    have hlen : (pend ++ bitsLE nBits (q - minQ)).length = pend.length + nBits := by
      rw [List.length_append, bitsLE_length]
    have hoff : (pend.length + nBits) % 2^64 = (pend ++ bitsLE nBits (q - minQ)).length := by
      rw [hlen]
      refine Nat.mod_eq_of_lt ?_
      have : (128 : Nat) < 2^64 := by decide
      generalize (2:Nat) ^ 64 = M at this ⊢
      omega
    have hr' : ∀ x ∈ seg, minQ ≤ x ∧ x < minQ + 2 ^ nBits :=
      fun x hx => hr x (List.mem_cons_of_mem q hx)
    rw [List.flatMap_cons, ← List.append_assoc, List.length_cons, List.cons_append]
    generalize hX : pend ++ bitsLE nBits (q - minQ) = X at hbits hoff hlen
    simp only [packFields, hval, hbits, hoff]
    by_cases h8 : 8 ≤ X.length
    · have hd : (X.drop 8).length < 8 := by
        rw [List.length_drop]
        omega
      obtain ⟨out1, tail, he, ht, hpk⟩ :=
        packFields_spec nBits minQ hb seg rest (out ++ [valueLE X % 2^8]) (X.drop 8) hd hr'
      refine ⟨valueLE X % 2^8 :: out1, tail, ?_, ht, ?_⟩
      · have hge : X.length ≥ 8 := h8
        rw [if_pos hge, Nat.shiftRight_eq_div_pow, ← valueLE_drop,
          ← List.length_drop, he, List.append_assoc]
        rfl
      · have hge2 : 8 ≤ (X ++ seg.flatMap (fun q => bitsLE nBits (q - minQ))).length := by
          rw [List.length_append]
          omega
        rw [packBits_of_le hge2,
          List.take_append_of_le_length h8, List.drop_append_of_le_length h8, valueLE_take,
          List.cons_append, hpk]
    · have hd : X.length < 8 := by omega
      obtain ⟨out1, tail, he, ht, hpk⟩ := packFields_spec nBits minQ hb seg rest out X hd hr'
      refine ⟨out1, tail, ?_, ht, hpk⟩
      have hge : ¬ X.length ≥ 8 := h8
      rw [if_neg hge, he]

theorem packBits_bodyBits (w : WireBlock) (hb : w.bits < 8) (hm : w.minQ < 64) :
    packBits (blockBits w) = (w.nQs % 2^8) :: ((w.bits ||| (w.minQ <<< 3) % 2^64) % 2^8) ::
      packBits ((bitsLE 3 w.bits ++ bitsLE 6 w.minQ).drop 8 ++ w.fields.flatMap (bitsLE w.bits)) := by
  obtain ⟨h1, h2, h3⟩ := header_bytes w.bits hb w.minQ hm
  rw [blockBits, packBits_pad (bodyBits w).length _ (by omega), bodyBits]
  have l8 : (bitsLE 8 w.nQs).length = 8 := bitsLE_length 8 _
  have l9 : (bitsLE 3 w.bits ++ bitsLE 6 w.minQ).length = 9 := by
    rw [List.length_append, bitsLE_length, bitsLE_length]
  have hfirst : packBits (bitsLE 8 w.nQs) = [w.nQs % 2^8] := by
    rw [← valueLE_bitsLE 8 w.nQs]
    rfl
  rw [packBits_append 1 _ _ l8, hfirst, ← List.append_assoc]
  have hge : 8 ≤ ((bitsLE 3 w.bits ++ bitsLE 6 w.minQ)
      ++ w.fields.flatMap (bitsLE w.bits)).length := by
    rw [List.length_append]
    omega
  rw [packBits_of_le hge, List.take_append_of_le_length (by omega),
    List.drop_append_of_le_length (by omega), ← h1]
  rfl

theorem packBlock_spec (b : Block) (seg rest out : List Nat) (hb : BlockOK b seg) :
    packBlock b (seg ++ rest) out = .ok (out ++ packBits (blockBits (b.wire seg)), rest) := by
  obtain ⟨h1, h2, h3, h4, h5, h6⟩ := hb
  have hpk := packBits_bodyBits (b.wire seg) (Nat.lt_of_le_of_lt h3 (by decide))
    (Nat.lt_of_le_of_lt h4 (by decide))
  obtain ⟨e1, e2, e3⟩ := header_bytes b.mBits (by omega) b.mMinQ (by omega)
  have hpl : ((bitsLE 3 b.mBits ++ bitsLE 6 b.mMinQ).drop 8).length = 1 := by
    rw [List.length_drop, List.length_append, bitsLE_length, bitsLE_length]
  rw [hpk]
  unfold Block.wire
  dsimp only
  generalize hP : (bitsLE 3 b.mBits ++ bitsLE 6 b.mMinQ).drop 8 = pend at e2 e3 hpl
  unfold packBlock
  dsimp only
  by_cases hz : b.mBits = 0
  · rw [if_pos hz, if_pos hz]
    have hlen : b.mNQs ≤ (seg ++ rest).length := by
      rw [List.length_append]
      omega
    rw [if_pos hlen, ← h5, List.drop_left, e3, List.flatMap_nil, List.append_nil,
      packBits_of_lt (List.ne_nil_of_length_pos (by omega)) (by omega)]
    simp only [List.append_assoc, List.cons_append, List.nil_append]
  · rw [if_neg hz, if_neg hz]
    obtain ⟨out', tail, he, ht, hpk2⟩ := packFields_spec b.mBits b.mMinQ (by omega) seg rest
      (out ++ [b.mNQs % 2^8] ++ [(b.mBits ||| (b.mMinQ <<< 3) % 2^64) % 2^8]) pend (by omega) h6
    rw [hpl, ← e2, h5] at he
    rw [he]
    dsimp only
    rw [List.flatMap_map]
    rw [← hpk2]
    by_cases ht0 : tail = []
    · subst ht0
      have : ¬ (([] : List Bool).length ≠ 0) := by simp
      rw [if_neg this]
      simp [packBits]
    · have hpos : tail.length ≠ 0 := by
        intro h
        exact ht0 (List.length_eq_zero.mp h)
      have hv : valueLE tail % 2^8 = valueLE tail := by
        have := valueLE_lt tail
        have h128 := two_pow_le_of_le_seven (Nat.le_of_lt_succ ht)
        refine Nat.mod_eq_of_lt ?_
        have : (128 : Nat) < 2^8 := by decide
        generalize 2 ^ tail.length = P at *
        generalize (2:Nat) ^ 8 = M at *
        omega
      rw [if_pos hpos, hv, packBits_of_lt ht0 ht]
      simp only [List.append_assoc, List.cons_append, List.nil_append]

theorem packBlocks_spec : ∀ (blocks : List Block) (quals out : List Nat), Covers blocks quals →
    packBlocks blocks quals out
      = .ok (out ++ (wireBlocks blocks quals).flatMap (fun w => packBits (blockBits w)))
  | [], quals, out, _ => by
    rw [packBlocks, wireBlocks, segments, List.map_nil, List.flatMap_nil, List.append_nil]
  | b :: bs, quals, out, h => by
    obtain ⟨hb, hr⟩ := h
    have hpb := packBlock_spec b (quals.take b.mNQs) (quals.drop b.mNQs) out hb
    rw [List.take_append_drop] at hpb
    rw [packBlocks, hpb]
    dsimp only
    rw [packBlocks_spec bs _ _ hr, wireBlocks, wireBlocks, segments, List.map_cons,
      List.flatMap_cons, List.append_assoc]

theorem encode_spec (quals : List Nat) (h : ∀ x ∈ quals, x ≤ 63) :
    ∃ costs blocks, configureBlocks quals = .ok (costs, blocks) ∧ Covers blocks quals ∧
      costs.length = quals.length + 1 ∧
      encode quals = .ok (serialise (wireBlocks blocks quals)) := by
  obtain ⟨costs, blocks, he, hcov, hlen⟩ := configureBlocks_ok quals h
  refine ⟨costs, blocks, he, hcov, hlen, ?_⟩
  rw [encode, he]
  dsimp only
  rw [packBlocks_spec blocks quals [] hcov]
  rfl

theorem blockSize_eq {nQs nBits : Nat} (h1 : nQs ≤ 255) (h2 : nBits ≤ 7) :
    blockSize nQs nBits = (nQs * nBits + 24) / 8 := by
  have hm : nQs * nBits ≤ 255 * 7 := Nat.mul_le_mul h1 h2
  have hlt : nQs * nBits + 17 + 7 < 2^32 := by
    have : (255 * 7 + 17 + 7 : Nat) < 2^32 := by decide
    generalize nQs * nBits = x at hm ⊢
    generalize (2:Nat) ^ 32 = M at this ⊢
    omega
  have e : ((nQs * nBits + 17 + 7) % 2^32) >>> 3 = (nQs * nBits + 24) / 8 := by
    rw [Nat.mod_eq_of_lt hlt, Nat.shiftRight_eq_div_pow]
  exact e

theorem flatMap_bitsLE_length (w : Nat) : ∀ (fs : List Nat),
    (fs.flatMap (bitsLE w)).length = fs.length * w
  | [] => by simp
  | f :: fs => by
    rw [List.flatMap_cons, List.length_append, bitsLE_length, flatMap_bitsLE_length w fs,
      List.length_cons]
    ring

theorem bodyBits_length (b : Block) (seg : List Nat) (h : seg.length = b.mNQs) :
    (bodyBits (b.wire seg)).length = b.mNQs * b.mBits + 17 := by
  rw [bodyBits, List.length_append, List.length_append, List.length_append, bitsLE_length,
    bitsLE_length, bitsLE_length, flatMap_bitsLE_length]
  unfold Block.wire
  dsimp only
  by_cases hz : b.mBits = 0
  · rw [if_pos hz, hz]
    simp
  · rw [if_neg hz, List.length_map, h]
    omega

theorem packedBlock_length (b : Block) (seg : List Nat) (hb : BlockOK b seg) :
    (packBits (blockBits (b.wire seg))).length = blockSize b.mNQs b.mBits := by
  obtain ⟨_, h2, h3, _, h5, _⟩ := hb
  rw [blockBits, packBits_pad (bodyBits (b.wire seg)).length _ (by omega),
    packBits_length (bodyBits (b.wire seg)).length _ (by omega), bodyBits_length b seg h5,
    blockSize_eq h2 (by omega)]

theorem wire_bytes_length : ∀ (blocks : List Block) (quals : List Nat), Covers blocks quals →
    ((wireBlocks blocks quals).flatMap (fun w => packBits (blockBits w))).length
      = (blocks.map Block.size).sum
  | [], quals, _ => by
    rw [wireBlocks, segments]
    rfl
  | b :: bs, quals, h => by
    obtain ⟨hb, hr⟩ := h
    have ih := wire_bytes_length bs _ hr
    rw [wireBlocks] at ih
    rw [wireBlocks, segments, List.map_cons, List.flatMap_cons, List.length_append, ih,
      packedBlock_length b _ hb, List.map_cons, List.sum_cons]
    rfl

theorem window_length (f : Nat → Bool) : ∀ (k P : Nat), (window f P k).length = k
  | 0, _ => rfl
  | k + 1, P => by rw [window, List.length_cons, window_length f k]

theorem window_add (f : Nat → Bool) : ∀ (a b P : Nat),
    window f P (a + b) = window f P a ++ window f (P + a) b
  | 0, b, P => by rw [Nat.zero_add, window, List.nil_append, Nat.add_zero]
  | a + 1, b, P => by
    rw [show a + 1 + b = (a + b) + 1 by omega, window, window, window_add f a b (P + 1),
      List.cons_append, show P + 1 + a = P + (a + 1) by omega]

theorem peek_lt (mem : Nat → Nat) (P k : Nat) : peek mem P k < 2 ^ k := by
  have := valueLE_lt (window (mbit mem) P k)
  rwa [window_length] at this

theorem peek_add (mem : Nat → Nat) (P a b : Nat) :
    peek mem P (a + b) = peek mem P a + 2 ^ a * peek mem (P + a) b := by
  rw [peek, window_add, valueLE_append, window_length]
  rfl

theorem peek_mod (mem : Nat → Nat) (P : Nat) {k n : Nat} (h : k ≤ n) :
    peek mem P n % 2 ^ k = peek mem P k := by
  obtain ⟨d, rfl⟩ := Nat.exists_eq_add_of_le h
  rw [peek_add, Nat.add_mul_mod_self_left, Nat.mod_eq_of_lt (peek_lt mem P k)]

theorem peek_div (mem : Nat → Nat) (P : Nat) {k n : Nat} (h : k ≤ n) :
    peek mem P n / 2 ^ k = peek mem (P + k) (n - k) := by
  obtain ⟨d, rfl⟩ := Nat.exists_eq_add_of_le h
  rw [peek_add, Nat.add_mul_div_left _ _ (Nat.two_pow_pos k),
    Nat.div_eq_of_lt (peek_lt mem P k), Nat.zero_add, Nat.add_sub_cancel_left]

theorem peek_zero (mem : Nat → Nat) (P : Nat) : peek mem P 0 = 0 := rfl

theorem bitsLE_eq_window (n : Nat) : ∀ (w s : Nat),
    bitsLE w (n / 2 ^ s) = window (fun i => decide (n / 2 ^ i % 2 = 1)) s w
  | 0, _ => rfl
  | w + 1, s => by
    rw [bitsLE, window, Nat.div_div_eq_div_mul, ← pow_succ, bitsLE_eq_window n w (s + 1)]

theorem window_congr {f g : Nat → Bool} : ∀ (k P Q : Nat), (∀ i < k, f (P + i) = g (Q + i)) →
    window f P k = window g Q k
  | 0, _, _, _ => rfl
  | k + 1, P, Q, h => by
    have h0 : f P = g Q := h 0 (Nat.succ_pos k)
    have ht : window f (P + 1) k = window g (Q + 1) k := by
      apply window_congr k (P + 1) (Q + 1)
      intro i hi
      have := h (i + 1) (by omega)
      rw [show P + 1 + i = P + (i + 1) by omega, show Q + 1 + i = Q + (i + 1) by omega]
      exact this
    rw [window, window, h0, ht]

theorem window_byte (mem : Nat → Nat) (a : Nat) :
    window (mbit mem) (8 * a) 8 = bitsLE 8 (mem a) := by
  have h := bitsLE_eq_window (mem a) 8 0
  rw [pow_zero, Nat.div_one] at h
  rw [h]
  apply window_congr
  intro i hi
  rw [mbit, show (8 * a + i) / 8 = a by omega, show (8 * a + i) % 8 = i by omega, Nat.zero_add]

theorem peek_byte (mem : Nat → Nat) (a : Nat) : peek mem (8 * a) 8 = mem a % 2 ^ 8 := by
  rw [peek, window_byte, valueLE_bitsLE]

theorem load64_eq_peek (mem : Nat → Nat) (buf : Nat) : load64 mem buf = peek mem (8 * buf) 64 := by
  have e : ∀ i, peek mem (8 * buf + 8 * i) 8 = mem (buf + i) % 2 ^ 8 := by
    intro i
    rw [← Nat.mul_add, peek_byte]
  have e0 := e 0
  rw [Nat.mul_zero, Nat.add_zero, Nat.add_zero] at e0
  rw [show (64 : Nat) = 8 + (8 + (8 + (8 + (8 + (8 + (8 + 8)))))) by rfl,
    peek_add, peek_add, peek_add, peek_add, peek_add, peek_add, peek_add]
  simp only [Nat.add_assoc]
  rw [load64, Nat.shiftLeft_eq, Nat.shiftLeft_eq, Nat.shiftLeft_eq, Nat.shiftLeft_eq,
    Nat.shiftLeft_eq, Nat.shiftLeft_eq, Nat.shiftLeft_eq, ← e0, ← e 1, ← e 2, ← e 3, ← e 4,
    ← e 5, ← e 6, ← e 7]
  norm_num
  ring

theorem window_bytes (mem : Nat → Nat) : ∀ (bytes : List Nat) (a : Nat),
    (∀ i < bytes.length, mem (a + i) = bytes.getD i 0) →
    window (mbit mem) (8 * a) (8 * bytes.length) = bytesBits bytes
  | [], _, _ => rfl
  | b :: bs, a, h => by
    rw [List.length_cons, Nat.mul_add, Nat.mul_one, Nat.add_comm (8 * bs.length) 8, window_add,
      window_byte, bytesBits, List.flatMap_cons]
    have h0 := h 0 (Nat.succ_pos _)
    rw [Nat.add_zero] at h0
    rw [h0]
    have ih := window_bytes mem bs (a + 1) (by
      intro i hi
      have := h (i + 1) (by rw [List.length_cons]; omega)
      rw [show a + 1 + i = a + (i + 1) by omega]
      exact this)
    rw [show 8 * a + 8 = 8 * (a + 1) by omega, ih]
    rfl

theorem sub_wrap64 {a b : Nat} (h1 : b ≤ a) (h2 : a < 2^64) : (2^64 + a - b) % 2^64 = a - b := by
  have e : 2^64 + a - b = (a - b) + 2^64 := by omega
  rw [e, Nat.add_mod_right]
  refine Nat.mod_eq_of_lt ?_
  generalize (2:Nat) ^ 64 = M at h2 ⊢
  omega

theorem and_mask (x k : Nat) (m : Nat) (hm : m = 2 ^ k - 1) : x &&& m = x % 2 ^ k := by
  rw [hm, Nat.and_pow_two_sub_one_eq_mod]

theorem remain_and_7 : ∀ r ≤ 64, r &&& 7 = r % 8 ∧ r &&& (2^64 - 8) = r - r % 8 := by
  decide

theorem skipCount_spec (mem : Nat → Nat) (r : Reader) (P : Nat) (h : RInv mem r P)
    (hal : r.remain % 8 = 0) (hpos : 0 < r.remain) :
    r.bits &&& 0xff = peek mem P 8 ∧ RInv mem (skipCount mem r) (P + 8) ∧
      (skipCount mem r).remain % 8 = 0 ∧ 0 < (skipCount mem r).remain ∧
      (skipCount mem r).out = r.out := by
  obtain ⟨h1, h2, h3⟩ := h
  have h8 : 8 ≤ r.remain := by omega
  have hw : (2^64 + r.remain - 8) % 2^64 = r.remain - 8 :=
    sub_wrap64 h8 (Nat.lt_of_le_of_lt h1 (by decide))
  refine ⟨?_, ?_⟩
  · rw [and_mask _ 8 _ (by decide), h2, peek_mod mem P h8]
  · unfold skipCount
    dsimp only
    rw [hw]
    by_cases h0 : r.remain - 8 = 0
    · rw [if_pos h0]
      refine ⟨⟨le_refl _, ?_, ?_⟩, (by decide : 64 % 8 = 0), (by decide : 0 < 64), rfl⟩
      · show load64 mem r.buf = peek mem (P + 8) 64
        rw [load64_eq_peek, show 8 * r.buf = P + 8 by omega]
      · show P + 8 + 64 = 8 * (r.buf + 8)
        omega
    · rw [if_neg h0]
      refine ⟨⟨?_, ?_, ?_⟩, ?_, ?_, rfl⟩
      · show r.remain - 8 ≤ 64
        omega
      · show r.bits >>> 8 = peek mem (P + 8) (r.remain - 8)
        rw [Nat.shiftRight_eq_div_pow, h2, peek_div mem P h8]
      · show P + 8 + (r.remain - 8) = 8 * r.buf
        omega
      · show (r.remain - 8) % 8 = 0
        omega
      · show 0 < r.remain - 8
        omega

theorem readHeader_spec (mem : Nat → Nat) (r : Reader) (P : Nat) (h : RInv mem r P)
    (hal : r.remain % 8 = 0) (hpos : 0 < r.remain) :
    (readHeader mem r).nBits = peek mem P 3 ∧ (readHeader mem r).minQ = peek mem (P + 3) 6 ∧
      RInv mem (readHeader mem r).reader (P + 9) ∧ (readHeader mem r).reader.out = r.out := by
  obtain ⟨h1, h2, h3⟩ := h
  have h8 : 8 ≤ r.remain := by omega
  have hn : r.bits &&& 0x07 = peek mem P 3 := by
    rw [and_mask _ 3 _ (by decide), h2, peek_mod mem P (by omega)]
  have hb3 : r.bits >>> 3 = peek mem (P + 3) (r.remain - 3) := by
    rw [Nat.shiftRight_eq_div_pow, h2, peek_div mem P (by omega)]
  unfold readHeader
  dsimp only
  rw [hn, hb3]
  by_cases h9 : r.remain < 9
  · have hr8 : r.remain = 8 := by omega
    rw [if_pos h9]
    dsimp only
    have hm5 : peek mem (P + 3) (r.remain - 3) &&& 0x3f = peek mem (P + 3) 5 := by
      rw [and_mask _ 6 _ (by decide), hr8]
      refine Nat.mod_eq_of_lt ?_
      have := peek_lt mem (P + 3) 5
      have e : (8 : Nat) - 3 = 5 := rfl
      rw [e]
      exact Nat.lt_of_lt_of_le this (by decide)
    have hw : load64 mem r.buf = peek mem (P + 8) 64 := by
      rw [load64_eq_peek, show 8 * r.buf = P + 8 by omega]
    have hbit : ((peek mem (P + 8) 64 &&& 1) <<< 5) % 2^64 = peek mem (P + 8) 1 <<< 5 := by
      rw [and_mask _ 1 _ (by decide), peek_mod mem (P + 8) (by decide : 1 ≤ 64)]
      refine Nat.mod_eq_of_lt ?_
      have := peek_lt mem (P + 8) 1
      rw [Nat.shiftLeft_eq]
      have e : (2:Nat) ^ 1 = 2 := rfl
      rw [e] at this
      have : peek mem (P + 8) 1 * 2 ^ 5 < 2 * 2 ^ 5 := Nat.mul_lt_mul_of_pos_right this (by decide)
      exact Nat.lt_trans this (by decide)
    refine ⟨rfl, ?_, ⟨?_, ?_, ?_⟩, rfl⟩
    · show peek mem (P + 3) (r.remain - 3) &&& 0x3f
          ||| ((load64 mem r.buf &&& 1) <<< 5) % 2^64 = peek mem (P + 3) 6
      rw [hm5, hw, hbit, or_shiftLeft_eq _ (peek_lt mem (P + 3) 5),
        show (6 : Nat) = 5 + 1 by rfl, peek_add, show P + 3 + 5 = P + 8 by omega]
    · show (2^64 + (r.remain + 64) % 2^64 - 9) % 2^64 ≤ 64
      rw [hr8]
      decide
    · show load64 mem r.buf >>> 1 = peek mem (P + 9) ((2^64 + (r.remain + 64) % 2^64 - 9) % 2^64)
      rw [hw, hr8, Nat.shiftRight_eq_div_pow, peek_div mem (P + 8) (by decide : 1 ≤ 64)]
      rfl
    · show P + 9 + (2^64 + (r.remain + 64) % 2^64 - 9) % 2^64 = 8 * (r.buf + 8)
      rw [hr8]
      have e : (2^64 + (8 + 64) % 2^64 - 9) % 2^64 = 63 := by decide
      rw [e]
      omega
  · rw [if_neg h9]
    have h16 : 16 ≤ r.remain := by omega
    have hw : (2^64 + r.remain - 9) % 2^64 = r.remain - 9 :=
      sub_wrap64 (by omega) (Nat.lt_of_le_of_lt h1 (by decide))
    refine ⟨rfl, ?_, ⟨?_, ?_, ?_⟩, rfl⟩
    · show peek mem (P + 3) (r.remain - 3) &&& 0x3f = peek mem (P + 3) 6
      rw [and_mask _ 6 _ (by decide), peek_mod mem (P + 3) (by omega)]
    · show (2^64 + r.remain - 9) % 2^64 ≤ 64
      rw [hw]
      omega
    · show peek mem (P + 3) (r.remain - 3) >>> 6 = peek mem (P + 9) ((2^64 + r.remain - 9) % 2^64)
      rw [hw, Nat.shiftRight_eq_div_pow, peek_div mem (P + 3) (by omega),
        show P + 3 + 6 = P + 9 by omega, show r.remain - 3 - 6 = r.remain - 9 by omega]
    · show P + 9 + (2^64 + r.remain - 9) % 2^64 = 8 * r.buf
      rw [hw]
      omega

theorem realign_spec (mem : Nat → Nat) (r : Reader) (P : Nat) (h : RInv mem r P) :
    RInv mem (realign mem r) (P + r.remain % 8) ∧ (realign mem r).remain % 8 = 0 ∧
      0 < (realign mem r).remain ∧ (realign mem r).out = r.out := by
  obtain ⟨h1, h2, h3⟩ := h
  obtain ⟨e7, e8⟩ := remain_and_7 r.remain h1
  unfold realign
  dsimp only
  rw [e7, e8]
  by_cases h0 : r.remain - r.remain % 8 = 0
  · rw [if_pos h0]
    refine ⟨⟨le_refl _, ?_, ?_⟩, (by decide : 64 % 8 = 0), (by decide : 0 < 64), rfl⟩
    · show load64 mem r.buf = peek mem (P + r.remain % 8) 64
      rw [load64_eq_peek, show 8 * r.buf = P + r.remain % 8 by omega]
    · show P + r.remain % 8 + 64 = 8 * (r.buf + 8)
      omega
  · rw [if_neg h0]
    refine ⟨⟨?_, ?_, ?_⟩, ?_, ?_, rfl⟩
    · show r.remain - r.remain % 8 ≤ 64
      omega
    · show r.bits >>> (r.remain % 8) = peek mem (P + r.remain % 8) (r.remain - r.remain % 8)
      rw [Nat.shiftRight_eq_div_pow, h2, peek_div mem P (Nat.mod_le _ _)]
    · show P + r.remain % 8 + (r.remain - r.remain % 8) = 8 * r.buf
      omega
    · show (r.remain - r.remain % 8) % 8 = 0
      omega
    · show 0 < r.remain - r.remain % 8
      omega

theorem mask_eq {n : Nat} (h : n ≤ 7) : (2^64 + (1 <<< n) % 2^64 - 1) % 2^64 = 2 ^ n - 1 := by
  interval_cases n <;> decide

theorem window_append_split (f : Nat → Bool) (P : Nat) (as bs : List Bool)
    (h : window f P (as ++ bs).length = as ++ bs) :
    window f P as.length = as ∧ window f (P + as.length) bs.length = bs := by
  rw [List.length_append, window_add] at h
  exact List.append_inj h (window_length f _ _)

theorem peek_of_window {mem : Nat → Nat} {P w n : Nat} (h : window (mbit mem) P w = bitsLE w n) :
    peek mem P w = n % 2 ^ w := by
  rw [peek, h, valueLE_bitsLE]

theorem unpackFields_spec (mem : Nat → Nat) (nBits minQ : Nat) (hn1 : 1 ≤ nBits)
    (hn7 : nBits ≤ 7) (hm : minQ ≤ 63) :
    ∀ (fields : List Nat) (r : Reader) (P : Nat), RInv mem r P →
      window (mbit mem) P (fields.flatMap (bitsLE nBits)).length
        = fields.flatMap (bitsLE nBits) →
      (∀ f ∈ fields, f < 2 ^ nBits) →
      RInv mem (unpackFields mem nBits minQ ((2^64 + (1 <<< nBits) % 2^64 - 1) % 2^64)
          fields.length r) (P + fields.length * nBits) ∧
        (unpackFields mem nBits minQ ((2^64 + (1 <<< nBits) % 2^64 - 1) % 2^64)
          fields.length r).out = r.out ++ fields.map (fun f => minQ + f)
  | [], r, P, h, _, _ => by
    refine ⟨?_, ?_⟩
    · show RInv mem r (P + 0 * nBits)
      rw [Nat.zero_mul, Nat.add_zero]
      exact h
    · show r.out = r.out ++ []
      rw [List.append_nil]
  | f :: fs, r, P, h, hwin, hlt => by
    obtain ⟨h1, h2, h3⟩ := h
    rw [List.flatMap_cons] at hwin
    obtain ⟨hw1, hw2⟩ := window_append_split _ _ _ _ hwin
    rw [bitsLE_length] at hw1 hw2
    have hf : f < 2 ^ nBits := hlt f (List.mem_cons_self f fs)
    have hpk : peek mem P nBits = f := by
      rw [peek_of_window hw1, Nat.mod_eq_of_lt hf]
    have h128 := two_pow_le_of_le_seven hn7
    have hpush : (minQ + f) % 2^8 = minQ + f := by
      refine Nat.mod_eq_of_lt ?_
      have : (63 + 128 : Nat) < 2^8 := by decide
      generalize 2 ^ nBits = Q at hf h128
      generalize (2:Nat) ^ 8 = M at this ⊢
      omega
    have hmask := mask_eq hn7
    rw [hmask]
    have hlt' : ∀ g ∈ fs, g < 2 ^ nBits := fun g hg => hlt g (List.mem_cons_of_mem f hg)
    rw [List.length_cons, List.map_cons]
    have hPend : P + (fs.length + 1) * nBits = P + nBits + fs.length * nBits := by
      rw [Nat.add_mul, Nat.one_mul]
      omega
    rw [hPend]
    unfold unpackFields
    dsimp only
    by_cases hc : r.remain < nBits
    · rw [if_pos hc]
      have hw : load64 mem r.buf = peek mem (P + r.remain) 64 := by
        rw [load64_eq_peek, show 8 * r.buf = P + r.remain by omega]
      have hval : (r.bits ||| (load64 mem r.buf <<< r.remain) % 2^64) &&& (2 ^ nBits - 1) = f := by
        rw [and_mask _ nBits _ rfl, hw, Nat.shiftLeft_eq]
        have e64 : (2:Nat) ^ 64 = 2 ^ (64 - r.remain) * 2 ^ r.remain := by
          rw [← pow_add, Nat.sub_add_cancel h1]
        rw [e64, Nat.mul_mod_mul_right, peek_mod mem (P + r.remain) (Nat.sub_le 64 r.remain),
          ← Nat.shiftLeft_eq, h2, or_shiftLeft_eq _ (peek_lt mem P r.remain), ← peek_add,
          show r.remain + (64 - r.remain) = 64 by omega, peek_mod mem P (by omega), hpk]
      have hused : (2^64 + nBits - r.remain) % 2^64 = nBits - r.remain :=
        sub_wrap64 (by omega) (Nat.lt_of_le_of_lt hn7 (by decide))
      have hrem : (2^64 + (r.remain + 64) % 2^64 - nBits) % 2^64 = r.remain + 64 - nBits := by
        have e : (r.remain + 64) % 2^64 = r.remain + 64 :=
          Nat.mod_eq_of_lt (Nat.lt_of_le_of_lt (Nat.add_le_add_right h1 64) (by decide))
        rw [e]
        exact sub_wrap64 (by omega)
          (Nat.lt_of_le_of_lt (Nat.add_le_add_right h1 64) (by decide))
      rw [hval, hused, hrem, hpush]
      have hinv : RInv mem ⟨load64 mem r.buf >>> (nBits - r.remain), r.remain + 64 - nBits,
          r.buf + 8, r.out ++ [minQ + f]⟩ (P + nBits) := by
        refine ⟨?_, ?_, ?_⟩
        · show r.remain + 64 - nBits ≤ 64
          omega
        · show load64 mem r.buf >>> (nBits - r.remain)
            = peek mem (P + nBits) (r.remain + 64 - nBits)
          rw [hw, Nat.shiftRight_eq_div_pow, peek_div mem (P + r.remain) (by omega),
            show P + r.remain + (nBits - r.remain) = P + nBits by omega,
            show 64 - (nBits - r.remain) = r.remain + 64 - nBits by omega]
        · show P + nBits + (r.remain + 64 - nBits) = 8 * (r.buf + 8)
          omega
      obtain ⟨i1, i2⟩ := unpackFields_spec mem nBits minQ hn1 hn7 hm fs _ (P + nBits) hinv hw2 hlt'
      rw [hmask] at i1 i2
      refine ⟨i1, ?_⟩
      rw [i2]
      show (r.out ++ [minQ + f]) ++ _ = _
      rw [List.append_assoc]
      rfl
    · rw [if_neg hc]
      have hge : nBits ≤ r.remain := Nat.le_of_not_lt hc
      have hval : r.bits &&& (2 ^ nBits - 1) = f := by
        rw [and_mask _ nBits _ rfl, h2, peek_mod mem P hge, hpk]
      have hrem : (2^64 + r.remain - nBits) % 2^64 = r.remain - nBits :=
        sub_wrap64 hge (Nat.lt_of_le_of_lt h1 (by decide))
      rw [hval, hrem, hpush]
      have hinv : RInv mem ⟨r.bits >>> nBits, r.remain - nBits, r.buf, r.out ++ [minQ + f]⟩
          (P + nBits) := by
        refine ⟨?_, ?_, ?_⟩
        · show r.remain - nBits ≤ 64
          omega
        · show r.bits >>> nBits = peek mem (P + nBits) (r.remain - nBits)
          rw [Nat.shiftRight_eq_div_pow, h2, peek_div mem P hge]
        · show P + nBits + (r.remain - nBits) = 8 * r.buf
          omega
      obtain ⟨i1, i2⟩ := unpackFields_spec mem nBits minQ hn1 hn7 hm fs _ (P + nBits) hinv hw2 hlt'
      rw [hmask] at i1 i2
      refine ⟨i1, ?_⟩
      rw [i2]
      show (r.out ++ [minQ + f]) ++ _ = _
      rw [List.append_assoc]
      rfl

theorem padBits_length (len : Nat) : (padBits len).length = (8 - len % 8) % 8 := by
  rw [padBits, List.length_replicate]

theorem rinv_out {mem : Nat → Nat} {r : Reader} {P : Nat} (h : RInv mem r P) (out : List Nat) :
    RInv mem { r with out := out } P := h

theorem unpackBlock_spec (mem : Nat → Nat) (w : WireBlock) (hw : w.Conformant) (r : Reader)
    (P : Nat) (h : RInv mem r P) (hal : r.remain % 8 = 0) (hpos : 0 < r.remain)
    (hread : window (mbit mem) P (blockBits w).length = blockBits w) :
    r.bits &&& 0xff = w.nQs ∧
      RInv mem (unpackBlock mem w.nQs r) (P + (blockBits w).length) ∧
      (unpackBlock mem w.nQs r).remain % 8 = 0 ∧ 0 < (unpackBlock mem w.nQs r).remain ∧
      (unpackBlock mem w.nQs r).out = r.out ++ w.values := by
  obtain ⟨c1, c2, c3, c4, c5⟩ := hw
  have hP8 : P % 8 = 0 := by
    have := h.2.2
    omega
  rw [blockBits] at hread
  obtain ⟨s1, _⟩ := window_append_split _ _ _ _ hread
  rw [bodyBits] at s1
  obtain ⟨s2, s2r⟩ := window_append_split _ _ _ _ s1
  rw [bitsLE_length] at s2 s2r
  obtain ⟨s3, s3r⟩ := window_append_split _ _ _ _ s2r
  rw [bitsLE_length] at s3 s3r
  obtain ⟨s4, s4r⟩ := window_append_split _ _ _ _ s3r
  rw [bitsLE_length] at s4 s4r
  have p1 : peek mem P 8 = w.nQs := by
    rw [peek_of_window s2]
    exact Nat.mod_eq_of_lt (Nat.lt_of_le_of_lt c2 (by decide))
  have p2 : peek mem (P + 8) 3 = w.bits := by
    rw [peek_of_window s3]
    exact Nat.mod_eq_of_lt (Nat.lt_of_le_of_lt c3 (by decide))
  have p3 : peek mem (P + 8 + 3) 6 = w.minQ := by
    rw [peek_of_window s4]
    exact Nat.mod_eq_of_lt (Nat.lt_of_le_of_lt c4 (by decide))
  obtain ⟨k1, k2, k3, k4, k5⟩ := skipCount_spec mem r P h hal hpos
  obtain ⟨g1, g2, g3, g4⟩ := readHeader_spec mem (skipCount mem r) (P + 8) k2 k3 k4
  rw [p2] at g1
  rw [p3] at g2
  rw [k5] at g4
  have hlenB : (bodyBits w).length = 17 + (w.fields.flatMap (bitsLE w.bits)).length := by
    rw [bodyBits, List.length_append, List.length_append, List.length_append, bitsLE_length,
      bitsLE_length, bitsLE_length]
    omega
  have hmq : w.minQ % 2^8 = w.minQ := Nat.mod_eq_of_lt (Nat.lt_of_le_of_lt c4 (by decide))
  refine ⟨by rw [k1, p1], ?_⟩
  rw [blockBits, List.length_append, padBits_length, hlenB]
  unfold unpackBlock
  dsimp only
  generalize readHeader mem (skipCount mem r) = H at g1 g2 g3 g4
  rw [g1, g2]
  by_cases hz : w.bits = 0
  · rw [if_pos hz] at c5
    rw [if_pos hz, hmq, WireBlock.values, if_pos hz, c5]
    have hr := realign_spec mem { H.reader with out := H.reader.out ++ List.replicate w.nQs w.minQ }
      (P + 8 + 9) (rinv_out g3 _)
    obtain ⟨r1, r2, r3, r4⟩ := hr
    have hrem : H.reader.remain % 8 = 7 := by
      have := g3.2.2
      omega
    refine ⟨?_, r2, r3, ?_⟩
    · have e : P + (17 + (([] : List Nat).flatMap (bitsLE w.bits)).length
          + (8 - (17 + (([] : List Nat).flatMap (bitsLE w.bits)).length) % 8) % 8)
          = P + 8 + 9 + H.reader.remain % 8 := by
        rw [hrem, List.flatMap_nil, List.length_nil]
      rw [e]
      exact r1
    · rw [r4]
      show H.reader.out ++ _ = _
      rw [g4]
  · rw [if_neg hz] at c5
    obtain ⟨c5a, c5b⟩ := c5
    rw [if_neg hz, WireBlock.values, if_neg hz]
    have hs4 : window (mbit mem) (P + 8 + 9) (w.fields.flatMap (bitsLE w.bits)).length
        = w.fields.flatMap (bitsLE w.bits) := by
      rw [show P + 8 + 9 = P + 8 + 3 + 6 by omega]
      exact s4r
    obtain ⟨u1, u2⟩ := unpackFields_spec mem w.bits w.minQ (Nat.pos_of_ne_zero hz) c3 c4
      w.fields H.reader (P + 8 + 9) g3 hs4 c5b
    rw [c5a] at u1 u2
    obtain ⟨r1, r2, r3, r4⟩ := realign_spec mem _ _ u1
    refine ⟨?_, r2, r3, ?_⟩
    · have hfl := flatMap_bitsLE_length w.bits w.fields
      rw [c5a] at hfl
      have hrem : (unpackFields mem w.bits w.minQ ((2^64 + (1 <<< w.bits) % 2^64 - 1) % 2^64)
          w.nQs H.reader).remain % 8 = (8 - (17 + w.nQs * w.bits) % 8) % 8 := by
        have := u1.2.2
        omega
      rw [hrem] at r1
      rw [hfl]
      generalize w.nQs * w.bits = X at r1 ⊢
      have e : P + (17 + X + (8 - (17 + X) % 8) % 8) = P + 8 + 9 + X + (8 - (17 + X) % 8) % 8 := by
        omega
      rw [e]
      exact r1
    · rw [r4, u2, g4]

theorem and_align (x : Nat) (hx : x < 2^64) : x &&& (2^64 - 8) = x - x % 8 := by
  have e : x - x % 8 = 2^3 * (x >>> 3) := by
    rw [Nat.shiftRight_eq_div_pow]
    have : (2:Nat)^3 = 8 := rfl
    rw [this]
    omega
  rw [e]
  apply Nat.eq_of_testBit_eq
  intro i
  rw [Nat.testBit_and, Nat.testBit_mul_pow_two, Nat.testBit_shiftRight,
    show (2^64 - 8 : Nat) = 2^64 - (7 + 1) from rfl,
    Nat.testBit_two_pow_sub_succ (by decide), show (7:Nat) = 2^3 - 1 from rfl,
    Nat.testBit_two_pow_sub_one]
  by_cases h3 : i < 3
  · have h3' : ¬ i ≥ 3 := by omega
    simp [h3, h3']
  · have h3' : i ≥ 3 := by omega
    by_cases h64 : i < 64
    · have e2 : 3 + (i - 3) = i := by omega
      simp [h3, h3', h64, e2]
    · have hlt : x < 2 ^ i := Nat.lt_of_lt_of_le hx (Nat.pow_le_pow_right (by decide) (by omega))
      have hb : x.testBit i = false := Nat.testBit_lt_two_pow hlt
      have e2 : 3 + (i - 3) = i := by omega
      simp [h3, h3', h64, e2, hb]

theorem blockBits_length_mod (w : WireBlock) : (blockBits w).length % 8 = 0 := by
  rw [blockBits, List.length_append, padBits_length]
  omega

theorem blockBits_length_ge (w : WireBlock) : 17 ≤ (blockBits w).length := by
  rw [blockBits, List.length_append, bodyBits, List.length_append, List.length_append,
    List.length_append, bitsLE_length, bitsLE_length, bitsLE_length]
  omega

theorem bytesBits_append (as bs : List Nat) : bytesBits (as ++ bs) = bytesBits as ++ bytesBits bs := by
  rw [bytesBits, bytesBits, bytesBits, List.flatMap_append]

theorem bytesBits_blocks : ∀ (blocks : List WireBlock),
    bytesBits (blocks.flatMap (fun b => packBits (blockBits b))) = blocks.flatMap blockBits
  | [] => rfl
  | w :: ws => by
    rw [List.flatMap_cons, List.flatMap_cons, bytesBits_append, bytesBits_blocks ws,
      bytesBits_packBits ((blockBits w).length / 8) _
        (by have := blockBits_length_mod w; omega)]

theorem bytesBits_serialise (blocks : List WireBlock) :
    bytesBits (serialise blocks) = blocks.flatMap blockBits ++ List.replicate 8 false := by
  rw [serialise, bytesBits_append, bytesBits_blocks]
  rfl

theorem length_le_flatMap (blocks : List WireBlock) :
    blocks.length ≤ (blocks.flatMap (fun b => packBits (blockBits b))).length := by
  induction blocks with
  | nil => exact Nat.le_refl _
  | cons w ws ih =>
    rw [List.flatMap_cons, List.length_append, List.length_cons,
      packBits_length (blockBits w).length _ (by omega)]
    have := blockBits_length_ge w
    omega

theorem unpackLoop_spec (mem : Nat → Nat) : ∀ (blocks : List WireBlock) (fuel : Nat)
    (r : Reader) (P : Nat), blocks.length ≤ fuel → (∀ w ∈ blocks, w.Conformant) →
    RInv mem r P → r.remain % 8 = 0 → 0 < r.remain →
    window (mbit mem) P (blocks.flatMap blockBits ++ List.replicate 8 false).length
      = blocks.flatMap blockBits ++ List.replicate 8 false →
    unpackLoop mem fuel r = some (r.out ++ blocks.flatMap WireBlock.values)
  | [], fuel, r, P, _, _, h, hal, hpos, hwin => by
    have h8 : 8 ≤ r.remain := by omega
    have hz : r.bits &&& 0xff = 0 := by
      rw [and_mask _ 8 _ (by decide), h.2.1, peek_mod mem P h8, peek]
      have hw : window (mbit mem) P 8 = List.replicate 8 false := hwin
      rw [hw]
      rfl
    rw [List.flatMap_nil, List.append_nil]
    cases fuel with
    | zero => rw [unpackLoop, if_pos hz]
    | succ f =>
      rw [unpackLoop, if_pos hz]
  | w :: ws, fuel, r, P, hf, hc, h, hal, hpos, hwin => by
    rw [List.flatMap_cons, List.append_assoc] at hwin
    obtain ⟨hw1, hw2⟩ := window_append_split _ _ _ _ hwin
    have hcw := hc w (List.mem_cons_self w ws)
    obtain ⟨b1, b2, b3, b4, b5⟩ := unpackBlock_spec mem w hcw r P h hal hpos hw1
    have hnz : ¬ (r.bits &&& 0xff = 0) := by
      rw [b1]
      have := hcw.1
      omega
    cases fuel with
    | zero =>
      rw [List.length_cons] at hf
      omega
    | succ f =>
      rw [unpackLoop, if_neg hnz, b1,
        unpackLoop_spec mem ws f _ (P + (blockBits w).length)
          (by rw [List.length_cons] at hf; omega)
          (fun x hx => hc x (List.mem_cons_of_mem w hx)) b2 b3 b4 hw2,
        b5, List.flatMap_cons, List.append_assoc]

theorem memory_get (env : Nat → Nat) (addr : Nat) (bytes : List Nat) :
    ∀ i < bytes.length, memory env addr bytes (addr + i) = bytes.getD i 0 := by
  intro i hi
  have hc : addr ≤ addr + i ∧ addr + i < addr + bytes.length := ⟨Nat.le_add_right _ _, by omega⟩
  rw [memory, if_pos hc, Nat.add_sub_cancel_left]

theorem decode_start (mem : Nat → Nat) (addr : Nat) (haddr : addr < 2^64) (out : List Nat) :
    RInv mem ⟨load64 mem (addr &&& (2^64 - 8)) >>> (((addr &&& 7) <<< 3) % 2^64),
        (2^64 + 64 - ((addr &&& 7) <<< 3) % 2^64) % 2^64, (addr &&& (2^64 - 8)) + 8, out⟩
      (8 * addr) ∧
    ((2^64 + 64 - ((addr &&& 7) <<< 3) % 2^64) % 2^64) % 8 = 0 ∧
    0 < (2^64 + 64 - ((addr &&& 7) <<< 3) % 2^64) % 2^64 := by
  have e7 : addr &&& 7 = addr % 8 := and_mask _ 3 _ (by decide)
  have hsh : ((addr % 8) <<< 3) % 2^64 = 8 * (addr % 8) := by
    rw [Nat.shiftLeft_eq]
    have : addr % 8 < 8 := Nat.mod_lt _ (by decide)
    have e : (2:Nat)^3 = 8 := rfl
    rw [e, Nat.mul_comm]
    refine Nat.mod_eq_of_lt ?_
    have : (64 : Nat) < 2^64 := by decide
    generalize (2:Nat)^64 = M at this ⊢
    omega
  have hrem : (2^64 + 64 - 8 * (addr % 8)) % 2^64 = 64 - 8 * (addr % 8) :=
    sub_wrap64 (by omega) (by decide)
  rw [e7, hsh, hrem, and_align addr haddr]
  refine ⟨⟨?_, ?_, ?_⟩, ?_, ?_⟩
  · show 64 - 8 * (addr % 8) ≤ 64
    omega
  · show load64 mem (addr - addr % 8) >>> (8 * (addr % 8)) = peek mem (8 * addr) (64 - 8 * (addr % 8))
    rw [load64_eq_peek, Nat.shiftRight_eq_div_pow, peek_div mem _ (by omega),
      show 8 * (addr - addr % 8) + 8 * (addr % 8) = 8 * addr by omega]
  · show 8 * addr + (64 - 8 * (addr % 8)) = 8 * (addr - addr % 8 + 8)
    omega
  · omega
  · omega

theorem decode_serialise (env : Nat → Nat) (addr : Nat) (blocks : List WireBlock)
    (haddr : addr < 2^64) (hconf : ∀ w ∈ blocks, w.Conformant) :
    decode env addr (serialise blocks) = some (blocks.flatMap WireBlock.values) := by
  have hne : ¬ serialise blocks = [] := by
    rw [serialise]
    exact List.append_ne_nil_of_right_ne_nil _ (List.cons_ne_nil 0 [])
  obtain ⟨i1, i2, i3⟩ := decode_start (memory env addr (serialise blocks)) addr haddr []
  have hwin := window_bytes (memory env addr (serialise blocks)) (serialise blocks) addr
    (memory_get env addr (serialise blocks))
  rw [bytesBits_serialise] at hwin
  have hlen : 8 * (serialise blocks).length
      = (blocks.flatMap blockBits ++ List.replicate 8 false).length := by
    have := congrArg List.length hwin
    rw [window_length] at this
    exact this
  rw [hlen] at hwin
  have hfuel : blocks.length ≤ (serialise blocks).length := by
    rw [serialise, List.length_append]
    have := length_le_flatMap blocks
    omega
  have := unpackLoop_spec (memory env addr (serialise blocks)) blocks (serialise blocks).length
    _ (8 * addr) hfuel hconf i1 i2 i3 hwin
  rw [decode, if_neg hne]
  dsimp only
  rw [this]
  rfl

theorem wire_conformant {b : Block} {seg : List Nat} (h : BlockOK b seg) :
    (b.wire seg).Conformant := by
  obtain ⟨h1, h2, h3, h4, h5, h6⟩ := h
  refine ⟨h1, h2, Nat.le_trans h3 (by decide), h4, ?_⟩
  show if b.mBits = 0 then (b.wire seg).fields = []
    else (b.wire seg).fields.length = b.mNQs ∧ ∀ f ∈ (b.wire seg).fields, f < 2 ^ b.mBits
  unfold Block.wire
  dsimp only
  by_cases hz : b.mBits = 0
  · rw [if_pos hz, if_pos hz]
  · rw [if_neg hz, if_neg hz, List.length_map]
    refine ⟨h5, ?_⟩
    intro f hf
    obtain ⟨q, hq, rfl⟩ := List.mem_map.mp hf
    have := h6 q hq
    generalize 2 ^ b.mBits = M at this ⊢
    omega

theorem map_add_sub (m : Nat) : ∀ (seg : List Nat), (∀ q ∈ seg, m ≤ q) →
    (seg.map (fun q => q - m)).map (fun f => m + f) = seg
  | [], _ => rfl
  | q :: qs, h => by
    have hq := h q (List.mem_cons_self q qs)
    rw [List.map_cons, List.map_cons, map_add_sub m qs (fun x hx => h x (List.mem_cons_of_mem q hx)),
      Nat.add_sub_cancel' hq]

theorem wire_values {b : Block} {seg : List Nat} (h : BlockOK b seg) :
    (b.wire seg).values = seg := by
  obtain ⟨h1, h2, h3, h4, h5, h6⟩ := h
  unfold WireBlock.values Block.wire
  dsimp only
  by_cases hz : b.mBits = 0
  · rw [if_pos hz]
    symm
    rw [List.eq_replicate_iff]
    refine ⟨h5, ?_⟩
    intro q hq
    have := h6 q hq
    rw [hz] at this
    omega
  · rw [if_neg hz, if_neg hz]
    exact map_add_sub b.mMinQ seg (fun q hq => (h6 q hq).1)

theorem wireBlocks_spec : ∀ (blocks : List Block) (quals : List Nat), Covers blocks quals →
    (∀ w ∈ wireBlocks blocks quals, w.Conformant) ∧
      (wireBlocks blocks quals).flatMap WireBlock.values = quals
  | [], quals, h => by
    have hq : quals = [] := h
    subst hq
    refine ⟨?_, rfl⟩
    intro w hw
    exact absurd hw (List.not_mem_nil w)
  | b :: bs, quals, h => by
    obtain ⟨hb, hr⟩ := h
    obtain ⟨i1, i2⟩ := wireBlocks_spec bs _ hr
    rw [wireBlocks] at i1 i2
    rw [wireBlocks, segments, List.map_cons]
    refine ⟨?_, ?_⟩
    · intro w hw
      rcases List.mem_cons.mp hw with hw' | hw'
      · rw [hw']
        exact wire_conformant hb
      · exact i1 w hw'
    · rw [List.flatMap_cons, i2, wire_values hb, List.take_append_drop]

theorem decode_encode_eq (env : Nat → Nat) (addr : Nat) (quals : List Nat) (haddr : addr < 2^64)
    (h : ∀ q ∈ quals, q ≤ 63) :
    ∃ packed, encode quals = .ok packed ∧ decode env addr packed = some quals := by
  obtain ⟨costs, blocks, _, hcov, _, henc⟩ := encode_spec quals h
  obtain ⟨hconf, hval⟩ := wireBlocks_spec blocks quals hcov
  refine ⟨_, henc, ?_⟩
  rw [decode_serialise env addr _ haddr hconf, hval]

theorem segments_spec : ∀ (blocks : List Block) (quals : List Nat), Covers blocks quals →
    (∀ p ∈ segments blocks quals, BlockOK p.1 p.2) ∧
      (segments blocks quals).map Prod.fst = blocks ∧
      (segments blocks quals).flatMap Prod.snd = quals
  | [], quals, h => by
    have hq : quals = [] := h
    subst hq
    exact ⟨fun p hp => absurd hp (List.not_mem_nil p), rfl, rfl⟩
  | b :: bs, quals, h => by
    obtain ⟨hb, hr⟩ := h
    obtain ⟨i1, i2, i3⟩ := segments_spec bs _ hr
    rw [segments]
    refine ⟨?_, ?_, ?_⟩
    · intro p hp
      rcases List.mem_cons.mp hp with hp' | hp'
      · rw [hp']
        exact hb
      · exact i1 p hp'
    · rw [List.map_cons, i2]
    · rw [List.flatMap_cons, i3, List.take_append_drop]

theorem blockOK_of_mem {blocks : List Block} {quals : List Nat} (h : Covers blocks quals)
    {b : Block} (hb : b ∈ blocks) : ∃ seg, (b, seg) ∈ segments blocks quals ∧ BlockOK b seg := by
  obtain ⟨i1, i2, _⟩ := segments_spec blocks quals h
  rw [← i2] at hb
  obtain ⟨p, hp, rfl⟩ := List.mem_map.mp hb
  exact ⟨p.2, hp, i1 p hp⟩

theorem packed_head (b : Block) (seg : List Nat) (h : BlockOK b seg) :
    (packBits (blockBits (b.wire seg))).head? = some b.mNQs := by
  obtain ⟨_, h2, h3, h4, _, _⟩ := h
  rw [packBits_bodyBits (b.wire seg) (Nat.lt_of_le_of_lt h3 (by decide))
    (Nat.lt_of_le_of_lt h4 (by decide)), List.head?_cons]
  show some (b.mNQs % 2^8) = some b.mNQs
  rw [Nat.mod_eq_of_lt (Nat.lt_of_le_of_lt h2 (by decide))]

theorem encode_error (quals : List Nat) (h : ∃ x ∈ quals, 63 < x) :
    ∃ v, 63 < v ∧ v ∈ quals ∧ encode quals = .error (.badQual v) := by
  obtain ⟨v, hv, hmem, he⟩ := configureBlocks_bad quals h
  exact ⟨v, hv, hmem, by rw [encode, he]⟩

theorem blockSize_zero {m : Nat} : blockSize m 0 = 3 := by
  rw [blockSize, Nat.mul_zero]
  rfl

theorem ceilLg2_const (v : Nat) : ceilLg2 ((2^32 + (v + 1) - v) % 2^32) = 0 := by
  have e : 2^32 + (v + 1) - v = 1 + 2^32 := by omega
  rw [e, Nat.add_mod_right]
  rfl

theorem make_small {n v : Nat} (hn : n ≤ 255) (hv : v ≤ 63) : Block.make n 0 v = ⟨n, 0, v⟩ := by
  rw [Block.make, Nat.mod_eq_of_lt (Nat.lt_of_le_of_lt hn (by decide)),
    Nat.mod_eq_of_lt (Nat.lt_of_le_of_lt hv (by decide))]
  rfl

theorem sweepBack_const (v k : Nat) (hv : v ≤ 63) (hk : 3 * (k / 255) + 6 < 2^32) :
    ∀ (j m bc : Nat) (bb : Block), m + j = k + 1 → 1 ≤ m → m ≤ 255 →
      (if m ≤ k % 255 then bc = 3 * (k / 255) + 6 ∧ bb = ⟨1, 0, v⟩
        else bc = 3 * (k / 255) + 3 ∧ bb = ⟨k % 255 + 1, 0, v⟩) →
      ∃ s, sweepBack (List.replicate j v) (constCostsBelow j) ⟨v, v, m, bc, bb⟩ = .ok s ∧
        s.bestCost = 3 * (k / 255) + 3 ∧ s.best = ⟨k % 255 + 1, 0, v⟩
  | 0, m, bc, bb, hj, _, _, hinv => by
    have hm : ¬ m ≤ k % 255 := by
      have := Nat.mod_le k 255
      omega
    rw [if_neg hm] at hinv
    exact ⟨_, rfl, hinv⟩
  | j + 1, m, bc, bb, hj, h1, h255, hinv => by
    rw [List.replicate_succ, constCostsBelow, sweepBack]
    by_cases hlt : m < 255
    · have hmm : (m + 1) % 2^32 = m + 1 :=
        Nat.mod_eq_of_lt (Nat.lt_of_le_of_lt (Nat.succ_le_of_lt hlt) (by decide))
      rw [if_pos hlt]
      dsimp only
      rw [if_neg (Nat.lt_irrefl v), ceilLg2_const, hmm, blockSize_zero]
      have hjk : j = k - m := by omega
      have hcj : constCost j + 3 < 2^32 := by
        rw [constCost, hjk]
        generalize (2:Nat)^32 = M at hk ⊢
        omega
      rw [Nat.mod_eq_of_lt hcj]
      by_cases hc : constCost j + 3 < bc
      · rw [if_pos hc]
        refine sweepBack_const v k hv hk j (m + 1) _ _ (by omega) (by omega) (by omega) ?_
        rw [make_small (Nat.succ_le_of_lt hlt) hv]
        rw [constCost, hjk] at hc ⊢
        by_cases hm : m ≤ k % 255
        · rw [if_pos hm] at hinv
          have hm1 : ¬ m + 1 ≤ k % 255 := by omega
          rw [if_neg hm1]
          refine ⟨by omega, ?_⟩
          have : m = k % 255 := by omega
          rw [this]
        · rw [if_neg hm] at hinv
          omega
      · rw [if_neg hc]
        refine sweepBack_const v k hv hk j (m + 1) _ _ (by omega) (by omega) (by omega) ?_
        rw [constCost, hjk] at hc
        by_cases hm : m ≤ k % 255
        · rw [if_pos hm] at hinv
          have hm1 : m + 1 ≤ k % 255 := by omega
          rw [if_pos hm1]
          exact hinv
        · rw [if_neg hm] at hinv
          have hm1 : ¬ m + 1 ≤ k % 255 := by omega
          rw [if_neg hm1]
          exact hinv
    · rw [if_neg hlt]
      have hm : ¬ m ≤ k % 255 := by omega
      rw [if_neg hm] at hinv
      exact ⟨_, rfl, hinv⟩

theorem placeBest_const (v k : Nat) :
    placeBest ⟨k % 255 + 1, 0, v⟩ (constStack v k) = .ok (constStack v (k + 1)) := by
  have hlt : k % 255 < 255 := Nat.mod_lt k (by decide)
  have htr : (2^32 + (k % 255 + 1) - 1) % 2^32 = k % 255 := by
    have e : 2^32 + (k % 255 + 1) - 1 = k % 255 + 2^32 := by omega
    rw [e, Nat.add_mod_right]
    exact Nat.mod_eq_of_lt (Nat.lt_trans hlt (by decide))
  unfold placeBest
  dsimp only
  rw [htr]
  by_cases h0 : k % 255 = 0
  · rw [if_pos h0]
    have e1 : (k + 1) % 255 = 1 := by omega
    have e2 : (k + 1) / 255 = k / 255 := by omega
    have hne : ¬ ((1 : Nat) ≠ 0 → False) := by
      intro h
      exact h (by decide)
    rw [constStack, constStack, e1, e2, h0]
    rfl
  · rw [if_neg h0]
    have hst : constStack v k = ⟨k % 255, 0, v⟩ :: List.replicate (k / 255) ⟨255, 0, v⟩ := by
      rw [constStack, if_pos h0]
      rfl
    rw [hst, popBlocks, if_neg (Nat.lt_irrefl _)]
    dsimp only
    rw [if_pos rfl]
    by_cases h254 : k % 255 = 254
    · have e1 : (k + 1) % 255 = 0 := by omega
      have e2 : (k + 1) / 255 = k / 255 + 1 := by omega
      rw [constStack, e1, e2, h254, List.replicate_succ]
      rfl
    · have e1 : (k + 1) % 255 = k % 255 + 1 := by omega
      have e2 : (k + 1) / 255 = k / 255 := by omega
      rw [constStack, e1, e2, if_pos (Nat.succ_ne_zero _)]
      rfl

theorem sweepStep_const (v k : Nat) (hv : v ≤ 63) (hk : 3 * (k / 255) + 6 < 2^32) :
    sweepStep v (List.replicate k v) (constCost k :: constCostsBelow k) (constStack v k)
      = .ok (constCost (k + 1), constStack v (k + 1)) := by
  have hnot : ¬ v > MAX_Q := Nat.not_lt.mpr hv
  have hc0 : (constCost k + blockSize 1 0) % 2^32 = constCost k + 3 := by
    rw [blockSize_zero]
    refine Nat.mod_eq_of_lt ?_
    rw [constCost]
    generalize (2:Nat)^32 = M at hk ⊢
    omega
  have hinit : if 1 ≤ k % 255 then constCost k + 3 = 3 * (k / 255) + 6 ∧
        Block.make 1 0 v = ⟨1, 0, v⟩
      else constCost k + 3 = 3 * (k / 255) + 3 ∧ Block.make 1 0 v = ⟨k % 255 + 1, 0, v⟩ := by
    rw [make_small (by decide) hv, constCost]
    by_cases h1 : 1 ≤ k % 255
    · rw [if_pos h1]
      exact ⟨by omega, rfl⟩
    · rw [if_neg h1]
      have h0 : k % 255 = 0 := by omega
      rw [h0]
      exact ⟨by omega, rfl⟩
  obtain ⟨s, hs, s1, s2⟩ :=
    sweepBack_const v k hv hk k 1 _ _ (by omega) (le_refl 1) (by decide) hinit
  have hcost : constCost (k + 1) = 3 * (k / 255) + 3 := by
    rw [constCost]
    omega
  simp only [sweepStep, if_neg hnot, hc0, hs, s1, s2, placeBest_const, hcost]

theorem sweepAll_const (v : Nat) (hv : v ≤ 63) : ∀ (n k : Nat), 3 * ((k + n) / 255) + 6 < 2^32 →
    sweepAll (List.replicate n v) (List.replicate k v) (constCost k :: constCostsBelow k)
      (constStack v k)
      = .ok (constCost (k + n) :: constCostsBelow (k + n), constStack v (k + n))
  | 0, k, _ => rfl
  | n + 1, k, h => by
    have hk : 3 * (k / 255) + 6 < 2^32 := by
      have : k / 255 ≤ (k + (n + 1)) / 255 := Nat.div_le_div_right (Nat.le_add_right _ _)
      generalize (2:Nat)^32 = M at h ⊢
      omega
    rw [List.replicate_succ, sweepAll, sweepStep_const v k hv hk]
    dsimp only
    rw [← List.replicate_succ, ← constCostsBelow,
      sweepAll_const v hv n (k + 1) (by rw [show k + 1 + n = k + (n + 1) by omega]; exact h),
      show k + 1 + n = k + (n + 1) by omega]

theorem constStack_reverse (v n : Nat) : (constStack v n).reverse = constBlocks v n := by
  rw [constStack, constBlocks, List.reverse_append, List.reverse_replicate]
  by_cases h : n % 255 ≠ 0
  · rw [if_pos h]
    rfl
  · rw [if_neg h]
    rfl

theorem configureBlocks_const (v n : Nat) (hv : v ≤ 63) (hn : n < 2^32) :
    configureBlocks (List.replicate n v)
      = .ok ((constCost n :: constCostsBelow n).reverse, constBlocks v n) := by
  have h := sweepAll_const v hv n 0 (by
    rw [Nat.zero_add]
    have : n / 255 ≤ n := Nat.div_le_self n 255
    have e : (2:Nat)^32 = 4294967296 := by decide
    rw [e] at hn ⊢
    omega)
  rw [Nat.zero_add] at h
  have h0 : sweepAll (List.replicate n v) [] [0] []
      = .ok (constCost n :: constCostsBelow n, constStack v n) := h
  rw [configureBlocks, h0]
  dsimp only
  rw [constStack_reverse]

theorem constBlocks_size (v n : Nat) :
    ((constBlocks v n).map Block.size).sum = 3 * ((n + 254) / 255) := by
  have hs : ∀ m, Block.size ⟨m, 0, v⟩ = 3 := fun m => blockSize_zero
  rw [constBlocks, List.map_append, List.sum_append, List.map_replicate, List.sum_replicate, hs]
  by_cases h : n % 255 ≠ 0
  · rw [if_pos h, List.map_cons, List.map_nil, List.sum_cons, List.sum_nil, hs]
    simp only [smul_eq_mul]
    omega
  · rw [if_neg h, List.map_nil, List.sum_nil]
    simp only [smul_eq_mul]
    omega

theorem memory_get_append (env : Nat → Nat) (addr : Nat) (bytes extra : List Nat) :
    ∀ i < bytes.length, memory env addr (bytes ++ extra) (addr + i) = bytes.getD i 0 := by
  intro i hi
  have h := memory_get env addr (bytes ++ extra) i (by rw [List.length_append]; omega)
  rw [h, List.getD_append _ _ _ _ hi]

theorem decode_serialise_append (env : Nat → Nat) (addr : Nat) (blocks : List WireBlock)
    (extra : List Nat) (haddr : addr < 2^64) (hconf : ∀ w ∈ blocks, w.Conformant) :
    decode env addr (serialise blocks ++ extra) = some (blocks.flatMap WireBlock.values) := by
  have hne : ¬ serialise blocks ++ extra = [] := by
    rw [serialise, List.append_assoc]
    exact List.append_ne_nil_of_right_ne_nil _ (List.cons_ne_nil 0 _)
  obtain ⟨i1, i2, i3⟩ := decode_start (memory env addr (serialise blocks ++ extra)) addr haddr []
  have hwin := window_bytes (memory env addr (serialise blocks ++ extra)) (serialise blocks) addr
    (memory_get_append env addr (serialise blocks) extra)
  rw [bytesBits_serialise] at hwin
  have hlen : 8 * (serialise blocks).length
      = (blocks.flatMap blockBits ++ List.replicate 8 false).length := by
    have := congrArg List.length hwin
    rw [window_length] at this
    exact this
  rw [hlen] at hwin
  have hfuel : blocks.length ≤ (serialise blocks ++ extra).length := by
    rw [serialise, List.length_append, List.length_append]
    have := length_le_flatMap blocks
    omega
  have := unpackLoop_spec (memory env addr (serialise blocks ++ extra)) blocks
    (serialise blocks ++ extra).length _ (8 * addr) hfuel hconf i1 i2 i3 hwin
  rw [decode, if_neg hne]
  dsimp only
  rw [this]
  rfl

theorem sweepAll_append : ∀ (xs ys prev costs : List Nat) (st : List Block),
    sweepAll (xs ++ ys) prev costs st =
      match sweepAll xs prev costs st with
      | .error e => .error e
      | .ok (costs', st') => sweepAll ys (xs.reverse ++ prev) costs' st'
  | [], ys, prev, costs, st => by
    rw [List.nil_append, sweepAll, List.reverse_nil, List.nil_append]
  | q :: xs, ys, prev, costs, st => by
    rw [List.cons_append, sweepAll, sweepAll]
    cases hstep : sweepStep q prev costs st with
    | error e => rfl
    | ok p =>
      obtain ⟨c, st1⟩ := p
      dsimp only
      rw [sweepAll_append xs ys (q :: prev) (c :: costs) st1, List.reverse_cons,
        List.append_assoc, List.singleton_append]

theorem covers_mem_pos : ∀ {bs : List Block} {qs : List Nat}, Covers bs qs →
    ∀ b ∈ bs, 1 ≤ b.mNQs ∧ b.mNQs ≤ 255
  | [], _, _, b, hb => absurd hb (List.not_mem_nil b)
  | c :: bs, qs, h, b, hb => by
    obtain ⟨hc, hr⟩ := h
    rcases List.mem_cons.1 hb with rfl | hb
    · exact ⟨hc.1, hc.2.1⟩
    · exact covers_mem_pos hr b hb

theorem take_le63 {quals : List Nat} (h : ∀ x ∈ quals, x ≤ 63) (k : Nat) :
    ∀ x ∈ quals.take k, x ≤ 63 :=
  fun x hx => h x (List.mem_of_mem_take hx)

theorem drop_le63 {quals : List Nat} (h : ∀ x ∈ quals, x ≤ 63) (k : Nat) :
    ∀ x ∈ quals.drop k, x ≤ 63 :=
  fun x hx => h x (List.mem_of_mem_drop hx)

/-- The state of the outer loop after `k` iterations is the run on the first `k`
qualities, and the loop goes on from it. -/
theorem sweepAll_prefix (quals : List Nat) (h : ∀ x ∈ quals, x ≤ 63) (k : Nat)
    (hk : k ≤ quals.length) :
    ∃ costsK stackK, sweepAll (quals.take k) [] [0] [] = .ok (costsK, stackK) ∧
      sweepAll quals [] [0] [] = sweepAll (quals.drop k) (quals.take k).reverse costsK stackK ∧
      Covers stackK (quals.take k).reverse ∧ costsK.length = k + 1 := by
  obtain ⟨costsK, stackK, he, hcov, hlen⟩ := sweepAll_ok (quals.take k) [] [0] []
    (take_le63 h k) (fun x hx => absurd hx (List.not_mem_nil x)) rfl rfl
  refine ⟨costsK, stackK, he, ?_, ?_, ?_⟩
  · have := sweepAll_append (quals.take k) (quals.drop k) [] [0] []
    rw [List.take_append_drop, he] at this
    rw [this, List.append_nil]
  · rw [List.append_nil] at hcov
    exact hcov
  · rw [hlen, List.length_take, List.length_singleton, Nat.min_eq_left hk]

theorem header_layout : ∀ b < 8, ∀ m < 64,
    (b ||| (m <<< 3) % 2^64) % 2^8 = (m <<< 3 ||| b) % 256 ∧
    (bitsLE 3 b ++ bitsLE 6 m).drop 8 = [decide ((m >>> 5) % 2 = 1)] ∧
    valueLE [decide ((m >>> 5) % 2 = 1)] = m >>> 5 := by
  decide

theorem flatMap_nil_fun {α β : Type} : ∀ (l : List α), l.flatMap (fun _ => ([] : List β)) = []
  | [] => rfl
  | _ :: l => by rw [List.flatMap_cons, flatMap_nil_fun l, List.append_nil]

theorem wire_layout {b : Block} {seg : List Nat} (h : BlockOK b seg) :
    packBits (blockBits (b.wire seg)) = layoutBlock b seg := by
  obtain ⟨h1, h2, h3, h4, h5, h6⟩ := h
  have hb : (b.wire seg).bits < 8 := by
    show b.mBits < 8
    omega
  have hm : (b.wire seg).minQ < 64 := by
    show b.mMinQ < 64
    omega
  obtain ⟨e1, e2, _⟩ := header_layout b.mBits (by omega) b.mMinQ (by omega)
  rw [packBits_bodyBits _ hb hm]
  show (b.mNQs % 2^8) :: ((b.mBits ||| (b.mMinQ <<< 3) % 2^64) % 2^8) ::
      packBits ((bitsLE 3 b.mBits ++ bitsLE 6 b.mMinQ).drop 8 ++
        (if b.mBits = 0 then [] else seg.map (fun q => q - b.mMinQ)).flatMap (bitsLE b.mBits))
    = layoutBlock b seg
  rw [e1, e2, mod_small (by
    have : (2:Nat)^8 = 256 := by decide
    omega : b.mNQs < 2^8), layoutBlock, List.singleton_append]
  by_cases hz : b.mBits = 0
  · rw [if_pos hz, hz]
    simp only [bitsLE]
    rw [flatMap_nil_fun seg]
    rfl
  · rw [if_neg hz, List.flatMap_map]

theorem serialise_layout : ∀ (blocks : List Block) (quals : List Nat), Covers blocks quals →
    (wireBlocks blocks quals).flatMap (fun w => packBits (blockBits w))
      = (segments blocks quals).flatMap (fun p => layoutBlock p.1 p.2)
  | [], quals, _ => rfl
  | b :: bs, quals, h => by
    obtain ⟨hb, hr⟩ := h
    have ih := serialise_layout bs (quals.drop b.mNQs) hr
    rw [wireBlocks] at ih ⊢
    rw [segments, List.map_cons, List.flatMap_cons, List.flatMap_cons, ih]
    dsimp only
    rw [wire_layout hb]

theorem layout_zero_bits (b : Block) (seg : List Nat) (hz : b.mBits = 0) (hm : b.mMinQ ≤ 63) :
    layoutBlock b seg = [b.mNQs, (b.mMinQ <<< 3) % 256, b.mMinQ >>> 5] := by
  obtain ⟨_, _, e3⟩ := header_layout 0 (by decide) b.mMinQ (by omega)
  rw [layoutBlock, hz]
  simp only [bitsLE]
  rw [flatMap_nil_fun seg, Nat.or_zero]
  show [b.mNQs, (b.mMinQ <<< 3) % 256, valueLE [decide ((b.mMinQ >>> 5) % 2 = 1)]] = _
  rw [e3]

theorem encode_single : ∀ v < 64, encode [v] = .ok [1, (v <<< 3) % 256, v >>> 5, 0] := by
  decide

theorem leBytes4_length (n : Nat) : (leBytes 4 n).length = 4 := rfl

theorem leValue_lt : ∀ (bytes : List Nat), leValue bytes < 2^(8 * bytes.length)
  | [] => by simp [leValue]
  | b :: bytes => by
    have ih := leValue_lt bytes
    have hb : b % 2^8 < 2^8 := Nat.mod_lt _ (by decide)
    rw [leValue, List.length_cons, Nat.mul_succ, pow_add]
    generalize 2 ^ (8 * bytes.length) = P at ih ⊢
    generalize leValue bytes = v at ih ⊢
    simp only [Nat.reducePow] at hb ⊢
    nlinarith

theorem leBytes4_leValue (a b c d : Nat) (ha : a < 256) (hb : b < 256) (hc : c < 256)
    (hd : d < 256) : leBytes 4 (leValue [a, b, c, d] % 2^32) = [a, b, c, d] := by
  simp only [leBytes, leValue, Nat.reducePow]
  refine congrArg₂ _ (by omega) (congrArg₂ _ (by omega) (congrArg₂ _ (by omega)
    (congrArg₂ _ (by omega) rfl)))

theorem toInt32_of_range {z : Int} (h1 : -2^31 ≤ z) (h2 : z < 2^31) : toInt32 z = z := by
  unfold toInt32
  simp only [Int.reducePow, Int.reduceNeg] at h1 h2 ⊢
  omega

theorem toInt32_range (z : Int) : -2^31 ≤ toInt32 z ∧ toInt32 z < 2^31 := by
  unfold toInt32
  simp only [Int.reducePow, Int.reduceNeg]
  omega

theorem toInt32_congr (z : Int) : (toInt32 z - z) % 2^32 = 0 := by
  unfold toInt32
  simp only [Int.reducePow]
  omega

theorem readN_some {n : Nat} {input a b : List Nat} (h : readN n input = some (a, b)) :
    input = a ++ b ∧ a.length = n := by
  unfold readN at h
  by_cases hn : n ≤ input.length
  · rw [if_pos hn] at h
    obtain ⟨rfl, rfl⟩ := Prod.mk.inj (Option.some.inj h)
    exact ⟨(List.take_append_drop n input).symm, by rw [List.length_take]; omega⟩
  · rw [if_neg hn] at h
    exact Option.noConfusion h

theorem readN_append (a b : List Nat) : readN a.length (a ++ b) = some (a, b) := by
  unfold readN
  rw [if_pos (by rw [List.length_append]; omega), List.take_left, List.drop_left]

theorem field_bounds (aln : List Nat) :
    mRemainingBlockSize aln < 2^32 ∧ mNameLen aln < 2^8 ∧ mCigarLen aln < 2^16 ∧
      mSeqLen aln < 2^32 := by
  refine ⟨?_, ?_, ?_, ?_⟩
  · have := leValue_lt (aln.take 4)
    exact lt_of_lt_of_le this (Nat.pow_le_pow_right (by decide) (by
      rw [List.length_take]; omega))
  · have := leValue_lt ((aln.drop 12).take 1)
    exact lt_of_lt_of_le this (Nat.pow_le_pow_right (by decide) (by
      rw [List.length_take]; omega))
  · have := leValue_lt ((aln.drop 16).take 2)
    exact lt_of_lt_of_le this (Nat.pow_le_pow_right (by decide) (by
      rw [List.length_take]; omega))
  · have := leValue_lt ((aln.drop 20).take 4)
    exact lt_of_lt_of_le this (Nat.pow_le_pow_right (by decide) (by
      rw [List.length_take]; omega))

theorem toInt32_mod_congr {x y : Int} (h : x % 2^32 = y % 2^32) : toInt32 x = toInt32 y := by
  unfold toInt32
  simp only [Int.reducePow] at h ⊢
  omega

theorem toInt32_sub_left (x y : Int) : toInt32 (toInt32 x - y) = toInt32 (x - y) := by
  apply toInt32_mod_congr
  unfold toInt32
  simp only [Int.reducePow]
  omega

theorem sizeChain (R n c : Nat) (h1 : R < 2^32) (h2 : n < 2^8) (_h3 : c < 2^16) :
    (((2^64 + ((2^64 + ((2^64 + R - 36) % 2^64 + 4) % 2^64 - n) % 2^64)
        - (c * 4) % 2^64 % 2^32) % 2^64 : Nat) : Int) % 2^32
      = ((R : Int) - 36 + 4 - n - 4 * c) % 2^32 := by
  simp only [Nat.reducePow, Int.reducePow] at h1 h2 _h3 ⊢
  omega

/-- The value of `auxLen` at the start of the tag loop as one expression. -/
theorem auxLenTags_eq (aln : List Nat) :
    auxLenTags aln = toInt32 ((mRemainingBlockSize aln : Int) - 36 + 4 - mNameLen aln
      - 4 * mCigarLen aln - (((mSeqLen aln + 1) % 2^32 / 2 : Nat) : Int) - mSeqLen aln) := by
  unfold auxLenTags auxLenInit
  dsimp only
  rw [toInt32_sub_left]
  apply toInt32_mod_congr
  have h := sizeChain (mRemainingBlockSize aln) (mNameLen aln) (mCigarLen aln)
    (field_bounds aln).1 (field_bounds aln).2.1 (field_bounds aln).2.2.1
  unfold sizeofBAMAlignHead
  generalize mRemainingBlockSize aln = R at h ⊢
  generalize mNameLen aln = n at h ⊢
  generalize mCigarLen aln = c at h ⊢
  generalize mSeqLen aln = s at h ⊢
  generalize ((2^64 + ((2^64 + ((2^64 + R - 36) % 2^64 + 4) % 2^64 - n) % 2^64)
        - (c * 4) % 2^64 % 2^32) % 2^64 : Nat) = A at h ⊢
  generalize (s + 1) % 2^32 / 2 = v
  simp only [Int.reducePow, Nat.reducePow] at h ⊢
  omega

theorem readFixed_auxLen {input aln : List Nat} {w : Walk} (h : readFixed input = .ok (aln, w)) :
    w.auxLen = auxLenTags aln ∧ 0 ≤ auxLenTags aln ∧
      ∃ body, input = aln ++ body ++ w.input ∧ w.oss = body ∧ aln.length = 36 ∧
        (body.length : Int) = mNameLen aln + 4 * mCigarLen aln
          + (((mSeqLen aln + 1) % 2^32 / 2 : Nat) : Int) + mSeqLen aln := by
  unfold readFixed at h
  cases h1 : readN sizeofBAMAlignHead input with
  | none => rw [h1] at h; exact Except.noConfusion h
  | some p1 =>
    obtain ⟨a, i1⟩ := p1
    rw [h1] at h
    dsimp only at h
    cases h2 : readN (mNameLen a) i1 with
    | none => rw [h2] at h; exact Except.noConfusion h
    | some p2 =>
      obtain ⟨name, i2⟩ := p2
      rw [h2] at h
      dsimp only at h
      cases h3 : readN ((mCigarLen a * 4) % 2^64 % 2^32) i2 with
      | none => rw [h3] at h; exact Except.noConfusion h
      | some p3 =>
        obtain ⟨cigar, i3⟩ := p3
        rw [h3] at h
        dsimp only at h
        by_cases hneg : auxLenTags a < 0
        · rw [if_pos hneg] at h
          exact Except.noConfusion h
        · rw [if_neg hneg] at h
          cases h4 : readN ((mSeqLen a + 1) % 2^32 / 2) i3 with
          | none => rw [h4] at h; exact Except.noConfusion h
          | some p4 =>
            obtain ⟨seq, i4⟩ := p4
            rw [h4] at h
            dsimp only at h
            cases h5 : readN (mSeqLen a) i4 with
            | none => rw [h5] at h; exact Except.noConfusion h
            | some p5 =>
              obtain ⟨qual, i5⟩ := p5
              rw [h5] at h
              dsimp only at h
              obtain ⟨rfl, rfl⟩ := Prod.mk.inj (Except.ok.inj h)
              obtain ⟨e1, l1⟩ := readN_some h1
              obtain ⟨e2, l2⟩ := readN_some h2
              obtain ⟨e3, l3⟩ := readN_some h3
              obtain ⟨e4, l4⟩ := readN_some h4
              obtain ⟨e5, l5⟩ := readN_some h5
              refine ⟨rfl, by omega, name ++ cigar ++ seq ++ qual, ?_, rfl, l1, ?_⟩
              · rw [e1, e2, e3, e4, e5]
                simp only [List.append_assoc]
              · have hc := (field_bounds a).2.2.1
                simp only [List.length_append, l2, l3, l4, l5]
                simp only [Nat.reducePow] at hc ⊢
                push_cast
                omega

theorem isub_ok {a b c : Int} (h : isub a b = .ok c) : c = a - b := by
  unfold isub at h
  by_cases hr : -2^31 ≤ a - b ∧ a - b < 2^31
  · rw [if_pos hr] at h
    exact (Except.ok.inj h).symm
  · rw [if_neg hr] at h
    exact Except.noConfusion h

theorem copyCString_spec : ∀ (input oss : List Nat) (auxLen : Int) (w : Walk),
    copyCString input oss auxLen = .ok w →
      w.oss ++ w.input = oss ++ input ∧ w.auxLen + w.oss.length = auxLen + oss.length ∧
        w.input.length ≤ input.length
  | [], oss, auxLen, w, h => by
    rw [copyCString] at h
    exact Except.noConfusion h
  | byte :: input, oss, auxLen, w, h => by
    rw [copyCString] at h
    cases hs : isub auxLen 1 with
    | error e => rw [hs] at h; exact Except.noConfusion h
    | ok a =>
      rw [hs] at h
      dsimp only at h
      have ha := isub_ok hs
      by_cases hb : byte % 2^8 ≠ 0
      · rw [if_pos hb] at h
        obtain ⟨h1, h2, h3⟩ := copyCString_spec input (oss ++ [byte]) a w h
        refine ⟨?_, ?_, ?_⟩
        · rw [h1, List.append_assoc, List.singleton_append]
        · rw [h2, ha, List.length_append, List.length_singleton]
          push_cast
          omega
        · rw [List.length_cons]
          omega
      · rw [if_neg hb] at h
        have hw := (Except.ok.inj h).symm
        subst hw
        refine ⟨?_, ?_, ?_⟩
        · show (oss ++ [byte]) ++ input = oss ++ byte :: input
          rw [List.append_assoc, List.singleton_append]
        · show a + ((oss ++ [byte]).length : Int) = auxLen + oss.length
          rw [ha, List.length_append, List.length_singleton]
          push_cast
          omega
        · show input.length ≤ (byte :: input).length
          rw [List.length_cons]
          omega

theorem copyValue_spec (tagLen : Int) (input oss : List Nat) (auxLen : Int) (w : Walk)
    (h : copyValue tagLen input oss auxLen = .ok w) :
    w.oss ++ w.input = oss ++ input ∧ w.auxLen + w.oss.length = auxLen + oss.length ∧
      w.input.length ≤ input.length := by
  unfold copyValue at h
  by_cases h0 : tagLen ≠ 0
  · rw [if_pos h0] at h
    by_cases hneg : tagLen < 0
    · rw [if_pos hneg] at h
      exact Except.noConfusion h
    · rw [if_neg hneg] at h
      cases hr : readN tagLen.toNat input with
      | none => rw [hr] at h; exact Except.noConfusion h
      | some p =>
        obtain ⟨buffer, rest⟩ := p
        rw [hr] at h
        dsimp only at h
        cases hs : isub auxLen tagLen with
        | error e => rw [hs] at h; exact Except.noConfusion h
        | ok a =>
          rw [hs] at h
          dsimp only at h
          have ha := isub_ok hs
          have hw := (Except.ok.inj h).symm
          subst hw
          obtain ⟨e, l⟩ := readN_some hr
          refine ⟨?_, ?_, ?_⟩
          · show (oss ++ buffer) ++ rest = oss ++ input
            rw [e, List.append_assoc]
          · show a + ((oss ++ buffer).length : Int) = auxLen + oss.length
            rw [ha, List.length_append, l]
            push_cast
            omega
          · show rest.length ≤ input.length
            rw [e, List.length_append]
            omega
  · rw [if_neg h0] at h
    exact copyCString_spec input oss auxLen w h

theorem otherTag_spec (tag input oss : List Nat) (auxLen : Int) (w : Walk)
    (ht : tag.length = 3) (h : otherTag tag input oss auxLen = .ok w) :
    w.oss ++ w.input = oss ++ (tag ++ input) ∧ w.auxLen + w.oss.length = auxLen + oss.length ∧
      w.input.length ≤ input.length := by
  unfold otherTag at h
  dsimp only at h
  cases hs : isub auxLen 3 with
  | error e => rw [hs] at h; exact Except.noConfusion h
  | ok a =>
    rw [hs] at h
    dsimp only at h
    have ha := isub_ok hs
    by_cases hbad : getTagLength (tag.getD 2 0) = -1
    · rw [if_pos hbad] at h
      exact Except.noConfusion h
    · rw [if_neg hbad] at h
      by_cases hB : tag.getD 2 0 = 66
      · rw [if_pos hB] at h
        cases input with
        | nil => exact Except.noConfusion h
        | cons dataType input =>
          dsimp only at h
          cases hr : readN 4 input with
          | none => rw [hr] at h; exact Except.noConfusion h
          | some p =>
            obtain ⟨arrLen, rest⟩ := p
            rw [hr] at h
            dsimp only at h
            by_cases hsub : getTagLength dataType ≤ 0
            · rw [if_pos hsub] at h
              exact Except.noConfusion h
            · rw [if_neg hsub] at h
              cases hs5 : isub a 5 with
              | error e => rw [hs5] at h; exact Except.noConfusion h
              | ok a5 =>
                rw [hs5] at h
                dsimp only at h
                have ha5 := isub_ok hs5
                obtain ⟨e, l⟩ := readN_some hr
                obtain ⟨h1, h2, h3⟩ := copyValue_spec _ _ _ _ _ h
                refine ⟨?_, ?_, ?_⟩
                · rw [h1, e]
                  simp only [List.append_assoc, List.cons_append]
                · rw [h2, ha5, ha]
                  simp only [List.length_append, List.length_cons, ht, l]
                  push_cast
                  omega
                · rw [List.length_cons, e, List.length_append]
                  omega
      · rw [if_neg hB] at h
        obtain ⟨h1, h2, h3⟩ := copyValue_spec _ _ _ _ _ h
        refine ⟨?_, ?_, h3⟩
        · rw [h1, List.append_assoc]
        · rw [h2, ha, List.length_append, ht]
          push_cast
          omega

theorem oqTag_input (seqLen : Nat) (tag input oss : List Nat) (auxLen : Int) (w : Walk)
    (h : oqTag seqLen tag input oss auxLen = .ok w) : w.input.length ≤ input.length := by
  unfold oqTag at h
  by_cases hz : tag.getD 2 0 ≠ 90
  · rw [if_pos hz] at h
    exact Except.noConfusion h
  · rw [if_neg hz] at h
    cases hr : readN seqLen input with
    | none => rw [hr] at h; exact Except.noConfusion h
    | some p =>
      obtain ⟨buffer, rest⟩ := p
      rw [hr] at h
      dsimp only at h
      obtain ⟨e, _⟩ := readN_some hr
      cases rest with
      | nil => exact Except.noConfusion h
      | cons byte rest =>
        dsimp only at h
        by_cases hb : byte % 2^8 ≠ 0
        · rw [if_pos hb] at h
          exact Except.noConfusion h
        · rw [if_neg hb] at h
          cases he : encode (buffer.map (fun val => (2^8 + val % 2^8 - 33) % 2^8)) with
          | error e => rw [he] at h; exact Except.noConfusion h
          | ok packed =>
            rw [he] at h
            dsimp only at h
            have hw := (Except.ok.inj h).symm
            subst hw
            show rest.length ≤ input.length
            rw [e, List.length_append, List.length_cons]
            omega

theorem zqTag_input (env : Nat → Nat) (addr seqLen : Nat) (tag input oss : List Nat)
    (auxLen : Int) (w : Walk) (h : zqTag env addr seqLen tag input oss auxLen = .ok w) :
    w.input.length ≤ input.length := by
  unfold zqTag at h
  by_cases hz : tag.getD 2 0 ≠ 66
  · rw [if_pos hz] at h
    exact Except.noConfusion h
  · rw [if_neg hz] at h
    cases input with
    | nil => exact Except.noConfusion h
    | cons dataType input =>
      dsimp only at h
      by_cases hc : dataType ≠ 67
      · rw [if_pos hc] at h
        exact Except.noConfusion h
      · rw [if_neg hc] at h
        cases hr : readN 4 input with
        | none => rw [hr] at h; exact Except.noConfusion h
        | some p =>
          obtain ⟨sizeBytes, rest⟩ := p
          rw [hr] at h
          dsimp only at h
          obtain ⟨e, _⟩ := readN_some hr
          cases hr2 : readN (leValue sizeBytes) rest with
          | none => rw [hr2] at h; exact Except.noConfusion h
          | some p2 =>
            obtain ⟨buffer, rest2⟩ := p2
            rw [hr2] at h
            dsimp only at h
            obtain ⟨e2, _⟩ := readN_some hr2
            cases hd : decode env addr buffer with
            | none => rw [hd] at h; exact Except.noConfusion h
            | some quals =>
              rw [hd] at h
              dsimp only at h
              by_cases hl : quals.length ≠ seqLen
              · rw [if_pos hl] at h
                exact Except.noConfusion h
              · rw [if_neg hl] at h
                have hw := (Except.ok.inj h).symm
                subst hw
                show rest2.length ≤ (dataType :: input).length
                rw [List.length_cons, e, e2, List.length_append, List.length_append]
                omega

/-- A round of the tag loop that returns has taken at least three bytes of the input. -/
theorem tagStep_input (env : Nat → Nat) (addr seqLen : Nat) (w w' : Walk)
    (h : tagStep env addr seqLen w = .ok w') : w'.input.length + 3 ≤ w.input.length := by
  unfold tagStep at h
  cases hr : readN 3 w.input with
  | none => rw [hr] at h; exact Except.noConfusion h
  | some p =>
    obtain ⟨tag, rest⟩ := p
    rw [hr] at h
    dsimp only at h
    obtain ⟨e, l⟩ := readN_some hr
    have hlen : w.input.length = 3 + rest.length := by rw [e, List.length_append, l]
    by_cases h1 : tag.getD 0 0 = 79 ∧ tag.getD 1 0 = 81
    · rw [if_pos h1] at h
      have := oqTag_input _ _ _ _ _ _ h
      omega
    · rw [if_neg h1] at h
      by_cases h2 : tag.getD 0 0 = 90 ∧ tag.getD 1 0 = 81
      · rw [if_pos h2] at h
        have := zqTag_input _ _ _ _ _ _ _ _ h
        omega
      · rw [if_neg h2] at h
        have := (otherTag_spec _ _ _ _ _ l h).2.2
        omega

theorem getD_take3 (input tag rest : List Nat) (e : input = tag ++ rest) (l : tag.length = 3)
    (i : Nat) (hi : i < 3) : tag.getD i 0 = input.getD i 0 := by
  rw [e, List.getD_append _ _ _ _ (by omega)]

/-- A round of the tag loop on a tag that is neither `OQ` nor `ZQ` copies the bytes it
reads and takes their number from `auxLen`. -/
theorem tagStep_other (env : Nat → Nat) (addr seqLen : Nat) (w w' : Walk)
    (hq : isQualTag w.input = false) (h : tagStep env addr seqLen w = .ok w') :
    w'.oss ++ w'.input = w.oss ++ w.input ∧
      w'.auxLen + w'.oss.length = w.auxLen + w.oss.length := by
  unfold tagStep at h
  cases hr : readN 3 w.input with
  | none => rw [hr] at h; exact Except.noConfusion h
  | some p =>
    obtain ⟨tag, rest⟩ := p
    rw [hr] at h
    dsimp only at h
    obtain ⟨e, l⟩ := readN_some hr
    have g0 := getD_take3 _ _ _ e l 0 (by decide)
    have g1 := getD_take3 _ _ _ e l 1 (by decide)
    unfold isQualTag at hq
    rw [← g0, ← g1] at hq
    have hq' : ¬ ((tag.getD 0 0 = 79 ∧ tag.getD 1 0 = 81) ∨
        (tag.getD 0 0 = 90 ∧ tag.getD 1 0 = 81)) := by
      intro hc
      rw [decide_eq_true hc] at hq
      exact Bool.noConfusion hq
    rw [if_neg (fun hc => hq' (Or.inl hc)), if_neg (fun hc => hq' (Or.inr hc))] at h
    obtain ⟨h1, h2, _⟩ := otherTag_spec _ _ _ _ _ l h
    exact ⟨by rw [h1, e], h2⟩

theorem isub_fuel (a b : Int) : isub a b ≠ .error .outOfFuel := by
  unfold isub
  split
  · exact fun h => Except.noConfusion h
  · exact fun h => Fatal.noConfusion (Except.error.inj h)

theorem isub_error {a b : Int} {e : Fatal} (h : isub a b = .error e) : e ≠ .outOfFuel := by
  intro he
  subst he
  exact isub_fuel a b h

theorem copyCString_fuel : ∀ (input oss : List Nat) (auxLen : Int),
    copyCString input oss auxLen ≠ .error .outOfFuel
  | [], oss, auxLen => by
    rw [copyCString]
    exact fun h => Fatal.noConfusion (Except.error.inj h)
  | byte :: input, oss, auxLen => by
    rw [copyCString]
    cases hs : isub auxLen 1 with
    | error e =>
      dsimp only
      exact fun h => isub_error hs (Except.error.inj h)
    | ok a =>
      dsimp only
      split
      · exact copyCString_fuel _ _ _
      · exact fun h => Except.noConfusion h

theorem copyValue_fuel (tagLen : Int) (input oss : List Nat) (auxLen : Int) :
    copyValue tagLen input oss auxLen ≠ .error .outOfFuel := by
  unfold copyValue
  split
  · split
    · exact fun h => Fatal.noConfusion (Except.error.inj h)
    · split
      · exact fun h => Fatal.noConfusion (Except.error.inj h)
      · split
        · rename_i hs
          exact fun h => isub_error hs (Except.error.inj h)
        · exact fun h => Except.noConfusion h
  · exact copyCString_fuel _ _ _

theorem otherTag_fuel (tag input oss : List Nat) (auxLen : Int) :
    otherTag tag input oss auxLen ≠ .error .outOfFuel := by
  unfold otherTag
  dsimp only
  split
  · rename_i hs
    exact fun h => isub_error hs (Except.error.inj h)
  · split
    · exact fun h => Fatal.noConfusion (Except.error.inj h)
    · split
      · split
        · exact fun h => Fatal.noConfusion (Except.error.inj h)
        · split
          · exact fun h => Fatal.noConfusion (Except.error.inj h)
          · split
            · exact fun h => Fatal.noConfusion (Except.error.inj h)
            · split
              · rename_i hs
                exact fun h => isub_error hs (Except.error.inj h)
              · exact copyValue_fuel _ _ _ _
      · exact copyValue_fuel _ _ _ _

theorem oqTag_fuel (seqLen : Nat) (tag input oss : List Nat) (auxLen : Int) :
    oqTag seqLen tag input oss auxLen ≠ .error .outOfFuel := by
  unfold oqTag
  split
  · exact fun h => Fatal.noConfusion (Except.error.inj h)
  · split
    · exact fun h => Fatal.noConfusion (Except.error.inj h)
    · split
      · exact fun h => Fatal.noConfusion (Except.error.inj h)
      · split
        · exact fun h => Fatal.noConfusion (Except.error.inj h)
        · dsimp only
          split
          · exact fun h => Fatal.noConfusion (Except.error.inj h)
          · exact fun h => Except.noConfusion h

theorem zqTag_fuel (env : Nat → Nat) (addr seqLen : Nat) (tag input oss : List Nat)
    (auxLen : Int) : zqTag env addr seqLen tag input oss auxLen ≠ .error .outOfFuel := by
  unfold zqTag
  split
  · exact fun h => Fatal.noConfusion (Except.error.inj h)
  · split
    · exact fun h => Fatal.noConfusion (Except.error.inj h)
    · split
      · exact fun h => Fatal.noConfusion (Except.error.inj h)
      · split
        · exact fun h => Fatal.noConfusion (Except.error.inj h)
        · dsimp only
          split
          · exact fun h => Fatal.noConfusion (Except.error.inj h)
          · split
            · exact fun h => Fatal.noConfusion (Except.error.inj h)
            · split
              · exact fun h => Fatal.noConfusion (Except.error.inj h)
              · exact fun h => Except.noConfusion h

theorem tagStep_fuel (env : Nat → Nat) (addr seqLen : Nat) (w : Walk) :
    tagStep env addr seqLen w ≠ .error .outOfFuel := by
  unfold tagStep
  split
  · exact fun h => Fatal.noConfusion (Except.error.inj h)
  · split
    · exact oqTag_fuel _ _ _ _ _
    · split
      · exact zqTag_fuel _ _ _ _ _ _ _
      · exact otherTag_fuel _ _ _ _

theorem walkTags_fuel (env : Nat → Nat) (addr seqLen : Nat) : ∀ (fuel : Nat) (w : Walk),
    w.input.length < fuel → walkTags env addr seqLen fuel w ≠ .error .outOfFuel
  | 0, w, h => absurd h (Nat.not_lt_zero _)
  | fuel + 1, w, h => by
    rw [walkTags]
    by_cases hp : w.auxLen > 0
    · rw [if_pos hp]
      cases hs : tagStep env addr seqLen w with
      | error e =>
        dsimp only
        exact fun hc => tagStep_fuel env addr seqLen w (hs.trans hc)
      | ok w' =>
        dsimp only
        have := tagStep_input env addr seqLen w w' hs
        exact walkTags_fuel env addr seqLen fuel w' (by omega)
    · rw [if_neg hp]
      exact fun hc => Except.noConfusion hc

theorem walkTags_other (env : Nat → Nat) (addr seqLen : Nat) : ∀ (fuel : Nat) (w w' : Walk),
    hasQualTag env addr seqLen fuel w = false → walkTags env addr seqLen fuel w = .ok w' →
      w'.oss ++ w'.input = w.oss ++ w.input ∧
        w'.auxLen + w'.oss.length = w.auxLen + w.oss.length ∧ ¬ w'.auxLen > 0
  | 0, w, w', _, h => by
    rw [walkTags] at h
    by_cases hp : w.auxLen > 0
    · rw [if_pos hp] at h
      exact Except.noConfusion h
    · rw [if_neg hp] at h
      have hw := (Except.ok.inj h).symm
      subst hw
      exact ⟨rfl, rfl, hp⟩
  | fuel + 1, w, w', hno, h => by
    rw [walkTags] at h
    rw [hasQualTag] at hno
    by_cases hp : w.auxLen > 0
    · rw [if_pos hp] at h hno
      cases hs : tagStep env addr seqLen w with
      | error e => rw [hs] at h; exact Except.noConfusion h
      | ok w1 =>
        rw [hs] at h hno
        dsimp only at h hno
        obtain ⟨hq, hrest⟩ := Bool.or_eq_false_iff.1 hno
        obtain ⟨a1, a2⟩ := tagStep_other env addr seqLen w w1 hq hs
        obtain ⟨b1, b2, b3⟩ := walkTags_other env addr seqLen fuel w1 w' hrest h
        exact ⟨b1.trans a1, b2.trans a2, b3⟩
    · rw [if_neg hp] at h
      have hw := (Except.ok.inj h).symm
      subst hw
      exact ⟨rfl, rfl, hp⟩

theorem readFixed_fuel (input : List Nat) : readFixed input ≠ .error .outOfFuel := by
  unfold readFixed
  split
  · exact fun h => Fatal.noConfusion (Except.error.inj h)
  · split
    · exact fun h => Fatal.noConfusion (Except.error.inj h)
    · try dsimp only
      split
      · exact fun h => Fatal.noConfusion (Except.error.inj h)
      · try dsimp only
        split
        · exact fun h => Fatal.noConfusion (Except.error.inj h)
        · split
          · exact fun h => Fatal.noConfusion (Except.error.inj h)
          · try dsimp only
            split
            · exact fun h => Fatal.noConfusion (Except.error.inj h)
            · exact fun h => Except.noConfusion h

/-- The loop budget that `processAlignment` gives the tag loop is never used up. -/
theorem processAlignment_fuel (env : Nat → Nat) (addr : Nat) (input : List Nat) :
    processAlignment env addr input ≠ .error .outOfFuel := by
  unfold processAlignment
  cases hf : readFixed input with
  | error e =>
    dsimp only
    intro hc
    have he := Except.error.inj hc
    subst he
    exact readFixed_fuel input hf
  | ok p =>
    obtain ⟨aln, w⟩ := p
    dsimp only
    cases hw : walkTags env addr (mSeqLen aln) (w.input.length + 1) w with
    | error e =>
      dsimp only
      intro hc
      have he := Except.error.inj hc
      subst he
      exact walkTags_fuel env addr (mSeqLen aln) _ w (Nat.lt_succ_self _) hw
    | ok w' =>
      dsimp only
      split
      · exact fun h => Fatal.noConfusion (Except.error.inj h)
      · exact fun h => Except.noConfusion h

/-- An accepted alignment without `OQ` and `ZQ` tags is written as it was read. -/
theorem processAlignment_other (env : Nat → Nat) (addr : Nat) (input out rest : List Nat)
    (hbytes : ∀ b ∈ input, b < 256)
    (hno : ∀ aln w, readFixed input = .ok (aln, w) →
      hasQualTag env addr (mSeqLen aln) (w.input.length + 1) w = false)
    (h : processAlignment env addr input = .ok (out, rest)) :
    out ++ rest = input ∧ mRemainingBlockSize out = mRemainingBlockSize input := by
  unfold processAlignment at h
  cases hf : readFixed input with
  | error e => rw [hf] at h; exact Except.noConfusion h
  | ok p =>
    obtain ⟨aln, w⟩ := p
    rw [hf] at h
    dsimp only at h
    cases hw : walkTags env addr (mSeqLen aln) (w.input.length + 1) w with
    | error e => rw [hw] at h; exact Except.noConfusion h
    | ok w' =>
      rw [hw] at h
      dsimp only at h
      by_cases hneg : w'.auxLen < 0
      · rw [if_pos hneg] at h
        exact Except.noConfusion h
      · rw [if_neg hneg] at h
        obtain ⟨rfl, rfl⟩ := Prod.mk.inj (Except.ok.inj h)
        obtain ⟨a1, a2, body, e, eo, la, lb⟩ := readFixed_auxLen hf
        obtain ⟨b1, b2, b3⟩ := walkTags_other env addr _ _ w w' (hno aln w hf) hw
        have hzero : w'.auxLen = 0 := by omega
        have hR := (field_bounds aln).1
        have hcong := toInt32_congr ((mRemainingBlockSize aln : Int) - 36 + 4 - mNameLen aln
          - 4 * mCigarLen aln - (((mSeqLen aln + 1) % 2^32 / 2 : Nat) : Int) - mSeqLen aln)
        rw [← auxLenTags_eq, ← a1] at hcong
        rw [hzero, a1, eo] at b2
        rw [← a1] at b2
        have hsize : ((2^64 + (w'.oss.length + sizeofBAMAlignHead) % 2^64 - 4) % 2^64) % 2^32
            = mRemainingBlockSize aln := by
          unfold sizeofBAMAlignHead
          generalize mRemainingBlockSize aln = R at hR hcong ⊢
          generalize w'.oss.length = L at b2 ⊢
          generalize w.auxLen = A at b2 hcong
          generalize (body.length : Int) = B at b2 lb hcong
          generalize ((mSeqLen aln + 1) % 2^32 / 2 : Nat) = v at lb hcong
          simp only [Nat.reducePow, Int.reducePow, Nat.reduceAdd] at hR hcong ⊢
          omega
        have htake : aln.take 4 ++ aln.drop 4 = aln := List.take_append_drop 4 aln
        have hhead : setRemainingBlockSize aln
            ((2^64 + (w'.oss.length + sizeofBAMAlignHead) % 2^64 - 4) % 2^64) = aln := by
          unfold setRemainingBlockSize
          rw [hsize]
          have hmem : ∀ b ∈ aln, b < 256 := fun b hb => hbytes b (by
            rw [e]
            exact List.mem_append_left _ (List.mem_append_left _ hb))
          rcases aln with _ | ⟨x0, _ | ⟨x1, _ | ⟨x2, _ | ⟨x3, tl⟩⟩⟩⟩
          all_goals first
            | (simp only [List.length_cons, List.length_nil] at la; omega)
            | skip
          have := leBytes4_leValue x0 x1 x2 x3 (hmem x0 (by simp)) (hmem x1 (by simp))
            (hmem x2 (by simp)) (hmem x3 (by simp))
          have hR4 : leValue [x0, x1, x2, x3] < 2^32 := leValue_lt [x0, x1, x2, x3]
          rw [mod_small hR4] at this
          show leBytes 4 (leValue [x0, x1, x2, x3]) ++ tl = x0 :: x1 :: x2 :: x3 :: tl
          rw [this]
          rfl
        rw [hhead]
        refine ⟨?_, ?_⟩
        · rw [List.append_assoc, b1, eo, e, List.append_assoc]
        · have e1 : mRemainingBlockSize (aln ++ w'.oss) = mRemainingBlockSize aln := by
            unfold mRemainingBlockSize
            rw [List.take_append_of_le_length (by omega)]
          have e2 : mRemainingBlockSize input = mRemainingBlockSize aln := by
            unfold mRemainingBlockSize
            rw [e, List.append_assoc, List.take_append_of_le_length (by omega)]
          rw [e1, e2]

theorem getTagLength_cases (d : Nat) :
    getTagLength d = 1 ∨ getTagLength d = 2 ∨ getTagLength d = 4 ∨ getTagLength d = 0 ∨
      getTagLength d = -1 := by
  unfold getTagLength
  split
  · exact Or.inl rfl
  · split
    · exact Or.inr (Or.inl rfl)
    · split
      · exact Or.inr (Or.inr (Or.inl rfl))
      · split
        · exact Or.inr (Or.inr (Or.inr (Or.inl rfl)))
        · exact Or.inr (Or.inr (Or.inr (Or.inr rfl)))

theorem getTagLength_other (d : Nat)
    (h : d ∉ ['A', 'c', 'C', 's', 'S', 'i', 'I', 'f', 'Z', 'H', 'B'].map Char.toNat) :
    getTagLength d = -1 := by
  have h' : ¬ (d = 65 ∨ d = 99 ∨ d = 67 ∨ d = 115 ∨ d = 83 ∨ d = 105 ∨ d = 73 ∨ d = 102 ∨
      d = 90 ∨ d = 72 ∨ d = 66) := by
    intro hc
    apply h
    rcases hc with rfl | rfl | rfl | rfl | rfl | rfl | rfl | rfl | rfl | rfl | rfl <;> decide
  unfold getTagLength
  rw [if_neg (by omega), if_neg (by omega), if_neg (by omega), if_neg (by omega)]

/-- A tag whose type byte `getTagLength` maps to -1 ends the program. -/
theorem tagStep_bad_type (env : Nat → Nat) (addr seqLen : Nat) (w : Walk) (t0 t1 ty : Nat)
    (rest : List Nat) (hin : w.input = t0 :: t1 :: ty :: rest) (hty : getTagLength ty = -1)
    (hpos : 0 < w.auxLen) (hmax : w.auxLen < 2^31) :
    tagStep env addr seqLen w = .error
      (if t0 = 79 ∧ t1 = 81 then .oqNonZ else if t0 = 90 ∧ t1 = 81 then .zqNonB
        else .badTagType) := by
  have hr : readN 3 w.input = some ([t0, t1, ty], rest) := by
    rw [hin]
    exact readN_append [t0, t1, ty] rest
  have hZ : ty ≠ 90 := by
    intro hc
    rw [hc] at hty
    exact absurd hty (by decide)
  have hB : ty ≠ 66 := by
    intro hc
    rw [hc] at hty
    exact absurd hty (by decide)
  unfold tagStep
  rw [hr]
  dsimp only
  show (if t0 = 79 ∧ t1 = 81 then oqTag seqLen [t0, t1, ty] rest w.oss w.auxLen
    else if t0 = 90 ∧ t1 = 81 then zqTag env addr seqLen [t0, t1, ty] rest w.oss w.auxLen
    else otherTag [t0, t1, ty] rest w.oss w.auxLen) = _
  by_cases h1 : t0 = 79 ∧ t1 = 81
  · rw [if_pos h1, if_pos h1]
    unfold oqTag
    rw [if_pos (show [t0, t1, ty].getD 2 0 ≠ 90 from hZ)]
  · rw [if_neg h1, if_neg h1]
    by_cases h2 : t0 = 90 ∧ t1 = 81
    · rw [if_pos h2, if_pos h2]
      unfold zqTag
      rw [if_pos (show [t0, t1, ty].getD 2 0 ≠ 66 from hB)]
    · rw [if_neg h2, if_neg h2]
      unfold otherTag
      dsimp only
      have hs : isub w.auxLen 3 = .ok (w.auxLen - 3) := by
        unfold isub
        rw [if_pos (by
          simp only [Int.reducePow, Int.reduceNeg] at hmax ⊢
          omega)]
      rw [hs]
      dsimp only
      rw [if_pos (show getTagLength ([t0, t1, ty].getD 2 0) = -1 from hty)]

/-- A `B` tag whose element subtype `getTagLength` maps to a value `≤ 0` ends the
program. -/
theorem tagStep_bad_subtype (env : Nat → Nat) (addr seqLen : Nat) (w : Walk)
    (t0 t1 sub : Nat) (rest : List Nat) (hin : w.input = t0 :: t1 :: 66 :: sub :: rest)
    (hsub : getTagLength sub ≤ 0) (hpos : 0 < w.auxLen) (hmax : w.auxLen < 2^31) :
    tagStep env addr seqLen w = .error
      (if t0 = 79 ∧ t1 = 81 then .oqNonZ else if t0 = 90 ∧ t1 = 81 then .zqNonC
        else if rest.length < 4 then .bTagTruncated else .bTagBadType) := by
  have hr : readN 3 w.input = some ([t0, t1, 66], sub :: rest) := by
    rw [hin]
    exact readN_append [t0, t1, 66] (sub :: rest)
  have hC : sub ≠ 67 := by
    intro hc
    rw [hc] at hsub
    exact absurd hsub (by decide)
  unfold tagStep
  rw [hr]
  dsimp only
  show (if t0 = 79 ∧ t1 = 81 then oqTag seqLen [t0, t1, 66] (sub :: rest) w.oss w.auxLen
    else if t0 = 90 ∧ t1 = 81 then
      zqTag env addr seqLen [t0, t1, 66] (sub :: rest) w.oss w.auxLen
    else otherTag [t0, t1, 66] (sub :: rest) w.oss w.auxLen) = _
  by_cases h1 : t0 = 79 ∧ t1 = 81
  · rw [if_pos h1, if_pos h1]
    unfold oqTag
    rw [if_pos (show [t0, t1, 66].getD 2 0 ≠ 90 from (by decide : (66 : Nat) ≠ 90))]
  · rw [if_neg h1, if_neg h1]
    by_cases h2 : t0 = 90 ∧ t1 = 81
    · rw [if_pos h2, if_pos h2]
      unfold zqTag
      rw [if_neg (show ¬ [t0, t1, 66].getD 2 0 ≠ 66 from (by decide : ¬ (66 : Nat) ≠ 66))]
      dsimp only
      rw [if_pos hC]
    · rw [if_neg h2, if_neg h2]
      unfold otherTag
      dsimp only
      have hs : isub w.auxLen 3 = .ok (w.auxLen - 3) := by
        unfold isub
        rw [if_pos (by
          simp only [Int.reducePow, Int.reduceNeg] at hmax ⊢
          omega)]
      rw [hs]
      dsimp only
      rw [if_neg (show ¬ getTagLength ([t0, t1, 66].getD 2 0) = -1 from (by decide : ¬ getTagLength 66 = -1))]
      rw [if_pos (show [t0, t1, 66].getD 2 0 = 66 from rfl)]
      by_cases hl : rest.length < 4
      · rw [if_pos hl]
        have : readN 4 rest = none := by
          unfold readN
          rw [if_neg (by omega)]
        rw [this]
      · rw [if_neg hl]
        have : readN 4 rest = some (rest.take 4, rest.drop 4) := by
          unfold readN
          rw [if_pos (by omega)]
        rw [this]
        dsimp only
        rw [if_pos hsub]

theorem phred_map (b : List Nat) (hb : ∀ x ∈ b, 33 ≤ x ∧ x ≤ 96) :
    b.map (fun val => (2^8 + val % 2^8 - 33) % 2^8) = b.map (fun x => x - 33) ∧
      (b.map (fun x => x - 33)).map (fun val => (val + 33) % 2^8) = b ∧
      ∀ q ∈ b.map (fun x => x - 33), q ≤ 63 := by
  refine ⟨?_, ?_, ?_⟩
  · apply List.map_congr_left
    intro x hx
    obtain ⟨h1, h2⟩ := hb x hx
    simp only [Nat.reducePow]
    omega
  · rw [List.map_map]
    conv_rhs => rw [← List.map_id b]
    apply List.map_congr_left
    intro x hx
    obtain ⟨h1, h2⟩ := hb x hx
    simp only [Function.comp, Nat.reducePow, id]
    omega
  · intro q hq
    obtain ⟨x, hx, rfl⟩ := List.mem_map.1 hq
    obtain ⟨h1, h2⟩ := hb x hx
    omega

theorem readFixed_reject (input aln rest : List Nat)
    (hr : readN sizeofBAMAlignHead input = some (aln, rest))
    (hlen : mNameLen aln + mCigarLen aln * 4 ≤ rest.length) (hneg : auxLenTags aln < 0) :
    readFixed input = .error .invalidBlockSize := by
  have hc := (field_bounds aln).2.2.1
  have hval : (mCigarLen aln * 4) % 2^64 % 2^32 = mCigarLen aln * 4 := by
    simp only [Nat.reducePow] at hc ⊢
    omega
  unfold readFixed
  rw [hr]
  dsimp only
  have h2 : readN (mNameLen aln) rest
      = some (rest.take (mNameLen aln), rest.drop (mNameLen aln)) := by
    unfold readN
    rw [if_pos (by omega)]
  rw [h2]
  dsimp only
  have h3 : readN ((mCigarLen aln * 4) % 2^64 % 2^32) (rest.drop (mNameLen aln))
      = some ((rest.drop (mNameLen aln)).take (mCigarLen aln * 4),
          (rest.drop (mNameLen aln)).drop (mCigarLen aln * 4)) := by
    rw [hval]
    unfold readN
    rw [if_pos (by rw [List.length_drop]; omega)]
  rw [h3]
  dsimp only
  rw [if_pos hneg]

theorem walkTags_step_error (env : Nat → Nat) (addr seqLen fuel : Nat) (w : Walk) (e : Fatal)
    (hpos : 0 < w.auxLen) (h : tagStep env addr seqLen w = .error e) :
    walkTags env addr seqLen (fuel + 1) w = .error e := by
  rw [walkTags, if_pos hpos, h]

theorem recordHasQualTag_false {env : Nat → Nat} {addr : Nat} {input aln : List Nat} {w : Walk}
    (hno : recordHasQualTag env addr input = false) (hf : readFixed input = .ok (aln, w)) :
    hasQualTag env addr (mSeqLen aln) (w.input.length + 1) w = false := by
  unfold recordHasQualTag at hno
  rw [hf] at hno
  exact hno

theorem foldl_max_le (l : List Nat) : ∀ a, a ≤ l.foldl max a ∧ ∀ x ∈ l, x ≤ l.foldl max a := by
  induction l with
  | nil => exact fun a => ⟨Nat.le_refl a, fun x hx => absurd hx (List.not_mem_nil x)⟩
  | cons y l ih =>
    intro a
    obtain ⟨h1, h2⟩ := ih (max a y)
    rw [List.foldl_cons]
    refine ⟨by omega, fun x hx => ?_⟩
    rcases List.mem_cons.1 hx with rfl | hx
    · omega
    · exact h2 x hx

theorem foldl_max_mem (l : List Nat) : ∀ a, l.foldl max a = a ∨ l.foldl max a ∈ l := by
  induction l with
  | nil => exact fun a => Or.inl rfl
  | cons y l ih =>
    intro a
    rw [List.foldl_cons]
    rcases ih (max a y) with h | h
    · rw [h]
      rcases Nat.le_total a y with hay | hay
      · rw [Nat.max_eq_right hay]
        exact Or.inr (List.mem_cons_self y l)
      · rw [Nat.max_eq_left hay]
        exact Or.inl rfl
    · exact Or.inr (List.mem_cons_of_mem y h)

theorem foldl_min_le (l : List Nat) : ∀ a, l.foldl min a ≤ a ∧ ∀ x ∈ l, l.foldl min a ≤ x := by
  induction l with
  | nil => exact fun a => ⟨Nat.le_refl a, fun x hx => absurd hx (List.not_mem_nil x)⟩
  | cons y l ih =>
    intro a
    obtain ⟨h1, h2⟩ := ih (min a y)
    rw [List.foldl_cons]
    refine ⟨by omega, fun x hx => ?_⟩
    rcases List.mem_cons.1 hx with rfl | hx
    · omega
    · exact h2 x hx

theorem foldl_min_mem (l : List Nat) : ∀ a, l.foldl min a = a ∨ l.foldl min a ∈ l := by
  induction l with
  | nil => exact fun a => Or.inl rfl
  | cons y l ih =>
    intro a
    rw [List.foldl_cons]
    rcases ih (min a y) with h | h
    · rw [h]
      rcases Nat.le_total a y with hay | hay
      · rw [Nat.min_eq_left hay]
        exact Or.inl rfl
      · rw [Nat.min_eq_right hay]
        exact Or.inr (List.mem_cons_self y l)
    · exact Or.inr (List.mem_cons_of_mem y h)

/-- The value `segMax` is the greatest element of a segment that is not empty. -/
theorem segMax_spec {seg : List Nat} (h : seg ≠ []) :
    segMax seg ∈ seg ∧ ∀ x ∈ seg, x ≤ segMax seg := by
  refine ⟨?_, (foldl_max_le seg 0).2⟩
  rcases foldl_max_mem seg 0 with h0 | hm
  · obtain ⟨y, l, rfl⟩ := List.exists_cons_of_ne_nil h
    have := (foldl_max_le (y :: l) 0).2 y (List.mem_cons_self y l)
    have hy : y = 0 := by
      rw [h0] at this
      omega
    rw [segMax, h0, ← hy]
    exact List.mem_cons_self y l
  · exact hm

/-- The value `segMin` is the least element of a segment that is not empty. -/
theorem segMin_spec {seg : List Nat} (h : seg ≠ []) :
    segMin seg ∈ seg ∧ ∀ x ∈ seg, segMin seg ≤ x := by
  obtain ⟨y, l, rfl⟩ := List.exists_cons_of_ne_nil h
  obtain ⟨h1, h2⟩ := foldl_min_le l y
  refine ⟨?_, fun x hx => ?_⟩
  · rcases foldl_min_mem l y with h0 | hm
    · show l.foldl min y ∈ y :: l
      rw [h0]
      exact List.mem_cons_self y l
    · exact List.mem_cons_of_mem y hm
  · rcases List.mem_cons.1 hx with rfl | hx
    · exact h1
    · exact h2 x hx

theorem segMax_perm {a b : List Nat} (ha : a ≠ []) (h : ∀ x, x ∈ a ↔ x ∈ b) :
    segMax a = segMax b := by
  have hb : b ≠ [] := by
    obtain ⟨y, l, rfl⟩ := List.exists_cons_of_ne_nil ha
    exact List.ne_nil_of_mem ((h y).1 (List.mem_cons_self y l))
  obtain ⟨a1, a2⟩ := segMax_spec ha
  obtain ⟨b1, b2⟩ := segMax_spec hb
  exact Nat.le_antisymm (b2 _ ((h _).1 a1)) (a2 _ ((h _).2 b1))

theorem segMin_perm {a b : List Nat} (ha : a ≠ []) (h : ∀ x, x ∈ a ↔ x ∈ b) :
    segMin a = segMin b := by
  have hb : b ≠ [] := by
    obtain ⟨y, l, rfl⟩ := List.exists_cons_of_ne_nil ha
    exact List.ne_nil_of_mem ((h y).1 (List.mem_cons_self y l))
  obtain ⟨a1, a2⟩ := segMin_spec ha
  obtain ⟨b1, b2⟩ := segMin_spec hb
  exact Nat.le_antisymm (a2 _ ((h _).2 b1)) (b2 _ ((h _).1 a1))

theorem width_reverse (seg : List Nat) : width seg.reverse = width seg := by
  by_cases h : seg = []
  · subst h
    rfl
  · have hr : seg.reverse ≠ [] := fun hc => h (List.reverse_eq_nil_iff.1 hc)
    rw [width, width, segMax_perm hr (fun x => List.mem_reverse),
      segMin_perm hr (fun x => List.mem_reverse)]

theorem segMin_reverse (seg : List Nat) : segMin seg.reverse = segMin seg := by
  by_cases h : seg = []
  · subst h
    rfl
  · have hr : seg.reverse ≠ [] := fun hc => h (List.reverse_eq_nil_iff.1 hc)
    exact segMin_perm hr (fun x => List.mem_reverse)

theorem segMax_snoc (l : List Nat) (v : Nat) : segMax (l ++ [v]) = max (segMax l) v := by
  rw [segMax, List.foldl_append]
  rfl

theorem segMin_snoc {l : List Nat} (h : l ≠ []) (v : Nat) :
    segMin (l ++ [v]) = min (segMin l) v := by
  obtain ⟨y, t, rfl⟩ := List.exists_cons_of_ne_nil h
  show (t ++ [v]).foldl min y = min (t.foldl min y) v
  rw [List.foldl_append]
  rfl

theorem take_succ_of_drop {v : Nat} {p : List Nat} : ∀ {n : Nat} {R : List Nat},
    R.drop n = v :: p → R.take (n + 1) = R.take n ++ [v]
  | 0, R, h => by
    rw [List.drop_zero] at h
    subst h
    rfl
  | n + 1, [], h => by
    rw [List.drop_nil] at h
    exact List.noConfusion h
  | n + 1, x :: R, h => by
    rw [List.drop_succ_cons] at h
    rw [List.take_succ_cons, List.take_succ_cons, take_succ_of_drop h, List.cons_append]

theorem getD_of_drop {c : Nat} {cs : List Nat} : ∀ {n : Nat} {C : List Nat},
    C.drop n = c :: cs → C.getD n 0 = c
  | 0, C, h => by
    rw [List.drop_zero] at h
    subst h
    rfl
  | n + 1, [], h => by
    rw [List.drop_nil] at h
    exact List.noConfusion h
  | n + 1, x :: C, h => by
    rw [List.drop_succ_cons] at h
    rw [List.getD_cons_succ]
    exact getD_of_drop h

theorem blockSize_le {m w : Nat} (hm : m ≤ 255) (hw : w ≤ 6) : blockSize m w ≤ 194 := by
  rw [blockSize_eq hm (by omega)]
  have : m * w ≤ 255 * 6 := Nat.mul_le_mul hm hw
  generalize m * w = x at this ⊢
  omega

theorem sweepExact_values {R C : List Nat} {s : Sweep} {v c : Nat} {p cs : List Nat}
    (hok : SweepOK R s) (hex : SweepExact R C s) (hd : R.drop s.nQs = v :: p)
    (hc : C.drop s.nQs = c :: cs) :
    (if v > s.maxVal then v else s.maxVal) = segMax (R.take (s.nQs + 1)) ∧
      (if v < s.minVal then v else s.minVal) = segMin (R.take (s.nQs + 1)) ∧
      ceilLg2 ((if v > s.maxVal then v else s.maxVal) + 1
          - (if v < s.minVal then v else s.minVal)) = width (R.take (s.nQs + 1)) ∧
      c + blockSize (s.nQs + 1) (width (R.take (s.nQs + 1))) = candRev R C (s.nQs + 1) := by
  obtain ⟨h1, h2, h3, h4, h5, h6, h7⟩ := hok
  obtain ⟨e1, e2, _⟩ := hex
  have hne : R.take s.nQs ≠ [] := by
    intro hc0
    have := congrArg List.length hc0
    rw [List.length_take, List.length_nil] at this
    omega
  have ht := take_succ_of_drop hd
  have hmax : (if v > s.maxVal then v else s.maxVal) = segMax (R.take (s.nQs + 1)) := by
    rw [ht, segMax_snoc, ← e2]
    split <;> omega
  have hmin : (if v < s.minVal then v else s.minVal) = segMin (R.take (s.nQs + 1)) := by
    rw [ht, segMin_snoc hne, ← e1]
    split <;> omega
  have hle : segMin (R.take (s.nQs + 1)) ≤ segMax (R.take (s.nQs + 1)) := by
    rw [← hmax, ← hmin]
    split <;> split <;> omega
  refine ⟨hmax, hmin, ?_, ?_⟩
  · rw [hmax, hmin, width]
    congr 1
    omega
  · rw [candRev, Nat.add_sub_cancel, getD_of_drop hc]

theorem sweepBack_exact (R C : List Nat) (hR : ∀ x ∈ R, x ≤ 63)
    (hC : ∀ c ∈ C, c + 194 < 2^32) :
    ∀ (prev costs : List Nat) (s : Sweep), SweepOK R s → SweepExact R C s →
      R.drop s.nQs = prev → C.drop s.nQs = costs → prev.length ≤ costs.length →
      ∃ s', sweepBack prev costs s = .ok s' ∧ SweepOK R s' ∧ SweepExact R C s' ∧
        s'.nQs = min R.length 255
  | [], costs, s, h, hex, hd, _, _ => by
    refine ⟨s, by rw [sweepBack], h, hex, ?_⟩
    have := congrArg List.length hd
    rw [List.length_drop, List.length_nil] at this
    have h2 := h.2.1
    have h3 := h.2.2.1
    omega
  | v :: p, [], s, _, _, _, _, hl => by
    rw [List.length_cons, List.length_nil] at hl
    omega
  | v :: p, c :: cs, s, h, hex, hd, hcd, hl => by
    have hl' : p.length ≤ cs.length := by
      rw [List.length_cons, List.length_cons] at hl
      omega
    rw [sweepBack]
    by_cases hlt : s.nQs < 255
    · rw [if_pos hlt]
      have hv : v ≤ 63 := hR v (List.mem_of_mem_drop (hd ▸ List.mem_cons_self v p))
      have hcb : c + 194 < 2^32 := hC c (List.mem_of_mem_drop (hcd ▸ List.mem_cons_self c cs))
      have hd' : R.drop (s.nQs + 1) = p := drop_succ_of_drop hd
      have hcd' : C.drop (s.nQs + 1) = cs := by
        rw [← drop_drop_of_add C (rfl : s.nQs + 1 = s.nQs + 1), hcd]
        rfl
      obtain ⟨hstep, hblk⟩ := sweepOK_step h hd hlt hv
      obtain ⟨vmax, vmin, vw, vc⟩ := sweepExact_values h hex hd hcd
      have hmx : (if v > s.maxVal then v else s.maxVal) ≤ 63 := by
        have := h.2.2.2.2.1
        split <;> omega
      have hmn : (if v < s.minVal then v else s.minVal)
          ≤ (if v > s.maxVal then v else s.maxVal) := by
        have := h.2.2.2.1
        split <;> split <;> omega
      have hn : (s.nQs + 1) % 2^32 = s.nQs + 1 := mod_small (by
        have : (255 : Nat) < 2^32 := by decide
        omega)
      have hw : (2^32 + ((if v > s.maxVal then v else s.maxVal) + 1)
            - (if v < s.minVal then v else s.minVal)) % 2^32
          = (if v > s.maxVal then v else s.maxVal) + 1
            - (if v < s.minVal then v else s.minVal) := by
        generalize (if v > s.maxVal then v else s.maxVal) = a at hmx hmn
        generalize (if v < s.minVal then v else s.minVal) = b at hmn
        have : (64 : Nat) < 2^32 := by decide
        generalize (2:Nat)^32 = M at this
        have e : M + (a + 1) - b = (a + 1 - b) + M := by omega
        rw [e, Nat.add_mod_right]
        exact mod_small (by omega)
      dsimp only
      rw [hn, hw, vw]
      have hb6 : width (R.take (s.nQs + 1)) ≤ 6 := by
        rw [← vw]
        exact hblk.2.2.1
      have hbs := blockSize_le (Nat.succ_le_of_lt hlt) hb6
      have hcur : (c + blockSize (s.nQs + 1) (width (R.take (s.nQs + 1)))) % 2^32
          = candRev R C (s.nQs + 1) := by
        rw [← vc]
        exact mod_small (by
          generalize blockSize (s.nQs + 1) (width (R.take (s.nQs + 1))) = x at hbs
          generalize (2:Nat)^32 = M at hcb ⊢
          omega)
      rw [hcur]
      have e1 : (s.nQs + 1) % 2^8 = s.nQs + 1 := mod_small (by
        have : (2:Nat)^8 = 256 := by decide
        omega)
      have e3 : (if v < s.minVal then v else s.minVal) % 2^8
          = (if v < s.minVal then v else s.minVal) := mod_small (by
        have : (2:Nat)^8 = 256 := by decide
        omega)
      have e2 : width (R.take (s.nQs + 1)) % 2^8 = width (R.take (s.nQs + 1)) := mod_small (by
        have : (2:Nat)^8 = 256 := by decide
        omega)
      obtain ⟨x1, x2, x3, x4, x5, x6, x7, x8, x9⟩ := hex
      by_cases hc : candRev R C (s.nQs + 1) < s.bestCost
      · rw [if_pos hc]
        rw [Block.make, e1, e3, e2]
        refine sweepBack_exact R C hR hC p cs _ (hstep _ _ ?_) ?_ hd' hcd' hl'
        · rw [← vw]
          exact hblk
        · refine ⟨vmin, vmax, Nat.le_add_left 1 _, Nat.le_refl _, rfl, vmin, rfl, ?_, ?_⟩
          · intro i hi1 hi2
            show candRev R C (s.nQs + 1) ≤ candRev R C i
            have hi2' : i ≤ s.nQs + 1 := hi2
            by_cases hi : i = s.nQs + 1
            · rw [hi]
            · have := x8 i hi1 (by omega)
              omega
          · intro i hi1 hi2
            show candRev R C (s.nQs + 1) < candRev R C i
            have hi2' : i < s.nQs + 1 := hi2
            have := x8 i hi1 (Nat.le_of_lt_succ hi2')
            omega
      · rw [if_neg hc]
        refine sweepBack_exact R C hR hC p cs _ (hstep _ _ h.2.2.2.2.2.2) ?_ hd' hcd' hl'
        refine ⟨vmin, vmax, x3, Nat.le_succ_of_le x4, x5, x6, x7, ?_, x9⟩
        intro i hi1 hi2
        show s.bestCost ≤ candRev R C i
        by_cases hi : i = s.nQs + 1
        · rw [hi]
          omega
        · exact x8 i hi1 (by
            have : i ≤ s.nQs + 1 := hi2
            omega)
    · rw [if_neg hlt]
      refine ⟨s, rfl, h, hex, ?_⟩
      have h2 := h.2.1
      have h3 := h.2.2.1
      omega

theorem cb_mem : ∀ {C : List Nat}, CostsBounded C →
    ∀ c ∈ C, c ≤ 194 * ((C.length + 254) / 255)
  | [], _, c, hc => absurd hc (List.not_mem_nil c)
  | x :: cs, h, c, hc => by
    obtain ⟨h1, h2⟩ := h
    rw [List.length_cons]
    rcases List.mem_cons.1 hc with rfl | hc
    · omega
    · have := cb_mem h2 c hc
      omega

theorem cb_getD : ∀ {C : List Nat}, CostsBounded C → ∀ i, i < C.length →
    C.getD i 0 ≤ 194 * ((C.length - 1 - i + 254) / 255)
  | [], _, i, hi => absurd hi (Nat.not_lt_zero i)
  | x :: cs, h, 0, _ => by
    obtain ⟨h1, _⟩ := h
    rw [List.getD_cons_zero, List.length_cons]
    exact h1
  | x :: cs, h, i + 1, hi => by
    obtain ⟨_, h2⟩ := h
    rw [List.length_cons] at hi
    have := cb_getD h2 i (by omega)
    rw [List.getD_cons_succ, List.length_cons]
    have e : cs.length + 1 - 1 - (i + 1) = cs.length - 1 - i := by omega
    rw [e]
    exact this

theorem width_le {seg : List Nat} (h : ∀ x ∈ seg, x ≤ 63) : width seg ≤ 6 := by
  by_cases hs : seg = []
  · subst hs
    decide
  · have := h _ (segMax_spec hs).1
    exact (ceilLg2_spec _ (by omega) (by omega)).1

theorem placeBest_head {best : Block} {st st' : List Block} (h : placeBest best st = .ok st') :
    st'.head? = some best := by
  unfold placeBest at h
  dsimp only at h
  split at h
  · rw [← Except.ok.inj h]
    rfl
  · split at h
    · exact Except.noConfusion h
    · exact Except.noConfusion h
    · split at h
      · rw [← Except.ok.inj h]
        rfl
      · rw [← Except.ok.inj h]
        rfl

theorem sweepStep_exact (q : Nat) (prev C : List Nat) (st : List Block) (hq : q ≤ 63)
    (hp : ∀ x ∈ prev, x ≤ 63) (hcov : Covers st prev) (hcost : C.length = prev.length + 1)
    (hcb : CostsBounded C) (hn : prev.length + 1 < 2^32) :
    ∃ c st' best, sweepStep q prev C st = .ok (c, st') ∧ Covers st' (q :: prev) ∧
      st'.head? = some best ∧ StepExact (q :: prev) C c best ∧
      c ≤ 194 * ((prev.length + 1 + 254) / 255) := by
  have hC : ∀ c ∈ C, c + 194 < 2^32 := by
    intro c hc
    have := cb_mem hcb c hc
    rw [hcost] at this
    simp only [Nat.reducePow] at hn ⊢
    omega
  obtain ⟨c0, cs, rfl⟩ := List.exists_cons_of_ne_nil
    (List.ne_nil_of_length_pos (by rw [hcost]; exact Nat.succ_pos _))
  have hcs : prev.length ≤ cs.length := by
    rw [List.length_cons] at hcost
    omega
  have hR := le63_cons hq hp
  have e3 : q % 2^8 = q := mod_small (by
    have : (2:Nat)^8 = 256 := by decide
    omega)
  have hmk : Block.make 1 0 q = ⟨1, 0, q⟩ := by
    have a1 : 1 % 2^8 = 1 := by decide
    have a0 : 0 % 2^8 = 0 := by decide
    rw [Block.make, e3, a1, a0]
  have hblk : BlockOK (Block.make 1 0 q) ((q :: prev).take (Block.make 1 0 q).mNQs) := by
    rw [hmk]
    refine ⟨le_refl 1, (by decide : 1 ≤ 255), (by decide : 0 ≤ 6), hq, rfl, ?_⟩
    intro x hx
    have hx' : x ∈ [q] := hx
    rw [List.mem_singleton] at hx'
    subst hx'
    show x ≤ x ∧ x < x + 2 ^ 0
    omega
  have h0 : SweepOK (q :: prev) ⟨q, q, 1, (c0 + blockSize 1 0) % 2^32, Block.make 1 0 q⟩ := by
    refine ⟨le_refl 1, (by decide : 1 ≤ 255), Nat.le_add_left 1 _, le_refl _, hq, ?_, hblk⟩
    intro x hx
    have hx' : x ∈ [q] := hx
    rw [List.mem_singleton] at hx'
    subst hx'
    exact ⟨le_refl _, le_refl _⟩
  have hw1 : width [q] = 0 := by
    show ceilLg2 (max 0 q - q + 1) = 0
    rw [Nat.zero_max, Nat.sub_self]
    rfl
  have hc0 : (c0 + blockSize 1 0) % 2^32 = candRev (q :: prev) (c0 :: cs) 1 := by
    have hb := hC c0 (List.mem_cons_self c0 cs)
    have h3 : blockSize 1 0 = 3 := blockSize_zero
    show _ = c0 + blockSize 1 (width [q])
    rw [hw1, h3]
    exact mod_small (by
      generalize (2:Nat)^32 = M at hb ⊢
      omega)
  have hx0 : SweepExact (q :: prev) (c0 :: cs)
      ⟨q, q, 1, (c0 + blockSize 1 0) % 2^32, Block.make 1 0 q⟩ := by
    rw [hmk]
    refine ⟨rfl, ?_, le_refl 1, le_refl 1, hw1.symm, rfl, hc0, ?_, ?_⟩
    · show q = max 0 q
      rw [Nat.zero_max]
    · intro i hi1 hi2
      have hi2' : i ≤ 1 := hi2
      have : i = 1 := by omega
      rw [this, hc0]
    · intro i hi1 hi2
      have hi2' : i < 1 := hi2
      omega
  obtain ⟨s1, hs1, h1, hx1, hnq⟩ := sweepBack_exact (q :: prev) (c0 :: cs) hR hC prev cs _ h0 hx0
    rfl rfl hcs
  obtain ⟨st', he, hcov'⟩ := placeBest_spec _ st q prev hcov h1.2.2.2.2.2.2
  obtain ⟨x1, x2, x3, x4, x5, x6, x7, x8, x9⟩ := hx1
  refine ⟨s1.bestCost, st', s1.best, ?_, hcov', placeBest_head he, ?_, ?_⟩
  · have hnot : ¬ q > MAX_Q := Nat.not_lt.mpr hq
    simp only [sweepStep, if_neg hnot, hs1, he]
  · rw [hnq] at x4 x8
    exact ⟨x3, x4, x5, x6, x7, x8, x9⟩
  · have hM1 : 1 ≤ min (q :: prev).length 255 := by
      rw [List.length_cons]
      omega
    have hle := x8 (min (q :: prev).length 255) hM1 (by rw [hnq])
    have hwd : width ((q :: prev).take (min (q :: prev).length 255)) ≤ 6 :=
      width_le (fun x hx => hR x (List.mem_of_mem_take hx))
    have hbs := blockSize_le (Nat.min_le_right (q :: prev).length 255) hwd
    have hg := cb_getD hcb (min (q :: prev).length 255 - 1) (by
      rw [hcost, List.length_cons]
      omega)
    rw [candRev] at hle
    rw [hcost] at hg
    rw [List.length_cons] at hle hbs hg hM1
    generalize blockSize (min (prev.length + 1) 255)
      (width ((q :: prev).take (min (prev.length + 1) 255))) = B at hle hbs
    generalize (c0 :: cs).getD (min (prev.length + 1) 255 - 1) 0 = G at hle hg
    omega

theorem sweepAll_costs : ∀ (rest prev C : List Nat) (st : List Block),
    (∀ x ∈ rest, x ≤ 63) → (∀ x ∈ prev, x ≤ 63) → Covers st prev →
    C.length = prev.length + 1 → CostsBounded C → rest.length + prev.length < 2^32 →
    ∃ C' st', sweepAll rest prev C st = .ok (C', st') ∧
      Covers st' (rest.reverse ++ prev) ∧ C'.length = rest.length + C.length ∧
      CostsBounded C' ∧ C'.drop rest.length = C
  | [], prev, C, st, _, _, hc, _, hcb, _ =>
    ⟨C, st, rfl, by simpa using hc, by simp, hcb, rfl⟩
  | q :: rest, prev, C, st, hr, hp, hc, hcost, hcb, hn => by
    have hq : q ≤ 63 := hr q (List.mem_cons_self q rest)
    rw [List.length_cons] at hn
    obtain ⟨c, st1, best, he, hcov, _, _, hbound⟩ := sweepStep_exact q prev C st hq hp hc hcost hcb
      (by omega)
    obtain ⟨C', st', he', hcov', hlen, hcb', hdrop⟩ := sweepAll_costs rest (q :: prev) (c :: C) st1
      (fun x hx => hr x (List.mem_cons_of_mem q hx)) (le63_cons hq hp) hcov
      (by rw [List.length_cons, List.length_cons, hcost])
      ⟨by rw [hcost]; exact hbound, hcb⟩
      (by rw [List.length_cons]; omega)
    refine ⟨C', st', ?_, ?_, ?_, hcb', ?_⟩
    · rw [sweepAll, he]
      exact he'
    · rw [List.reverse_cons, List.append_assoc]
      exact hcov'
    · rw [hlen, List.length_cons, List.length_cons]
      omega
    · rw [List.length_cons, ← drop_drop_of_add C' (rfl : rest.length + 1 = rest.length + 1), hdrop]
      rfl

theorem take_reverse_seg (quals : List Nat) (k m : Nat) (hk : k ≤ quals.length) :
    (quals.take k).reverse.take m = ((quals.drop (k - m)).take (k - (k - m))).reverse := by
  rw [List.take_reverse, List.length_take, Nat.min_eq_left hk, List.drop_take]

/-- The candidate cost of the inner loop in the terms of the vectors. -/
theorem candRev_eq_candCost (quals C tail : List Nat) (c k m : Nat) (hk : k ≤ quals.length)
    (hC : C.length = k) (hm1 : 1 ≤ m) (hm : m ≤ k) :
    candRev (quals.take k).reverse C m = candCost (C.reverse ++ c :: tail) quals (k - m) k := by
  have e1 : C.getD (m - 1) 0 = (C.reverse ++ c :: tail).getD (k - m) 0 := by
    rw [List.getD_append _ _ _ _ (by rw [List.length_reverse]; omega)]
    rw [List.getD_eq_getElem _ _ (by omega),
      List.getD_eq_getElem _ _ (by rw [List.length_reverse]; omega), List.getElem_reverse]
    congr 1
    omega
  have e2 := take_reverse_seg quals k m hk
  rw [candRev, candCost, e1, e2, width_reverse]
  congr 2
  omega

theorem stepExact_forward (quals C tail : List Nat) (c k : Nat) (best : Block)
    (hk1 : 1 ≤ k) (hk : k ≤ quals.length) (hC : C.length = k)
    (h : StepExact (quals.take k).reverse C c best) :
    ForwardExact (C.reverse ++ c :: tail) quals k best := by
  obtain ⟨h1, h2, h3, h4, h5, h6, h7⟩ := h
  have hlen : (quals.take k).reverse.length = k := by
    rw [List.length_reverse, List.length_take, Nat.min_eq_left hk]
  rw [hlen] at h2 h6
  have hbk : best.mNQs ≤ k := by omega
  have hget : (C.reverse ++ c :: tail).getD k 0 = c := by
    rw [List.getD_append_right _ _ _ _ (by rw [List.length_reverse]; omega),
      List.length_reverse, hC, Nat.sub_self]
    rfl
  have hseg : (quals.take k).reverse.take best.mNQs
      = ((quals.drop (k - best.mNQs)).take best.mNQs).reverse := by
    have := take_reverse_seg quals k best.mNQs hk
    have e : k - (k - best.mNQs) = best.mNQs := by omega
    rw [e] at this
    exact this
  refine ⟨h1, h2, ?_, ?_, ?_, ?_, ?_⟩
  · rw [h3, hseg, width_reverse]
  · rw [h4, hseg, segMin_reverse]
  · rw [hget]
    exact h5.trans (candRev_eq_candCost quals C tail c k best.mNQs hk hC h1 hbk)
  · intro j hj1 hj2
    have := h6 (k - j) (by omega) (by omega)
    rw [candRev_eq_candCost quals C tail c k (k - j) hk hC (by omega) (by omega)] at this
    have e : k - (k - j) = j := by omega
    rw [e] at this
    rw [hget]
    exact this
  · intro j hj1 hj2
    have := h7 (k - j) (by omega) (by omega)
    rw [candRev_eq_candCost quals C tail c k (k - j) hk hC (by omega) (by omega)] at this
    have e : k - (k - j) = j := by omega
    rw [e] at this
    rw [hget]
    exact this

/-- The iteration `k` of the outer loop of `configureBlocks`: the run on the first `k`
qualities, the run on all of them, and what relates them. -/
theorem dp_step (quals : List Nat) (h63 : ∀ q ∈ quals, q ≤ 63) (hn : quals.length < 2^32)
    (k : Nat) (hk1 : 1 ≤ k) (hk : k ≤ quals.length) :
    ∃ costs blocks costsK blocksK best,
      configureBlocks quals = .ok (costs, blocks) ∧
      configureBlocks (quals.take k) = .ok (costsK, blocksK) ∧
      costs.length = quals.length + 1 ∧ costs.head? = some 0 ∧ costsK = costs.take (k + 1) ∧
      blocksK.getLast? = some best ∧ ForwardExact costs quals k best := by
  have hsplit : quals.take (k - 1) ++ quals.drop (k - 1) = quals := List.take_append_drop _ _
  obtain ⟨q, rest, hqr⟩ : ∃ q rest, quals.drop (k - 1) = q :: rest := by
    cases hd : quals.drop (k - 1) with
    | nil =>
      have := congrArg List.length hd
      rw [List.length_drop, List.length_nil] at this
      omega
    | cons q rest => exact ⟨q, rest, rfl⟩
  have hinit63 : ∀ x ∈ quals.take (k - 1), x ≤ 63 := take_le63 h63 _
  have hq63 : q ≤ 63 := drop_le63 h63 (k - 1) q (by rw [hqr]; exact List.mem_cons_self q rest)
  have hrest63 : ∀ x ∈ rest, x ≤ 63 := fun x hx =>
    drop_le63 h63 (k - 1) x (by rw [hqr]; exact List.mem_cons_of_mem q hx)
  have hil : (quals.take (k - 1)).length = k - 1 := by
    rw [List.length_take]
    omega
  have hrl : rest.length + 1 + (k - 1) = quals.length := by
    have := congrArg List.length hsplit
    rw [List.length_append, hil, hqr, List.length_cons] at this
    omega
  obtain ⟨C, st, hA, hcovA, hlenA, hcbA, hdropA⟩ := sweepAll_costs (quals.take (k - 1)) [] [0] []
    hinit63 (fun x hx => absurd hx (List.not_mem_nil x)) rfl rfl ⟨Nat.zero_le _, trivial⟩
    (by rw [hil, List.length_nil]; omega)
  rw [List.append_nil] at hcovA
  have hCl : C.length = k := by
    rw [hlenA, hil, List.length_singleton]
    omega
  obtain ⟨c, st1, best, hS, hcovS, hhead, hex, hbnd⟩ := sweepStep_exact q
    (quals.take (k - 1)).reverse C st hq63 (fun x hx => hinit63 x (List.mem_reverse.1 hx)) hcovA
    (by rw [hCl, List.length_reverse, hil]; omega) hcbA
    (by rw [List.length_reverse, hil]; omega)
  rw [List.length_reverse, hil] at hbnd
  obtain ⟨CF, stF, hB, _, hlenB, _, hdropB⟩ := sweepAll_costs rest
    (q :: (quals.take (k - 1)).reverse) (c :: C) st1 hrest63
    (le63_cons hq63 (fun x hx => hinit63 x (List.mem_reverse.1 hx))) hcovS
    (by rw [List.length_cons, List.length_cons, hCl, List.length_reverse, hil]; omega)
    ⟨by rw [hCl]; exact (by
      have e : k - 1 + 1 = k := by omega
      rw [e] at hbnd
      exact hbnd), hcbA⟩
    (by rw [List.length_cons, List.length_reverse, hil]; omega)
  have htk : quals.take k = quals.take (k - 1) ++ [q] := by
    have := take_succ_of_drop hqr
    have e : k - 1 + 1 = k := by omega
    rw [e] at this
    exact this
  have hR : (quals.take k).reverse = q :: (quals.take (k - 1)).reverse := by
    rw [htk, List.reverse_append]
    rfl
  have hfull : sweepAll quals [] [0] [] = .ok (CF, stF) := by
    have := sweepAll_append (quals.take (k - 1)) (quals.drop (k - 1)) [] [0] []
    rw [hsplit, hA] at this
    rw [this]
    dsimp only
    rw [hqr, List.append_nil, sweepAll, hS]
    exact hB
  have hpre : sweepAll (quals.take k) [] [0] [] = .ok (c :: C, st1) := by
    have := sweepAll_append (quals.take (k - 1)) [q] [] [0] []
    rw [hA] at this
    rw [htk, this]
    dsimp only
    rw [List.append_nil, sweepAll, hS]
    rfl
  have hCF : CF = CF.take rest.length ++ c :: C := by
    have := List.take_append_drop rest.length CF
    rw [hdropB] at this
    exact this.symm
  have hcosts : CF.reverse = C.reverse ++ c :: (CF.take rest.length).reverse := by
    conv_lhs => rw [hCF]
    rw [List.reverse_append, List.reverse_cons, List.append_assoc, List.singleton_append]
  have hC0 : C = C.take (k - 1) ++ [0] := by
    have := List.take_append_drop (k - 1) C
    rw [hil] at hdropA
    rw [hdropA] at this
    exact this.symm
  refine ⟨CF.reverse, stF.reverse, (c :: C).reverse, st1.reverse, best, ?_, ?_, ?_, ?_, ?_, ?_, ?_⟩
  · rw [configureBlocks, hfull]
  · rw [configureBlocks, hpre]
  · rw [List.length_reverse, hlenB, List.length_cons, hCl]
    omega
  · rw [hcosts]
    conv_lhs => rw [hC0]
    rw [List.reverse_append]
    rfl
  · rw [hcosts, List.reverse_cons]
    have e : k + 1 = (C.reverse ++ [c]).length := by
      rw [List.length_append, List.length_reverse, hCl, List.length_singleton]
    have hx : C.reverse ++ c :: (CF.take rest.length).reverse
        = (C.reverse ++ [c]) ++ (CF.take rest.length).reverse := by
      rw [List.append_assoc, List.singleton_append]
    have ht := @List.take_left Nat (C.reverse ++ [c]) (CF.take rest.length).reverse
    rw [← e] at ht
    rw [hx, ht]
  · rw [List.getLast?_reverse]
    exact hhead
  · rw [hcosts]
    refine stepExact_forward quals C _ c k best hk1 hk hCl ?_
    rw [hR]
    exact hex

/-- The `OQ` branch on a tag `'O','Q','Z'`, payload, `0x00`: what `encode` of the payload
less 33 returns decides the outcome. -/
theorem oq_step_encode (env : Nat → Nat) (addr : Nat) (b rest oss : List Nat) (auxLen : Int) :
    tagStep env addr b.length ⟨[79, 81, 90] ++ b ++ [0] ++ rest, oss, auxLen⟩
      = match encode (b.map (fun val => (2^8 + val % 2^8 - 33) % 2^8)) with
        | .error e => .error (.codec e)
        | .ok packedQuals =>
          .ok ⟨rest, oss ++ [90, 81, 66, 67] ++ leBytes 4 (packedQuals.length % 2^32)
              ++ packedQuals.take (packedQuals.length % 2^32),
            toInt32 (auxLen - ((b.length + 1 + 3) % 2^32 : Nat))⟩ := by
  have hr : readN 3 ([79, 81, 90] ++ b ++ [0] ++ rest) = some ([79, 81, 90], b ++ ([0] ++ rest)) := by
    rw [List.append_assoc, List.append_assoc]
    exact readN_append [79, 81, 90] _
  unfold tagStep
  dsimp only
  rw [hr]
  dsimp only
  rw [if_pos (show [79, 81, 90].getD 0 0 = 79 ∧ [79, 81, 90].getD 1 0 = 81 from ⟨rfl, rfl⟩)]
  unfold oqTag
  rw [if_neg (show ¬ [79, 81, 90].getD 2 0 ≠ 90 from fun h => h rfl), readN_append]
  dsimp only
  show (if 0 % 2^8 ≠ 0 then _ else _) = _
  rw [if_neg (by decide)]
  cases encode (b.map (fun val => (2^8 + val % 2^8 - 33) % 2^8)) with
  | error e => rfl
  | ok packed =>
    dsimp only
    by_cases h0 : packed.length % 2^32 ≠ 0
    · rw [if_pos h0]
      rfl
    · rw [if_neg h0]
      have hz : packed.length % 2^32 = 0 := by omega
      rw [hz, List.take_zero, List.append_nil]
      rfl

theorem phred_wrap (x : Nat) (hx : x < 256) :
    ((2^8 + x % 2^8 - 33) % 2^8 = (2^8 + x - 33) % 2^8) ∧
      ((2^8 + x - 33) % 2^8 ≤ 63 ↔ 33 ≤ x ∧ x ≤ 96) ∧
      (x < 33 → (2^8 + x - 33) % 2^8 = x + 223) ∧
      (33 ≤ x → (2^8 + x - 33) % 2^8 = x - 33) := by
  simp only [Nat.reducePow]
  omega

theorem phred_map_bytes (b : List Nat) (hb : ∀ x ∈ b, x < 256) :
    b.map (fun val => (2^8 + val % 2^8 - 33) % 2^8) = b.map (fun x => (2^8 + x - 33) % 2^8) :=
  List.map_congr_left (fun x hx => (phred_wrap x (hb x hx)).1)

theorem packBlocks_eq_itr : ∀ (blocks : List Block) (quals out : List Nat),
    packBlocks blocks quals out
      = match packBlocksItr blocks quals out with
        | .error e => .error e
        | .ok (out, _) => .ok out
  | [], quals, out => rfl
  | b :: bs, quals, out => by
    rw [packBlocks, packBlocksItr]
    cases packBlock b quals out with
    | error e => rfl
    | ok p =>
      obtain ⟨o, q⟩ := p
      exact packBlocks_eq_itr bs q o

theorem packBlocksItr_spec : ∀ (blocks : List Block) (quals out : List Nat),
    Covers blocks quals →
    packBlocksItr blocks quals out
      = .ok (out ++ (wireBlocks blocks quals).flatMap (fun w => packBits (blockBits w)), [])
  | [], quals, out, h => by
    have hq : quals = [] := h
    subst hq
    rw [packBlocksItr, wireBlocks, segments, List.map_nil, List.flatMap_nil, List.append_nil]
  | b :: bs, quals, out, h => by
    obtain ⟨hb, hr⟩ := h
    have hpb := packBlock_spec b (quals.take b.mNQs) (quals.drop b.mNQs) out hb
    rw [List.take_append_drop] at hpb
    rw [packBlocksItr, hpb]
    dsimp only
    rw [packBlocksItr_spec bs _ _ hr, wireBlocks, wireBlocks, segments, List.map_cons,
      List.flatMap_cons, List.append_assoc]

/-! The properties. -/

/-- C1. Codec round trip: for every quality vector with all elements at most 63, of any
length, `encode` returns a packed buffer and `decode` of that buffer, wherever the
buffer lies in memory and whatever surrounds it, returns the vector. -/
theorem roundtrip_encode_decode (env : Nat → Nat) (addr : Nat) (quals : List Nat)
    (haddr : addr < 2^64) (hq : ∀ q ∈ quals, q ≤ 63) :
    ∃ packed, encode quals = .ok packed ∧ decode env addr packed = some quals :=
  decode_encode_eq env addr quals haddr hq

theorem roundtrip_encode_decode_witness :
    (4099 < 2^64 ∧ ∀ q ∈ [0, 0, 63, 63, 20, 21, 22, 5], q ≤ 63) ∧
      ∃ packed, encode [0, 0, 63, 63, 20, 21, 22, 5] = .ok packed ∧
        decode (fun _ => 255) 4099 packed = some [0, 0, 63, 63, 20, 21, 22, 5] :=
  ⟨⟨by decide, by decide⟩,
    roundtrip_encode_decode (fun _ => 255) 4099 [0, 0, 63, 63, 20, 21, 22, 5]
      (by decide) (by decide)⟩

/-- C2. The decoder accepts every conformant stream: for blocks with `nQs` in [1, 255],
`bits` in [0, 7], `minQ` in [0, 63] and `nQs` fields below `2^bits` (none when `bits` is 0),
`decode` of their LSB-first serialisation followed by a zero byte returns, block by
block, the values `minQ + field` (`minQ` repeated `nQs` times when `bits` is 0). -/
theorem decode_conformant_stream (env : Nat → Nat) (addr : Nat) (blocks : List WireBlock)
    (haddr : addr < 2^64) (hconf : ∀ w ∈ blocks, w.Conformant) :
    decode env addr (serialise blocks) = some (blocks.flatMap WireBlock.values) :=
  decode_serialise env addr blocks haddr hconf

theorem decode_conformant_stream_witness :
    (4101 < 2^64 ∧
      ∀ w ∈ [(⟨2, 7, 63, [127, 0]⟩ : WireBlock), ⟨3, 0, 5, []⟩, ⟨1, 3, 10, [7]⟩],
        w.Conformant) ∧
      decode (fun a => a % 256) 4101
          (serialise [⟨2, 7, 63, [127, 0]⟩, ⟨3, 0, 5, []⟩, ⟨1, 3, 10, [7]⟩])
        = some [190, 63, 5, 5, 5, 17] :=
  ⟨⟨by decide, by decide⟩,
    decode_conformant_stream (fun a => a % 256) 4101
      [⟨2, 7, 63, [127, 0]⟩, ⟨3, 0, 5, []⟩, ⟨1, 3, 10, [7]⟩] (by decide) (by decide)⟩

/-- C3 (evaluation at the failing input). On `[0, 0, 63, 63]` the cost table of
`configureBlocks` ends with 6, the cost of the covering `(2,0,0), (2,0,63)`, but the
block list it leaves is `(2,6,0), (2,0,63)`, whose `packedSize` is 7; `encode` therefore
returns 8 bytes although a conformant stream of 7 bytes decodes to the same vector. -/
theorem tailpop_not_minimal :
    configureBlocks [0, 0, 63, 63] = .ok ([0, 3, 3, 5, 6], [⟨2, 6, 0⟩, ⟨2, 0, 63⟩]) ∧
      packedSize [⟨2, 6, 0⟩, ⟨2, 0, 63⟩] = 7 ∧
      packedSize [⟨2, 0, 0⟩, ⟨2, 0, 63⟩] = 6 ∧
      Covers [⟨2, 0, 0⟩, ⟨2, 0, 63⟩] [0, 0, 63, 63] ∧
      encode [0, 0, 63, 63] = .ok [2, 6, 0, 0, 2, 248, 1, 0] ∧
      serialise (wireBlocks [⟨2, 0, 0⟩, ⟨2, 0, 63⟩] [0, 0, 63, 63]) = [2, 0, 0, 2, 248, 1, 0] ∧
      decode (fun _ => 0) 0 [2, 0, 0, 2, 248, 1, 0] = some [0, 0, 63, 63] := by
  refine ⟨by decide, by decide, by decide, ?_, by decide, by decide, by decide⟩
  exact ⟨by decide, by decide, rfl⟩

/-- C4 (evaluation at the failing input). `encode [0, 0, 63, 63]` returns 8 bytes, more
than `n + 3 = 7`, while the last entry of the cost table plus the terminator is 7. -/
theorem encode_exceeds_bound :
    encode [0, 0, 63, 63] = .ok [2, 6, 0, 0, 2, 248, 1, 0] ∧
      ¬ ([2, 6, 0, 0, 2, 248, 1, 0] : List Nat).length ≤ [0, 0, 63, 63].length + 3 ∧
      (configureBlocks [0, 0, 63, 63]).toOption.map (fun r => r.1.getLastD 0 + 1) = some 7 := by
  decide

/-- C5. Out-of-range rejection: `encode` fails if and only if some element of the vector
is greater than 63; the failure is the fatal exit on such an element, and when every
element is at most 63 `encode` returns a packed buffer. -/
theorem encode_fails_iff (quals : List Nat) :
    ((∃ e, encode quals = .error e) ↔ ∃ q ∈ quals, 63 < q) ∧
      (∀ e, encode quals = .error e → ∃ v ∈ quals, 63 < v ∧ e = .badQual v) ∧
      ((∀ q ∈ quals, q ≤ 63) → ∃ packed, encode quals = .ok packed) := by
  by_cases h : ∃ q ∈ quals, 63 < q
  · obtain ⟨v, hv, hmem, he⟩ := encode_error quals h
    refine ⟨⟨fun _ => h, fun _ => ⟨_, he⟩⟩, ?_, ?_⟩
    · intro e hee
      rw [he] at hee
      exact ⟨v, hmem, hv, (Except.error.inj hee).symm⟩
    · intro hall
      obtain ⟨q, hq, hq63⟩ := h
      have := hall q hq
      omega
  · have hall : ∀ q ∈ quals, q ≤ 63 := by
      intro q hq
      by_contra hc
      exact h ⟨q, hq, by omega⟩
    obtain ⟨costs, blocks, _, _, _, henc⟩ := encode_spec quals hall
    refine ⟨⟨?_, fun hx => absurd hx h⟩, ?_, fun _ => ⟨_, henc⟩⟩
    · rintro ⟨e, hee⟩
      rw [henc] at hee
      exact Except.noConfusion hee
    · intro e hee
      rw [henc] at hee
      exact Except.noConfusion hee

/-- C6. Empty boundary: `encode` of the empty vector returns exactly the one byte `0x00`;
`decode` of that byte returns the empty vector, and so does `decode` of the empty
buffer. -/
theorem empty_boundary :
    encode [] = .ok [0] ∧
      (∀ (env : Nat → Nat) (addr : Nat), addr < 2^64 → decode env addr [0] = some []) ∧
      (∀ (env : Nat → Nat) (addr : Nat), decode env addr [] = some []) := by
  refine ⟨by decide, ?_, ?_⟩
  · intro env addr haddr
    exact decode_serialise env addr [] haddr (fun w hw => absurd hw (List.not_mem_nil w))
  · intro env addr
    rfl

/-- C7. Block field limits: for a vector with all elements at most 63, every block that
`configureBlocks` leaves has `1 ≤ nQs ≤ 255`, `bits ≤ 6` (so at most 7) and `minQ ≤ 63`,
and the bytes that `encode` writes for it start with the byte `nQs`, which is not the
`0x00` sentinel. -/
theorem block_field_limits (quals : List Nat) (hq : ∀ q ∈ quals, q ≤ 63) :
    ∃ costs blocks, configureBlocks quals = .ok (costs, blocks) ∧
      (∀ b ∈ blocks, 1 ≤ b.mNQs ∧ b.mNQs ≤ 255 ∧ b.mBits ≤ 6 ∧ b.mBits ≤ 7 ∧ b.mMinQ ≤ 63) ∧
      ∀ p ∈ segments blocks quals, ∃ bytes,
        (∀ rest out, packBlock p.1 (p.2 ++ rest) out = .ok (out ++ bytes, rest)) ∧
          bytes.head? = some p.1.mNQs ∧ p.1.mNQs ≠ 0 := by
  obtain ⟨costs, blocks, he, hcov, _⟩ := configureBlocks_ok quals hq
  refine ⟨costs, blocks, he, ?_, ?_⟩
  · intro b hb
    obtain ⟨seg, _, h1, h2, h3, h4, _, _⟩ := blockOK_of_mem hcov hb
    exact ⟨h1, h2, h3, Nat.le_trans h3 (by decide), h4⟩
  · intro p hp
    have hok := (segments_spec blocks quals hcov).1 p hp
    refine ⟨packBits (blockBits (p.1.wire p.2)),
      fun rest out => packBlock_spec p.1 p.2 rest out hok, packed_head p.1 p.2 hok, ?_⟩
    have := hok.1
    omega

theorem block_field_limits_witness :
    (∀ q ∈ [0, 0, 63, 63, 63, 1, 2], q ≤ 63) ∧
      ∃ costs blocks, configureBlocks [0, 0, 63, 63, 63, 1, 2] = .ok (costs, blocks) ∧
        (∀ b ∈ blocks, 1 ≤ b.mNQs ∧ b.mNQs ≤ 255 ∧ b.mBits ≤ 6 ∧ b.mBits ≤ 7 ∧ b.mMinQ ≤ 63) ∧
        ∀ p ∈ segments blocks [0, 0, 63, 63, 63, 1, 2], ∃ bytes,
          (∀ rest out, packBlock p.1 (p.2 ++ rest) out = .ok (out ++ bytes, rest)) ∧
            bytes.head? = some p.1.mNQs ∧ p.1.mNQs ≠ 0 :=
  ⟨by decide, block_field_limits [0, 0, 63, 63, 63, 1, 2] (by decide)⟩

/-- C8. Block range invariant: for a vector with all elements at most 63, the blocks that
`configureBlocks` leaves tile the vector in order, and every element `q` covered by a
block satisfies `minQ ≤ q ≤ minQ + 2^bits - 1` when `bits > 0` and `q = minQ` when
`bits = 0`; blocks shortened by the tail-pop split are among them. -/
theorem block_range_invariant (quals : List Nat) (hq : ∀ q ∈ quals, q ≤ 63) :
    ∃ costs blocks, configureBlocks quals = .ok (costs, blocks) ∧
      (segments blocks quals).map Prod.fst = blocks ∧
      (segments blocks quals).flatMap Prod.snd = quals ∧
      (blocks.map Block.mNQs).sum = quals.length ∧
      ∀ p ∈ segments blocks quals, p.2.length = p.1.mNQs ∧
        ∀ q ∈ p.2, (0 < p.1.mBits → p.1.mMinQ ≤ q ∧ q ≤ p.1.mMinQ + 2 ^ p.1.mBits - 1) ∧
          (p.1.mBits = 0 → q = p.1.mMinQ) := by
  obtain ⟨costs, blocks, he, hcov, _⟩ := configureBlocks_ok quals hq
  obtain ⟨i1, i2, i3⟩ := segments_spec blocks quals hcov
  refine ⟨costs, blocks, he, i2, i3, covers_length hcov, ?_⟩
  intro p hp
  obtain ⟨_, _, _, _, h5, h6⟩ := i1 p hp
  refine ⟨h5, ?_⟩
  intro q hqm
  have := h6 q hqm
  refine ⟨?_, ?_⟩
  · intro _
    have hpos : 0 < 2 ^ p.1.mBits := Nat.two_pow_pos _
    generalize 2 ^ p.1.mBits = M at this hpos ⊢
    omega
  · intro hz
    rw [hz] at this
    omega

theorem block_range_invariant_witness :
    (∀ q ∈ [0, 0, 63, 63, 63, 1, 2], q ≤ 63) ∧
      ∃ costs blocks, configureBlocks [0, 0, 63, 63, 63, 1, 2] = .ok (costs, blocks) ∧
        (segments blocks [0, 0, 63, 63, 63, 1, 2]).map Prod.fst = blocks ∧
        (segments blocks [0, 0, 63, 63, 63, 1, 2]).flatMap Prod.snd = [0, 0, 63, 63, 63, 1, 2] ∧
        (blocks.map Block.mNQs).sum = [0, 0, 63, 63, 63, 1, 2].length ∧
        ∀ p ∈ segments blocks [0, 0, 63, 63, 63, 1, 2], p.2.length = p.1.mNQs ∧
          ∀ q ∈ p.2, (0 < p.1.mBits → p.1.mMinQ ≤ q ∧ q ≤ p.1.mMinQ + 2 ^ p.1.mBits - 1) ∧
            (p.1.mBits = 0 → q = p.1.mMinQ) :=
  ⟨by decide, block_range_invariant [0, 0, 63, 63, 63, 1, 2] (by decide)⟩

/-- C9. Serialized length formula: for a vector with all elements at most 63, the bytes
that `encode` writes for a block `(nQs, bits, minQ)` number exactly
`blockSize nQs bits = (nQs*bits + 17 + 7) >> 3`, the ceiling of `(nQs*bits + 17) / 8`, and
the length of `encode` is the sum of `blockSize` over `mBlocks` plus 1; for instance
`[0, 1, 2, 3]` gives the single block `(4, 2, 0)` and 5 bytes. -/
theorem serialized_length (quals : List Nat) (hq : ∀ q ∈ quals, q ≤ 63) :
    (∃ costs blocks packed, configureBlocks quals = .ok (costs, blocks) ∧
      encode quals = .ok packed ∧
      packed.length = (blocks.map (fun b => blockSize b.mNQs b.mBits)).sum + 1 ∧
      (∀ p ∈ segments blocks quals, ∃ bytes,
        (∀ rest out, packBlock p.1 (p.2 ++ rest) out = .ok (out ++ bytes, rest)) ∧
          bytes.length = blockSize p.1.mNQs p.1.mBits) ∧
      ∀ b ∈ blocks, blockSize b.mNQs b.mBits = (b.mNQs * b.mBits + 17 + 7) / 8 ∧
        b.mNQs * b.mBits + 17 ≤ 8 * blockSize b.mNQs b.mBits ∧
        8 * blockSize b.mNQs b.mBits < b.mNQs * b.mBits + 17 + 8) ∧
    configureBlocks [0, 1, 2, 3] = .ok ([0, 3, 3, 3, 4], [⟨4, 2, 0⟩]) ∧
    encode [0, 1, 2, 3] = .ok [4, 2, 200, 1, 0] := by
  refine ⟨?_, by decide, by decide⟩
  obtain ⟨costs, blocks, he, hcov, _, henc⟩ := encode_spec quals hq
  refine ⟨costs, blocks, _, he, henc, ?_, ?_, ?_⟩
  · rw [serialise, List.length_append, wire_bytes_length blocks quals hcov]
    rfl
  · intro p hp
    have hok := (segments_spec blocks quals hcov).1 p hp
    exact ⟨packBits (blockBits (p.1.wire p.2)),
      fun rest out => packBlock_spec p.1 p.2 rest out hok, packedBlock_length p.1 p.2 hok⟩
  · intro b hb
    obtain ⟨seg, _, _, h2, h3, _, _, _⟩ := blockOK_of_mem hcov hb
    rw [blockSize_eq h2 (Nat.le_trans h3 (by decide))]
    generalize b.mNQs * b.mBits = X
    omega

theorem serialized_length_witness :
    (∀ q ∈ [0, 0, 63, 63, 63, 1, 2], q ≤ 63) ∧
    ((∃ costs blocks packed, configureBlocks [0, 0, 63, 63, 63, 1, 2] = .ok (costs, blocks) ∧
      encode [0, 0, 63, 63, 63, 1, 2] = .ok packed ∧
      packed.length = (blocks.map (fun b => blockSize b.mNQs b.mBits)).sum + 1 ∧
      (∀ p ∈ segments blocks [0, 0, 63, 63, 63, 1, 2], ∃ bytes,
        (∀ rest out, packBlock p.1 (p.2 ++ rest) out = .ok (out ++ bytes, rest)) ∧
          bytes.length = blockSize p.1.mNQs p.1.mBits) ∧
      ∀ b ∈ blocks, blockSize b.mNQs b.mBits = (b.mNQs * b.mBits + 17 + 7) / 8 ∧
        b.mNQs * b.mBits + 17 ≤ 8 * blockSize b.mNQs b.mBits ∧
        8 * blockSize b.mNQs b.mBits < b.mNQs * b.mBits + 17 + 8) ∧
    configureBlocks [0, 1, 2, 3] = .ok ([0, 3, 3, 3, 4], [⟨4, 2, 0⟩]) ∧
    encode [0, 1, 2, 3] = .ok [4, 2, 200, 1, 0]) :=
  ⟨by decide, serialized_length [0, 0, 63, 63, 63, 1, 2] (by decide)⟩

/-- C10. Constant vectors collapse to chained zero-width blocks: for `v ≤ 63` and `n`
copies of `v` (`n` below `2^32`, the lengths a 32-bit `seqLen` allows),
`configureBlocks` leaves `n / 255` blocks `(255, 0, v)` followed by one block
`(n % 255, 0, v)` when `n % 255` is not 0, and `encode` returns `3 * ceil(n / 255) + 1`
bytes; 4 copies of 20 give the single block `(4, 0, 20)`. -/
theorem constant_vector_blocks (v n : Nat) (hv : v ≤ 63) (hn : n < 2^32) :
    (∃ costs, configureBlocks (List.replicate n v) = .ok (costs,
      List.replicate (n / 255) ⟨255, 0, v⟩ ++
        (if n % 255 ≠ 0 then [⟨n % 255, 0, v⟩] else []))) ∧
    (∃ packed, encode (List.replicate n v) = .ok packed ∧
      packed.length = 3 * ((n + 254) / 255) + 1) ∧
    configureBlocks [20, 20, 20, 20] = .ok ([0, 3, 3, 3, 3], [⟨4, 0, 20⟩]) := by
  have hc := configureBlocks_const v n hv hn
  refine ⟨⟨_, hc⟩, ?_, by decide⟩
  have hall : ∀ q ∈ List.replicate n v, q ≤ 63 := by
    intro q hq
    rw [List.eq_of_mem_replicate hq]
    exact hv
  obtain ⟨costs, blocks, he, hcov, _, henc⟩ := encode_spec (List.replicate n v) hall
  rw [hc] at he
  have hb : blocks = constBlocks v n := (congrArg Prod.snd (Except.ok.inj he)).symm
  refine ⟨_, henc, ?_⟩
  rw [serialise, List.length_append, wire_bytes_length blocks _ hcov, hb, constBlocks_size]
  rfl

theorem constant_vector_blocks_witness :
    (10 ≤ 63 ∧ 300 < 2^32) ∧
    (∃ costs, configureBlocks (List.replicate 300 10)
      = .ok (costs, [⟨255, 0, 10⟩, ⟨45, 0, 10⟩])) ∧
    (∃ packed, encode (List.replicate 300 10) = .ok packed ∧ packed.length = 7) ∧
    configureBlocks [20, 20, 20, 20] = .ok ([0, 3, 3, 3, 3], [⟨4, 0, 20⟩]) :=
  ⟨⟨by decide, by decide⟩, constant_vector_blocks 10 300 (by decide) (by decide)⟩

/-- C11. Bitstream layout: for a vector with all elements at most 63, `encode` returns,
for the blocks of `configureBlocks` in order, the byte `nQs`, the byte
`((minQ << 3) | bits) mod 256`, then the bytes of the LSB-first bit stream that starts
with the bit `minQ >> 5` and goes on with the fields `q - minQ`, `bits` bits each, the
last byte filled with zero bits (one byte `minQ >> 5` when `bits` is 0), and after the
last block one byte `0x00`; `encode [v]` is `[0x01, (v << 3) mod 256, v >> 5, 0x00]` for
every `v ≤ 63`, `[0x01, 0xA0, 0x00, 0x00]` for `v = 20`. -/
theorem bitstream_layout (quals : List Nat) (hq : ∀ q ∈ quals, q ≤ 63) :
    ∃ costs blocks, configureBlocks quals = .ok (costs, blocks) ∧
      encode quals = .ok (layout blocks quals) ∧
      (∀ p ∈ segments blocks quals, p.1.mBits = 0 →
        layoutBlock p.1 p.2 = [p.1.mNQs, (p.1.mMinQ <<< 3) % 256, p.1.mMinQ >>> 5]) ∧
      (∀ v, v ≤ 63 → encode [v] = .ok [1, (v <<< 3) % 256, v >>> 5, 0]) ∧
      encode [20] = .ok [0x01, 0xA0, 0x00, 0x00] := by
  obtain ⟨costs, blocks, hcb, hcov, _, henc⟩ := encode_spec quals hq
  refine ⟨costs, blocks, hcb, ?_, ?_, fun v hv => encode_single v (by omega), by decide⟩
  · rw [henc, serialise, serialise_layout blocks quals hcov, layout]
  · intro p hp hz
    exact layout_zero_bits p.1 p.2 hz ((segments_spec blocks quals hcov).1 p hp).2.2.2.1

theorem bitstream_layout_witness :
    (∀ q ∈ [0, 0, 63, 63, 63, 1, 2], q ≤ 63) ∧
    ∃ costs blocks, configureBlocks [0, 0, 63, 63, 63, 1, 2] = .ok (costs, blocks) ∧
      encode [0, 0, 63, 63, 63, 1, 2] = .ok (layout blocks [0, 0, 63, 63, 63, 1, 2]) ∧
      (∀ p ∈ segments blocks [0, 0, 63, 63, 63, 1, 2], p.1.mBits = 0 →
        layoutBlock p.1 p.2 = [p.1.mNQs, (p.1.mMinQ <<< 3) % 256, p.1.mMinQ >>> 5]) ∧
      (∀ v, v ≤ 63 → encode [v] = .ok [1, (v <<< 3) % 256, v >>> 5, 0]) ∧
      encode [20] = .ok [0x01, 0xA0, 0x00, 0x00] :=
  ⟨by decide, bitstream_layout [0, 0, 63, 63, 63, 1, 2] (by decide)⟩

/-- C13 (evaluation at the failing input). The record with `remainingBlockSize = 58`,
`nameLen = 2`, `cigarLen = 0`, `seqLen = 3`, name `r`, two sequence bytes, three quals
and the three aux tags `XB:B:c` with count 0, `XA:i`, `XC:C` (19 bytes; the tags as the
size table of the specification delimits them, none of them `OQ` or `ZQ`) is accepted by
the alignment loop, but the bytes written are not the bytes read: the empty array is
copied as a null-terminated value that runs up to the zero byte in the value of `XA`,
the rest `O`, `Q`, `Z` of that value is read as a tag header, the tag `XC` as its
payload, and a `ZQ` tag is written; the recomputed `remainingBlockSize` is 64. -/
theorem passthrough_fails_on_empty_array :
    specTags ([88, 66, 66, 99, 0, 0, 0, 0] ++ [88, 65, 105, 0, 79, 81, 90] ++ [88, 67, 67, 0])
      = some [[88, 66, 66, 99, 0, 0, 0, 0], [88, 65, 105, 0, 79, 81, 90], [88, 67, 67, 0]] ∧
    (∀ tag ∈ [[88, 66, 66, 99, 0, 0, 0, 0], [88, 65, 105, 0, 79, 81, 90], ([88, 67, 67, 0] : List Nat)], isQualName tag = false) ∧
    mRemainingBlockSize [58, 0, 0, 0, 0, 0, 0, 0, 0, 0, 0, 0, 2, 0, 0, 0, 0, 0, 4, 0, 3, 0, 0, 0,
          255, 255, 255, 255, 255, 255, 255, 255, 0, 0, 0, 0] = 58 ∧
    mNameLen [58, 0, 0, 0, 0, 0, 0, 0, 0, 0, 0, 0, 2, 0, 0, 0, 0, 0, 4, 0, 3, 0, 0, 0,
          255, 255, 255, 255, 255, 255, 255, 255, 0, 0, 0, 0] = 2 ∧
    mCigarLen [58, 0, 0, 0, 0, 0, 0, 0, 0, 0, 0, 0, 2, 0, 0, 0, 0, 0, 4, 0, 3, 0, 0, 0,
          255, 255, 255, 255, 255, 255, 255, 255, 0, 0, 0, 0] = 0 ∧
    mSeqLen [58, 0, 0, 0, 0, 0, 0, 0, 0, 0, 0, 0, 2, 0, 0, 0, 0, 0, 4, 0, 3, 0, 0, 0,
          255, 255, 255, 255, 255, 255, 255, 255, 0, 0, 0, 0] = 3 ∧
    58 = 32 + 2 + 4 * 0 + (3 + 1) / 2 + 3
      + ([88, 66, 66, 99, 0, 0, 0, 0] ++ [88, 65, 105, 0, 79, 81, 90] ++ ([88, 67, 67, 0] : List Nat)).length ∧
    auxLenTags [58, 0, 0, 0, 0, 0, 0, 0, 0, 0, 0, 0, 2, 0, 0, 0, 0, 0, 4, 0, 3, 0, 0, 0,
          255, 255, 255, 255, 255, 255, 255, 255, 0, 0, 0, 0] = 19 ∧
    processAlignment (fun _ => 0) 0
        ([58, 0, 0, 0, 0, 0, 0, 0, 0, 0, 0, 0, 2, 0, 0, 0, 0, 0, 4, 0, 3, 0, 0, 0,
          255, 255, 255, 255, 255, 255, 255, 255, 0, 0, 0, 0]
          ++ [114, 0, 18, 64, 30, 30, 30] ++ ([88, 66, 66, 99, 0, 0, 0, 0] ++ [88, 65, 105, 0, 79, 81, 90] ++ [88, 67, 67, 0]))
      = .ok ([64, 0, 0, 0, 0, 0, 0, 0, 0, 0, 0, 0, 2, 0, 0, 0, 0, 0, 4, 0, 3, 0, 0, 0,
          255, 255, 255, 255, 255, 255, 255, 255, 0, 0, 0, 0]
          ++ [114, 0, 18, 64, 30, 30, 30] ++ ([88, 66, 66, 99, 0, 0, 0, 0] ++ [88, 65, 105, 0]
            ++ [90, 81, 66, 67, 5, 0, 0, 0, 3, 21, 43, 0, 0]), []) ∧
    [64, 0, 0, 0, 0, 0, 0, 0, 0, 0, 0, 0, 2, 0, 0, 0, 0, 0, 4, 0, 3, 0, 0, 0,
          255, 255, 255, 255, 255, 255, 255, 255, 0, 0, 0, 0]
          ++ [114, 0, 18, 64, 30, 30, 30] ++ ([88, 66, 66, 99, 0, 0, 0, 0] ++ [88, 65, 105, 0]
            ++ [90, 81, 66, 67, 5, 0, 0, 0, 3, 21, 43, 0, 0])
      ≠ [58, 0, 0, 0, 0, 0, 0, 0, 0, 0, 0, 0, 2, 0, 0, 0, 0, 0, 4, 0, 3, 0, 0, 0,
          255, 255, 255, 255, 255, 255, 255, 255, 0, 0, 0, 0]
          ++ [114, 0, 18, 64, 30, 30, 30] ++ ([88, 66, 66, 99, 0, 0, 0, 0] ++ [88, 65, 105, 0, 79, 81, 90] ++ [88, 67, 67, 0]) ∧
    recordHasQualTag (fun _ => 0) 0
        ([58, 0, 0, 0, 0, 0, 0, 0, 0, 0, 0, 0, 2, 0, 0, 0, 0, 0, 4, 0, 3, 0, 0, 0,
          255, 255, 255, 255, 255, 255, 255, 255, 0, 0, 0, 0]
          ++ [114, 0, 18, 64, 30, 30, 30] ++ ([88, 66, 66, 99, 0, 0, 0, 0] ++ [88, 65, 105, 0, 79, 81, 90] ++ [88, 67, 67, 0])) = true ∧
    encode [88 - 33, 67 - 33, 67 - 33] = .ok [3, 21, 43, 0, 0] := by
  refine ⟨by decide, by decide, by decide, by decide, by decide, by decide, by decide,
    by decide, by decide, by decide, by decide, by decide⟩

/-- C14 (the claim as stated fails). For the header with `remainingBlockSize = 40`,
`nameLen = 2`, `cigarLen = 1`, `seqLen = 1` the tag loop starts with `auxLen = 0`, and
the record with no aux byte is accepted and copied, while the claimed expression with
`- 32 + 4` gives 4; for the same header with `remainingBlockSize = 36` the claimed
expression gives 0, but the code has `auxLen = -4` and rejects the record. -/
theorem aux_budget_claim_fails :
    auxLenTags [40, 0, 0, 0, 1, 0, 0, 0, 2, 0, 0, 0, 2, 9, 7, 0, 1, 0, 0, 0, 1, 0, 0, 0,
        5, 0, 0, 0, 6, 0, 0, 0, 7, 0, 0, 0] = 0 ∧
    claimedAuxLen [40, 0, 0, 0, 1, 0, 0, 0, 2, 0, 0, 0, 2, 9, 7, 0, 1, 0, 0, 0, 1, 0, 0, 0,
        5, 0, 0, 0, 6, 0, 0, 0, 7, 0, 0, 0] = 4 ∧
    processAlignment (fun _ => 0) 0
        ([40, 0, 0, 0, 1, 0, 0, 0, 2, 0, 0, 0, 2, 9, 7, 0, 1, 0, 0, 0, 1, 0, 0, 0,
        5, 0, 0, 0, 6, 0, 0, 0, 7, 0, 0, 0] ++ [65, 0, 16, 0, 0, 0, 16, 30])
      = .ok ([40, 0, 0, 0, 1, 0, 0, 0, 2, 0, 0, 0, 2, 9, 7, 0, 1, 0, 0, 0, 1, 0, 0, 0,
        5, 0, 0, 0, 6, 0, 0, 0, 7, 0, 0, 0] ++ [65, 0, 16, 0, 0, 0, 16, 30], []) ∧
    claimedAuxLen [36, 0, 0, 0, 1, 0, 0, 0, 2, 0, 0, 0, 2, 9, 7, 0, 1, 0, 0, 0, 1, 0, 0, 0,
        5, 0, 0, 0, 6, 0, 0, 0, 7, 0, 0, 0] = 0 ∧
    auxLenTags [36, 0, 0, 0, 1, 0, 0, 0, 2, 0, 0, 0, 2, 9, 7, 0, 1, 0, 0, 0, 1, 0, 0, 0,
        5, 0, 0, 0, 6, 0, 0, 0, 7, 0, 0, 0] = -4 ∧
    readFixed ([36, 0, 0, 0, 1, 0, 0, 0, 2, 0, 0, 0, 2, 9, 7, 0, 1, 0, 0, 0, 1, 0, 0, 0,
        5, 0, 0, 0, 6, 0, 0, 0, 7, 0, 0, 0] ++ [65, 0, 16, 0, 0, 0, 16, 30]) = .error .invalidBlockSize := by
  refine ⟨by decide, by decide, by decide, by decide, by decide, by decide⟩

/-- C14 (amended). Aux length budget: with `sizeof(BAMAlignHead) = 36`, the value of
`auxLen` with which the tag loop starts is `remainingBlockSize - 36 + 4 - nameLen
- 4*cigarLen - (seqLen+1)/2 - seqLen` converted to a signed 32-bit value (`(seqLen+1)/2`
in 32-bit unsigned arithmetic), which is 4 less than the claimed expression; it is
that value itself when that lies in the `int32_t` range; an accepted record has it
non-negative, and a record whose name and cigar can be read is rejected with
"invalid alignment block size" when it is negative. -/
theorem aux_budget (input aln rest : List Nat)
    (hr : readN sizeofBAMAlignHead input = some (aln, rest)) :
    sizeofBAMAlignHead = 36 ∧
    auxLenTags aln = toInt32 ((mRemainingBlockSize aln : Int) - 36 + 4 - mNameLen aln
      - 4 * mCigarLen aln - (((mSeqLen aln + 1) % 2^32 / 2 : Nat) : Int) - mSeqLen aln) ∧
    auxLenTags aln = toInt32 (claimedAuxLen aln - 4) ∧
    (∀ z : Int, z = (mRemainingBlockSize aln : Int) - 36 + 4 - mNameLen aln
        - 4 * mCigarLen aln - (((mSeqLen aln + 1) % 2^32 / 2 : Nat) : Int) - mSeqLen aln →
      -2^31 ≤ z → z < 2^31 → auxLenTags aln = z) ∧
    (∀ a w, readFixed input = .ok (a, w) → w.auxLen = auxLenTags a ∧ 0 ≤ w.auxLen) ∧
    (mNameLen aln + mCigarLen aln * 4 ≤ rest.length → auxLenTags aln < 0 →
      readFixed input = .error .invalidBlockSize) := by
  refine ⟨rfl, auxLenTags_eq aln, ?_, ?_, ?_, fun hlen hneg => readFixed_reject input aln rest hr hlen hneg⟩
  · rw [auxLenTags_eq, claimedAuxLen, toInt32_sub_left]
    apply toInt32_mod_congr
    generalize (mRemainingBlockSize aln : Int) = R
    generalize (mNameLen aln : Int) = n
    generalize (mCigarLen aln : Int) = c
    generalize (((mSeqLen aln + 1) % 2^32 / 2 : Nat) : Int) = v
    generalize (mSeqLen aln : Int) = s
    simp only [Int.reducePow]
    omega
  · intro z hz h1 h2
    rw [auxLenTags_eq, ← hz]
    exact toInt32_of_range h1 h2
  · intro a w hf
    obtain ⟨h1, h2, _⟩ := readFixed_auxLen hf
    exact ⟨h1, by rw [h1]; exact h2⟩

theorem aux_budget_witness :
    readN sizeofBAMAlignHead ([36, 0, 0, 0, 1, 0, 0, 0, 2, 0, 0, 0, 2, 9, 7, 0, 1, 0, 0, 0, 1, 0, 0, 0,
        5, 0, 0, 0, 6, 0, 0, 0, 7, 0, 0, 0] ++ [65, 0, 16, 0, 0, 0, 16, 30])
      = some ([36, 0, 0, 0, 1, 0, 0, 0, 2, 0, 0, 0, 2, 9, 7, 0, 1, 0, 0, 0, 1, 0, 0, 0,
        5, 0, 0, 0, 6, 0, 0, 0, 7, 0, 0, 0], [65, 0, 16, 0, 0, 0, 16, 30]) ∧
    (sizeofBAMAlignHead = 36 ∧
    auxLenTags [36, 0, 0, 0, 1, 0, 0, 0, 2, 0, 0, 0, 2, 9, 7, 0, 1, 0, 0, 0, 1, 0, 0, 0,
        5, 0, 0, 0, 6, 0, 0, 0, 7, 0, 0, 0]
      = toInt32 ((mRemainingBlockSize [36, 0, 0, 0, 1, 0, 0, 0, 2, 0, 0, 0, 2, 9, 7, 0, 1, 0, 0, 0, 1, 0, 0, 0,
        5, 0, 0, 0, 6, 0, 0, 0, 7, 0, 0, 0] : Int) - 36 + 4 - mNameLen [36, 0, 0, 0, 1, 0, 0, 0, 2, 0, 0, 0, 2, 9, 7, 0, 1, 0, 0, 0, 1, 0, 0, 0,
        5, 0, 0, 0, 6, 0, 0, 0, 7, 0, 0, 0]
      - 4 * mCigarLen [36, 0, 0, 0, 1, 0, 0, 0, 2, 0, 0, 0, 2, 9, 7, 0, 1, 0, 0, 0, 1, 0, 0, 0,
        5, 0, 0, 0, 6, 0, 0, 0, 7, 0, 0, 0]
      - (((mSeqLen [36, 0, 0, 0, 1, 0, 0, 0, 2, 0, 0, 0, 2, 9, 7, 0, 1, 0, 0, 0, 1, 0, 0, 0,
        5, 0, 0, 0, 6, 0, 0, 0, 7, 0, 0, 0] + 1) % 2^32 / 2 : Nat) : Int) - mSeqLen [36, 0, 0, 0, 1, 0, 0, 0, 2, 0, 0, 0, 2, 9, 7, 0, 1, 0, 0, 0, 1, 0, 0, 0,
        5, 0, 0, 0, 6, 0, 0, 0, 7, 0, 0, 0]) ∧
    auxLenTags [36, 0, 0, 0, 1, 0, 0, 0, 2, 0, 0, 0, 2, 9, 7, 0, 1, 0, 0, 0, 1, 0, 0, 0,
        5, 0, 0, 0, 6, 0, 0, 0, 7, 0, 0, 0] = toInt32 (claimedAuxLen [36, 0, 0, 0, 1, 0, 0, 0, 2, 0, 0, 0, 2, 9, 7, 0, 1, 0, 0, 0, 1, 0, 0, 0,
        5, 0, 0, 0, 6, 0, 0, 0, 7, 0, 0, 0] - 4) ∧
    (∀ z : Int, z = (mRemainingBlockSize [36, 0, 0, 0, 1, 0, 0, 0, 2, 0, 0, 0, 2, 9, 7, 0, 1, 0, 0, 0, 1, 0, 0, 0,
        5, 0, 0, 0, 6, 0, 0, 0, 7, 0, 0, 0] : Int) - 36 + 4 - mNameLen [36, 0, 0, 0, 1, 0, 0, 0, 2, 0, 0, 0, 2, 9, 7, 0, 1, 0, 0, 0, 1, 0, 0, 0,
        5, 0, 0, 0, 6, 0, 0, 0, 7, 0, 0, 0]
        - 4 * mCigarLen [36, 0, 0, 0, 1, 0, 0, 0, 2, 0, 0, 0, 2, 9, 7, 0, 1, 0, 0, 0, 1, 0, 0, 0,
        5, 0, 0, 0, 6, 0, 0, 0, 7, 0, 0, 0]
        - (((mSeqLen [36, 0, 0, 0, 1, 0, 0, 0, 2, 0, 0, 0, 2, 9, 7, 0, 1, 0, 0, 0, 1, 0, 0, 0,
        5, 0, 0, 0, 6, 0, 0, 0, 7, 0, 0, 0] + 1) % 2^32 / 2 : Nat) : Int) - mSeqLen [36, 0, 0, 0, 1, 0, 0, 0, 2, 0, 0, 0, 2, 9, 7, 0, 1, 0, 0, 0, 1, 0, 0, 0,
        5, 0, 0, 0, 6, 0, 0, 0, 7, 0, 0, 0] →
      -2^31 ≤ z → z < 2^31 → auxLenTags [36, 0, 0, 0, 1, 0, 0, 0, 2, 0, 0, 0, 2, 9, 7, 0, 1, 0, 0, 0, 1, 0, 0, 0,
        5, 0, 0, 0, 6, 0, 0, 0, 7, 0, 0, 0] = z) ∧
    (∀ a w, readFixed ([36, 0, 0, 0, 1, 0, 0, 0, 2, 0, 0, 0, 2, 9, 7, 0, 1, 0, 0, 0, 1, 0, 0, 0,
        5, 0, 0, 0, 6, 0, 0, 0, 7, 0, 0, 0] ++ [65, 0, 16, 0, 0, 0, 16, 30]) = .ok (a, w) →
      w.auxLen = auxLenTags a ∧ 0 ≤ w.auxLen) ∧
    (mNameLen [36, 0, 0, 0, 1, 0, 0, 0, 2, 0, 0, 0, 2, 9, 7, 0, 1, 0, 0, 0, 1, 0, 0, 0,
        5, 0, 0, 0, 6, 0, 0, 0, 7, 0, 0, 0] + mCigarLen [36, 0, 0, 0, 1, 0, 0, 0, 2, 0, 0, 0, 2, 9, 7, 0, 1, 0, 0, 0, 1, 0, 0, 0,
        5, 0, 0, 0, 6, 0, 0, 0, 7, 0, 0, 0] * 4 ≤ ([65, 0, 16, 0, 0, 0, 16, 30] : List Nat).length →
      auxLenTags [36, 0, 0, 0, 1, 0, 0, 0, 2, 0, 0, 0, 2, 9, 7, 0, 1, 0, 0, 0, 1, 0, 0, 0,
        5, 0, 0, 0, 6, 0, 0, 0, 7, 0, 0, 0] < 0 →
      readFixed ([36, 0, 0, 0, 1, 0, 0, 0, 2, 0, 0, 0, 2, 9, 7, 0, 1, 0, 0, 0, 1, 0, 0, 0,
        5, 0, 0, 0, 6, 0, 0, 0, 7, 0, 0, 0] ++ [65, 0, 16, 0, 0, 0, 16, 30]) = .error .invalidBlockSize)) :=
  ⟨by decide, aux_budget _ _ _ (by decide)⟩

/-- C15. Tag size table: `getTagLength` returns 1 for the type bytes `A`, `c`, `C`, 2 for
`s`, `S`, 4 for `i`, `I`, `f`, 0 for `Z`, `H`, `B` and -1 for every other value; in a
round of the tag loop (where `auxLen > 0`) a tag whose type byte maps to -1 ends the
program (for a tag that is neither `OQ` nor `ZQ` with "bad data type in tag header"), and
so does a `B` tag whose element subtype maps to a value `≤ 0` ("bad data type in B tag
header", or a truncated header when fewer than four bytes follow the subtype). -/
theorem tag_size_table :
    (∀ c ∈ ['A', 'c', 'C'], getTagLength c.toNat = 1) ∧
    (∀ c ∈ ['s', 'S'], getTagLength c.toNat = 2) ∧
    (∀ c ∈ ['i', 'I', 'f'], getTagLength c.toNat = 4) ∧
    (∀ c ∈ ['Z', 'H', 'B'], getTagLength c.toNat = 0) ∧
    (∀ d, d ∉ ['A', 'c', 'C', 's', 'S', 'i', 'I', 'f', 'Z', 'H', 'B'].map Char.toNat →
      getTagLength d = -1) ∧
    (∀ (env : Nat → Nat) (addr seqLen fuel : Nat) (w : Walk) (t0 t1 ty : Nat) (rest : List Nat),
      w.input = t0 :: t1 :: ty :: rest → getTagLength ty = -1 → 0 < w.auxLen →
      w.auxLen < 2^31 →
      walkTags env addr seqLen (fuel + 1) w = .error
        (if t0 = 79 ∧ t1 = 81 then .oqNonZ else if t0 = 90 ∧ t1 = 81 then .zqNonB
          else .badTagType)) ∧
    (∀ (env : Nat → Nat) (addr seqLen fuel : Nat) (w : Walk) (t0 t1 sub : Nat)
        (rest : List Nat),
      w.input = t0 :: t1 :: 'B'.toNat :: sub :: rest → getTagLength sub ≤ 0 → 0 < w.auxLen →
      w.auxLen < 2^31 →
      walkTags env addr seqLen (fuel + 1) w = .error
        (if t0 = 79 ∧ t1 = 81 then .oqNonZ else if t0 = 90 ∧ t1 = 81 then .zqNonC
          else if rest.length < 4 then .bTagTruncated else .bTagBadType)) := by
  refine ⟨by decide, by decide, by decide, by decide, getTagLength_other, ?_, ?_⟩
  · intro env addr seqLen fuel w t0 t1 ty rest hin hty hpos hmax
    exact walkTags_step_error env addr seqLen fuel w _ hpos
      (tagStep_bad_type env addr seqLen w t0 t1 ty rest hin hty hpos hmax)
  · intro env addr seqLen fuel w t0 t1 sub rest hin hsub hpos hmax
    exact walkTags_step_error env addr seqLen fuel w _ hpos
      (tagStep_bad_subtype env addr seqLen w t0 t1 sub rest hin hsub hpos hmax)

/-- C16. DP cost recurrence: for a vector of `n < 2^32` qualities, all at most 63,
`configureBlocks` leaves `n + 1` entries in `mCosts`, the first is 0, and for every `k`
in `[1, n]` the entry `k` is the least of `mCosts[j] + blockSize (k - j) (width q[j..k))`
over the starts `j` in `[max(0, k-255), k)`, where `width` is `ceilLg2 (max - min + 1)`;
`ceilLg2 1 = 0` and `ceilLg2 m` is the ceiling of the binary logarithm of `m` for the
arguments `1 ≤ m ≤ 64` that occur. -/
theorem cost_recurrence (quals : List Nat) (h63 : ∀ q ∈ quals, q ≤ 63)
    (hn : quals.length < 2^32) :
    ∃ costs blocks, configureBlocks quals = .ok (costs, blocks) ∧
      costs.length = quals.length + 1 ∧ costs.head? = some 0 ∧
      (∀ k, 1 ≤ k → k ≤ quals.length →
        (∃ j, k - 255 ≤ j ∧ j < k ∧ costs.getD k 0 = candCost costs quals j k) ∧
        ∀ j, k - 255 ≤ j → j < k → costs.getD k 0 ≤ candCost costs quals j k) ∧
      ceilLg2 1 = 0 ∧
      ∀ m, 1 ≤ m → m ≤ 64 → m ≤ 2 ^ ceilLg2 m ∧ (ceilLg2 m = 0 ∨ 2 ^ (ceilLg2 m - 1) < m) := by
  obtain ⟨costs, blocks, hcb, _, hlen⟩ := configureBlocks_ok quals h63
  refine ⟨costs, blocks, hcb, hlen, ?_, ?_, by decide, ?_⟩
  · by_cases h0 : quals.length = 0
    · have hq : quals = [] := List.length_eq_zero.1 h0
      subst hq
      have := Except.ok.inj (hcb.symm.trans (by decide :
        configureBlocks [] = .ok ([0], [])))
      rw [(Prod.mk.inj this).1]
      rfl
    · obtain ⟨costs', _, _, _, _, hcb', _, _, hhead, _⟩ := dp_step quals h63 hn 1 (le_refl 1)
        (by omega)
      have := (Prod.mk.inj (Except.ok.inj (hcb.symm.trans hcb'))).1
      rw [this]
      exact hhead
  · intro k hk1 hk
    obtain ⟨costs', _, _, _, best, hcb', _, _, _, _, _, hex⟩ := dp_step quals h63 hn k hk1 hk
    have := (Prod.mk.inj (Except.ok.inj (hcb.symm.trans hcb'))).1
    rw [this]
    obtain ⟨h1, h2, _, _, h5, h6, _⟩ := hex
    exact ⟨⟨k - best.mNQs, by omega, by omega, h5⟩, h6⟩
  · intro m hm1 hm2
    interval_cases m <;> decide

theorem cost_recurrence_witness :
    ((∀ q ∈ [0, 0, 63, 63, 63, 1, 2], q ≤ 63) ∧ [0, 0, 63, 63, 63, 1, 2].length < 2^32) ∧
    ∃ costs blocks, configureBlocks [0, 0, 63, 63, 63, 1, 2] = .ok (costs, blocks) ∧
      costs.length = [0, 0, 63, 63, 63, 1, 2].length + 1 ∧ costs.head? = some 0 ∧
      (∀ k, 1 ≤ k → k ≤ [0, 0, 63, 63, 63, 1, 2].length →
        (∃ j, k - 255 ≤ j ∧ j < k ∧
          costs.getD k 0 = candCost costs [0, 0, 63, 63, 63, 1, 2] j k) ∧
        ∀ j, k - 255 ≤ j → j < k →
          costs.getD k 0 ≤ candCost costs [0, 0, 63, 63, 63, 1, 2] j k) ∧
      ceilLg2 1 = 0 ∧
      ∀ m, 1 ≤ m → m ≤ 64 → m ≤ 2 ^ ceilLg2 m ∧ (ceilLg2 m = 0 ∨ 2 ^ (ceilLg2 m - 1) < m) :=
  ⟨⟨by decide, by decide⟩, cost_recurrence [0, 0, 63, 63, 63, 1, 2] (by decide) (by decide)⟩

/-- C17 (evaluation at the failing input). On `[0, 0, 63, 63]` the blocks recorded as
best at the positions 1 to 4 are `(1,0,0), (2,0,0), (3,6,0), (2,0,63)`; the back-pointer
walk from `k = 4` gives `(2,0,0), (2,0,63)`, while the tail-pop of `configureBlocks`
leaves `(2,6,0), (2,0,63)`: the two lists differ and so do the bytes written for
them. -/
theorem tailpop_differs_from_backpointer :
    sweepBests [0, 0, 63, 63] [] [0] = .ok [⟨1, 0, 0⟩, ⟨2, 0, 0⟩, ⟨3, 6, 0⟩, ⟨2, 0, 63⟩] ∧
      backPointerBlocks [0, 0, 63, 63] = .ok [⟨2, 0, 0⟩, ⟨2, 0, 63⟩] ∧
      configureBlocks [0, 0, 63, 63] = .ok ([0, 3, 3, 5, 6], [⟨2, 6, 0⟩, ⟨2, 0, 63⟩]) ∧
      configureBlocks [0, 0, 63, 63] ≠ (backPointerBlocks [0, 0, 63, 63]).map
        (fun bs => ([0, 3, 3, 5, 6], bs)) ∧
      layout [⟨2, 0, 0⟩, ⟨2, 0, 63⟩] [0, 0, 63, 63] = [2, 0, 0, 2, 248, 1, 0] ∧
      encode [0, 0, 63, 63] = .ok [2, 6, 0, 0, 2, 248, 1, 0] := by
  refine ⟨by decide, by decide, by decide, by decide, by decide, by decide⟩

/-- C18. Strict tie-break: for a vector of `n < 2^32` qualities, all at most 63, and
every `k` in `[1, n]`, the block recorded as best at `k` (the last block of `mBlocks`
after the iteration `k`, that is, of the run on the first `k` qualities, from whose
state the loop goes on) starts at a `j` in `[max(0, k-255), k)` whose cost
`mCosts[j] + blockSize (k - j) (width q[j..k))` is `mCosts[k]`, the least over that
range, and every later start (shorter block) costs strictly more: of the starts that
attain the minimum it is the largest. -/
theorem strict_tie_break (quals : List Nat) (h63 : ∀ q ∈ quals, q ≤ 63)
    (hn : quals.length < 2^32) (k : Nat) (hk1 : 1 ≤ k) (hk : k ≤ quals.length) :
    ∃ costs blocks costsK blocksK best,
      configureBlocks quals = .ok (costs, blocks) ∧
      configureBlocks (quals.take k) = .ok (costsK, blocksK) ∧
      sweepAll quals [] [0] []
        = sweepAll (quals.drop k) (quals.take k).reverse costsK.reverse blocksK.reverse ∧
      costsK = costs.take (k + 1) ∧ blocksK.getLast? = some best ∧
      1 ≤ best.mNQs ∧ k - 255 ≤ k - best.mNQs ∧ k - best.mNQs < k ∧
      best.mBits = width ((quals.drop (k - best.mNQs)).take best.mNQs) ∧
      best.mMinQ = segMin ((quals.drop (k - best.mNQs)).take best.mNQs) ∧
      costs.getD k 0 = candCost costs quals (k - best.mNQs) k ∧
      (∀ j, k - 255 ≤ j → j < k → costs.getD k 0 ≤ candCost costs quals j k) ∧
      (∀ j, k - best.mNQs < j → j < k → costs.getD k 0 < candCost costs quals j k) := by
  obtain ⟨costs, blocks, costsK, blocksK, best, hcb, hcbK, _, _, htake, hlast, hex⟩ :=
    dp_step quals h63 hn k hk1 hk
  obtain ⟨cK, sK, hrun, hgo, _, _⟩ := sweepAll_prefix quals h63 k hk
  obtain ⟨h1, h2, h3, h4, h5, h6, h7⟩ := hex
  have hK : costsK = cK.reverse ∧ blocksK = sK.reverse := by
    rw [configureBlocks, hrun] at hcbK
    exact ⟨(Prod.mk.inj (Except.ok.inj hcbK)).1.symm, (Prod.mk.inj (Except.ok.inj hcbK)).2.symm⟩
  refine ⟨costs, blocks, costsK, blocksK, best, hcb, hcbK, ?_, htake, hlast, h1, by omega,
    by omega, h3, h4, h5, h6, h7⟩
  rw [hK.1, hK.2, List.reverse_reverse, List.reverse_reverse]
  exact hgo

theorem strict_tie_break_witness :
    ((∀ q ∈ [0, 0, 63, 63, 63, 1, 2], q ≤ 63) ∧ [0, 0, 63, 63, 63, 1, 2].length < 2^32 ∧
      1 ≤ 4 ∧ 4 ≤ [0, 0, 63, 63, 63, 1, 2].length) ∧
    ∃ costs blocks costsK blocksK best,
      configureBlocks [0, 0, 63, 63, 63, 1, 2] = .ok (costs, blocks) ∧
      configureBlocks ([0, 0, 63, 63, 63, 1, 2].take 4) = .ok (costsK, blocksK) ∧
      sweepAll [0, 0, 63, 63, 63, 1, 2] [] [0] []
        = sweepAll ([0, 0, 63, 63, 63, 1, 2].drop 4) ([0, 0, 63, 63, 63, 1, 2].take 4).reverse
            costsK.reverse blocksK.reverse ∧
      costsK = costs.take (4 + 1) ∧ blocksK.getLast? = some best ∧
      1 ≤ best.mNQs ∧ 4 - 255 ≤ 4 - best.mNQs ∧ 4 - best.mNQs < 4 ∧
      best.mBits = width (([0, 0, 63, 63, 63, 1, 2].drop (4 - best.mNQs)).take best.mNQs) ∧
      best.mMinQ = segMin (([0, 0, 63, 63, 63, 1, 2].drop (4 - best.mNQs)).take best.mNQs) ∧
      costs.getD 4 0 = candCost costs [0, 0, 63, 63, 63, 1, 2] (4 - best.mNQs) 4 ∧
      (∀ j, 4 - 255 ≤ j → j < 4 →
        costs.getD 4 0 ≤ candCost costs [0, 0, 63, 63, 63, 1, 2] j 4) ∧
      (∀ j, 4 - best.mNQs < j → j < 4 →
        costs.getD 4 0 < candCost costs [0, 0, 63, 63, 63, 1, 2] j 4) :=
  ⟨⟨by decide, by decide, by decide, by decide⟩,
    strict_tie_break [0, 0, 63, 63, 63, 1, 2] (by decide) (by decide) 4 (by decide) (by decide)⟩

/-- C19. Coverage invariant of the tail-pop: for a vector with all elements at most 63
and every `k ≤ n`, the first `k` iterations of the outer loop of `configureBlocks` end
without an undefined access in a state from which the loop goes on over the rest, the
`nQs` of the blocks of that state sum to exactly `k` and each is at least 1 (also after
a split), the next iteration succeeds as well (no `back()` on an empty list, no pop that
empties it); at the end the `nQs` sum to `n`, and the loop of `encode` over the blocks
consumes exactly the `n` elements: every block takes its `nQs` elements from `itr`
(its segment, no element before or after it), `itr` is at the end of the vector after the
last block, and `encode` returns the bytes written and the terminator. -/
theorem coverage_invariant (quals : List Nat) (hq : ∀ q ∈ quals, q ≤ 63) (k : Nat)
    (hk : k ≤ quals.length) :
    ∃ costsK stackK, sweepAll (quals.take k) [] [0] [] = .ok (costsK, stackK) ∧
      sweepAll quals [] [0] [] = sweepAll (quals.drop k) (quals.take k).reverse costsK stackK ∧
      (stackK.map Block.mNQs).sum = k ∧ (∀ b ∈ stackK, 1 ≤ b.mNQs) ∧
      (∀ q rest, quals.drop k = q :: rest →
        ∃ c stack, sweepStep q (quals.take k).reverse costsK stackK = .ok (c, stack)) ∧
      ∃ costs blocks bytes, configureBlocks quals = .ok (costs, blocks) ∧
        (blocks.map Block.mNQs).sum = quals.length ∧
        packBlocksItr blocks quals [] = .ok (bytes, []) ∧
        encode quals = .ok (bytes ++ [0]) ∧
        (segments blocks quals).map Prod.fst = blocks ∧
        (segments blocks quals).flatMap Prod.snd = quals ∧
        ∀ p ∈ segments blocks quals, p.2.length = p.1.mNQs ∧ 1 ≤ p.1.mNQs ∧
          ∀ rest out, ∃ written,
            packBlock p.1 (p.2 ++ rest) out = .ok (out ++ written, rest) := by
  obtain ⟨costsK, stackK, he, hgo, hcov, hlen⟩ := sweepAll_prefix quals hq k hk
  refine ⟨costsK, stackK, he, hgo, ?_, fun b hb => (covers_mem_pos hcov b hb).1, ?_, ?_⟩
  · rw [covers_length hcov, List.length_reverse, List.length_take, Nat.min_eq_left hk]
  · intro q rest hd
    have hq63 : q ≤ 63 := drop_le63 hq k q (by rw [hd]; exact List.mem_cons_self q rest)
    obtain ⟨c, st, hs, _⟩ := sweepStep_ok q (quals.take k).reverse costsK stackK hq63
      (fun x hx => take_le63 hq k x (List.mem_reverse.1 hx)) hcov
      (by rw [hlen, List.length_reverse, List.length_take, Nat.min_eq_left hk])
    exact ⟨c, st, hs⟩
  · obtain ⟨costs, blocks, hcb, hcv, _, henc⟩ := encode_spec quals hq
    obtain ⟨hseg, hfst, hsnd⟩ := segments_spec blocks quals hcv
    refine ⟨costs, blocks, (wireBlocks blocks quals).flatMap (fun w => packBits (blockBits w)),
      hcb, covers_length hcv, ?_, ?_, hfst, hsnd, ?_⟩
    · have := packBlocksItr_spec blocks quals [] hcv
      rw [List.nil_append] at this
      exact this
    · rw [henc, serialise]
    · intro p hp
      have hb := hseg p hp
      exact ⟨hb.2.2.2.2.1, hb.1, fun rest out => ⟨_, packBlock_spec p.1 p.2 rest out hb⟩⟩

theorem coverage_invariant_witness :
    ((∀ q ∈ [0, 0, 63, 63, 63, 1, 2], q ≤ 63) ∧ 4 ≤ [0, 0, 63, 63, 63, 1, 2].length) ∧
    ∃ costsK stackK, sweepAll ([0, 0, 63, 63, 63, 1, 2].take 4) [] [0] [] = .ok (costsK, stackK) ∧
      sweepAll [0, 0, 63, 63, 63, 1, 2] [] [0] []
        = sweepAll ([0, 0, 63, 63, 63, 1, 2].drop 4) ([0, 0, 63, 63, 63, 1, 2].take 4).reverse
            costsK stackK ∧
      (stackK.map Block.mNQs).sum = 4 ∧ (∀ b ∈ stackK, 1 ≤ b.mNQs) ∧
      (∀ q rest, [0, 0, 63, 63, 63, 1, 2].drop 4 = q :: rest →
        ∃ c stack, sweepStep q ([0, 0, 63, 63, 63, 1, 2].take 4).reverse costsK stackK
          = .ok (c, stack)) ∧
      ∃ costs blocks bytes, configureBlocks [0, 0, 63, 63, 63, 1, 2] = .ok (costs, blocks) ∧
        (blocks.map Block.mNQs).sum = [0, 0, 63, 63, 63, 1, 2].length ∧
        packBlocksItr blocks [0, 0, 63, 63, 63, 1, 2] [] = .ok (bytes, []) ∧
        encode [0, 0, 63, 63, 63, 1, 2] = .ok (bytes ++ [0]) ∧
        (segments blocks [0, 0, 63, 63, 63, 1, 2]).map Prod.fst = blocks ∧
        (segments blocks [0, 0, 63, 63, 63, 1, 2]).flatMap Prod.snd = [0, 0, 63, 63, 63, 1, 2] ∧
        ∀ p ∈ segments blocks [0, 0, 63, 63, 63, 1, 2], p.2.length = p.1.mNQs ∧ 1 ≤ p.1.mNQs ∧
          ∀ rest out, ∃ written,
            packBlock p.1 (p.2 ++ rest) out = .ok (out ++ written, rest) :=
  ⟨⟨by decide, by decide⟩, coverage_invariant [0, 0, 63, 63, 63, 1, 2] (by decide) 4 (by decide)⟩

/-- C20. Decode is independent of buffer placement: for every conformant stream (blocks
serialised, then the byte `0x00`), `decode` returns the same values, those of the blocks,
for every buffer address below `2^64` (so for every offset within the first 64-bit word),
for every content of the memory outside the buffer, and for every bytes that follow the
terminator inside the buffer. -/
theorem decode_placement_independent (blocks : List WireBlock)
    (hconf : ∀ w ∈ blocks, w.Conformant) (env env' : Nat → Nat) (addr addr' : Nat)
    (haddr : addr < 2^64) (haddr' : addr' < 2^64) (extra extra' : List Nat) :
    decode env addr (serialise blocks ++ extra)
        = decode env' addr' (serialise blocks ++ extra') ∧
      decode env addr (serialise blocks ++ extra) = some (blocks.flatMap WireBlock.values) ∧
      decode env addr (serialise blocks) = decode env' addr' (serialise blocks) := by
  have h1 := decode_serialise_append env addr blocks extra haddr hconf
  have h2 := decode_serialise_append env' addr' blocks extra' haddr' hconf
  have h3 := decode_serialise env addr blocks haddr hconf
  have h4 := decode_serialise env' addr' blocks haddr' hconf
  exact ⟨h1.trans h2.symm, h1, h3.trans h4.symm⟩

theorem decode_placement_independent_witness :
    ((∀ w ∈ [(⟨2, 7, 63, [127, 0]⟩ : WireBlock), ⟨3, 0, 5, []⟩, ⟨1, 3, 10, [7]⟩],
        w.Conformant) ∧ 4101 < 2^64 ∧ 16 < 2^64) ∧
      (decode (fun a => a % 256) 4101
          (serialise [⟨2, 7, 63, [127, 0]⟩, ⟨3, 0, 5, []⟩, ⟨1, 3, 10, [7]⟩] ++ [9, 0, 255])
        = decode (fun _ => 255) 16
          (serialise [⟨2, 7, 63, [127, 0]⟩, ⟨3, 0, 5, []⟩, ⟨1, 3, 10, [7]⟩] ++ []) ∧
      decode (fun a => a % 256) 4101
          (serialise [⟨2, 7, 63, [127, 0]⟩, ⟨3, 0, 5, []⟩, ⟨1, 3, 10, [7]⟩] ++ [9, 0, 255])
        = some [190, 63, 5, 5, 5, 17] ∧
      decode (fun a => a % 256) 4101
          (serialise [⟨2, 7, 63, [127, 0]⟩, ⟨3, 0, 5, []⟩, ⟨1, 3, 10, [7]⟩])
        = decode (fun _ => 255) 16
          (serialise [⟨2, 7, 63, [127, 0]⟩, ⟨3, 0, 5, []⟩, ⟨1, 3, 10, [7]⟩])) :=
  ⟨⟨by decide, by decide, by decide⟩,
    decode_placement_independent [⟨2, 7, 63, [127, 0]⟩, ⟨3, 0, 5, []⟩, ⟨1, 3, 10, [7]⟩]
      (by decide) (fun a => a % 256) (fun _ => 255) 4101 16 (by decide) (by decide)
      [9, 0, 255] []⟩

/-- C21. OQ byte domain: for a tag `'O','Q','Z'` with `seqLen` payload bytes followed by a
zero byte, the `OQ` branch returns (and then has written `'Z','Q','B','C'`, the length
and the packed bytes) if and only if every payload byte is in [33, 96]; otherwise it
ends in the fatal exit of the encoder on the value `(byte - 33) mod 256` of a payload
byte outside [33, 96], which is above 63 both for a byte below 33 (it wraps to
`byte + 223`) and for a byte above 96 (79, 81, 90, 66, 67 are the bytes `O`, `Q`, `Z`,
`B`, `C`). -/
theorem oq_byte_domain (env : Nat → Nat) (addr : Nat) (b rest oss : List Nat) (auxLen : Int)
    (hbytes : ∀ x ∈ b, x < 256) :
    ((∃ w, tagStep env addr b.length ⟨[79, 81, 90] ++ b ++ [0] ++ rest, oss, auxLen⟩ = .ok w)
        ↔ ∀ x ∈ b, 33 ≤ x ∧ x ≤ 96) ∧
      ((∀ x ∈ b, 33 ≤ x ∧ x ≤ 96) →
        ∃ packed, encode (b.map (fun x => x - 33)) = .ok packed ∧
          tagStep env addr b.length ⟨[79, 81, 90] ++ b ++ [0] ++ rest, oss, auxLen⟩
            = .ok ⟨rest, oss ++ [90, 81, 66, 67] ++ leBytes 4 (packed.length % 2^32)
                ++ packed.take (packed.length % 2^32),
              toInt32 (auxLen - ((b.length + 1 + 3) % 2^32 : Nat))⟩) ∧
      ((∃ x ∈ b, x < 33 ∨ 96 < x) →
        ∃ x ∈ b, (x < 33 ∨ 96 < x) ∧ 63 < (2^8 + x - 33) % 2^8 ∧
          tagStep env addr b.length ⟨[79, 81, 90] ++ b ++ [0] ++ rest, oss, auxLen⟩
            = .error (.codec (.badQual ((2^8 + x - 33) % 2^8)))) ∧
      (∀ x, x < 33 → (2^8 + x - 33) % 2^8 = x + 223 ∧ 63 < x + 223) ∧
      (∀ x, 96 < x → x < 256 → (2^8 + x - 33) % 2^8 = x - 33 ∧ 63 < x - 33) := by
  have hstep := oq_step_encode env addr b rest oss auxLen
  rw [phred_map_bytes b hbytes] at hstep
  have hgood : (∀ x ∈ b, 33 ≤ x ∧ x ≤ 96) →
      ∃ packed, encode (b.map (fun x => x - 33)) = .ok packed ∧
        tagStep env addr b.length ⟨[79, 81, 90] ++ b ++ [0] ++ rest, oss, auxLen⟩
          = .ok ⟨rest, oss ++ [90, 81, 66, 67] ++ leBytes 4 (packed.length % 2^32)
              ++ packed.take (packed.length % 2^32),
            toInt32 (auxLen - ((b.length + 1 + 3) % 2^32 : Nat))⟩ := by
    intro hall
    have hmap : b.map (fun x => (2^8 + x - 33) % 2^8) = b.map (fun x => x - 33) :=
      List.map_congr_left (fun x hx =>
        (phred_wrap x (hbytes x hx)).2.2.2 (hall x hx).1)
    obtain ⟨_, _, _, _, _, henc⟩ := encode_spec (b.map (fun x => x - 33))
      (phred_map b hall).2.2
    rw [hmap, henc] at hstep
    exact ⟨_, henc, hstep⟩
  have hbad : (∃ x ∈ b, x < 33 ∨ 96 < x) →
      ∃ x ∈ b, (x < 33 ∨ 96 < x) ∧ 63 < (2^8 + x - 33) % 2^8 ∧
        tagStep env addr b.length ⟨[79, 81, 90] ++ b ++ [0] ++ rest, oss, auxLen⟩
          = .error (.codec (.badQual ((2^8 + x - 33) % 2^8))) := by
    rintro ⟨x, hx, hout⟩
    have hq : ∃ q ∈ b.map (fun x => (2^8 + x - 33) % 2^8), 63 < q := by
      refine ⟨_, List.mem_map.2 ⟨x, hx, rfl⟩, ?_⟩
      have := (phred_wrap x (hbytes x hx)).2.1
      omega
    obtain ⟨v, hv, hmem, henc⟩ := encode_error _ hq
    obtain ⟨y, hy, rfl⟩ := List.mem_map.1 hmem
    rw [henc] at hstep
    refine ⟨y, hy, ?_, hv, hstep⟩
    have := (phred_wrap y (hbytes y hy)).2.1
    omega
  refine ⟨⟨?_, fun hall => ?_⟩, hgood, hbad, ?_, ?_⟩
  · rintro ⟨w, hw⟩
    by_contra hnot
    have hex : ∃ x ∈ b, x < 33 ∨ 96 < x := by
      by_contra hc
      apply hnot
      intro x hx
      by_contra hr
      exact hc ⟨x, hx, by omega⟩
    obtain ⟨_, _, _, _, herr⟩ := hbad hex
    rw [herr] at hw
    exact Except.noConfusion hw
  · obtain ⟨_, _, h⟩ := hgood hall
    exact ⟨_, h⟩
  · intro x hx
    simp only [Nat.reducePow]
    omega
  · intro x hx1 hx2
    simp only [Nat.reducePow]
    omega

theorem oq_byte_domain_witness :
    (∀ x ∈ [53, 10, 200], x < 256) ∧
    (((∃ w, tagStep (fun _ => 0) 0 [53, 10, 200].length
          ⟨[79, 81, 90] ++ [53, 10, 200] ++ [0] ++ [7], [8], 9⟩ = .ok w)
        ↔ ∀ x ∈ [53, 10, 200], 33 ≤ x ∧ x ≤ 96) ∧
      ((∀ x ∈ [53, 10, 200], 33 ≤ x ∧ x ≤ 96) →
        ∃ packed, encode ([53, 10, 200].map (fun x => x - 33)) = .ok packed ∧
          tagStep (fun _ => 0) 0 [53, 10, 200].length
              ⟨[79, 81, 90] ++ [53, 10, 200] ++ [0] ++ [7], [8], 9⟩
            = .ok ⟨[7], [8] ++ [90, 81, 66, 67] ++ leBytes 4 (packed.length % 2^32)
                ++ packed.take (packed.length % 2^32),
              toInt32 (9 - (([53, 10, 200].length + 1 + 3) % 2^32 : Nat))⟩) ∧
      ((∃ x ∈ [53, 10, 200], x < 33 ∨ 96 < x) →
        ∃ x ∈ [53, 10, 200], (x < 33 ∨ 96 < x) ∧ 63 < (2^8 + x - 33) % 2^8 ∧
          tagStep (fun _ => 0) 0 [53, 10, 200].length
              ⟨[79, 81, 90] ++ [53, 10, 200] ++ [0] ++ [7], [8], 9⟩
            = .error (.codec (.badQual ((2^8 + x - 33) % 2^8)))) ∧
      (∀ x, x < 33 → (2^8 + x - 33) % 2^8 = x + 223 ∧ 63 < x + 223) ∧
      (∀ x, 96 < x → x < 256 → (2^8 + x - 33) % 2^8 = x - 33 ∧ 63 < x - 33)) :=
  ⟨by decide, oq_byte_domain (fun _ => 0) 0 [53, 10, 200] [7] [8] 9 (by decide)⟩

end OQCompress
